import Mathlib

/-!
# Verification of the `bfm_tree` adaptive radix tree (`src/bdbench/radix.c`)

Shallow embedding of the adaptive radix-tree integer map.  Machine
integers (`uint64` keys/values, `uint8` chunks, `uint16` counts) are
modelled as `Nat`; wraparound is written out explicitly (`% 2 ^ 64`)
where the C arithmetic can wrap.  Pointer-linked nodes become an
inductive tree; the parallel `chunks[]`/`slots[]` (resp. `values[]`)
arrays of the sorted size classes become a single list of pairs whose
length is the node's `count` (the C code moves both arrays in lockstep
and never reads past `count`); the `offsets[]` tables of the 128
classes and the direct `slots[]`/bitmap of the 256 ("max") classes
become functions, with `none`/`false` standing for the `0xFF` sentinel,
a NULL pointer, or a cleared presence bit.  In-place mutation through
parent back-pointers (`bfm_redirect`) is modelled by rebuilding the
path: the recursive call returns the possibly reallocated child and the
caller stores it in the slot it descended through, which is exactly
what `bfm_redirect` does to the parent's slot.
-/

set_option maxHeartbeats 1000000
set_option maxRecDepth 100000

namespace Radix

/-- `BFM_FANOUT = 8`, so a chunk is one byte: `(key >> (8*d)) & 0xFF`. -/
def keyChunk (key d : Nat) : Nat := key / 2 ^ (8 * d) % 256

/-- `bfm_maxval_shift`: `(UINT64_C(1) << (shift + BFM_FANOUT)) - 1` in
uint64 arithmetic (for `shift = 56` the shift wraps to `0` and the
subtraction wraps to `2^64 - 1`, the value also returned by the
explicit `shift == maxshift` branch). -/
def bfm_maxval_shift (shift : Nat) : Nat := (2 ^ (shift + 8) - 1) % 2 ^ 64

/-- Fueled binary logarithm (64 halvings suffice for any uint64). -/
def log2fuel : Nat → Nat → Nat
  | 0, _ => 0
  | f + 1, n => if n < 2 then 0 else log2fuel f (n / 2) + 1

/-- `pg_leftmost_one_pos64(key)`: index of the most significant set
bit, i.e. `⌊log2 key⌋` (callers guard `key != 0`). -/
def pg_leftmost_one_pos64 (key : Nat) : Nat := log2fuel 64 key

/--
One `bfm_tree_node`.  Constructors follow the six inner and six leaf
size classes of `radix.c` (`bfm_tree_node_inner_1` … `_max`,
`bfm_tree_node_leaf_1` … `_max`).  Every constructor carries the
node's `node_chunk` byte; inner constructors also carry `node_shift`
(leaves always have `node_shift = 0`).  For the sorted classes
(1/4/16/32) `ps` is the logical content: the first `count` entries of
the parallel `chunks`/`slots` (or `chunks`/`values`) arrays.  For the
128 classes `offs` is the 256-entry `offsets[]` table (`none` =
`BFM_TREE_NODE_128_INVALID`) and `vals`/`slots` the packed 128-entry
payload array, kept as a total function because deleted slots retain
their stale contents in the C code.  For the max classes `slots` is the
direct 256-entry pointer array (`none` = NULL) and `bset` the leaf
presence bitmap.
-/
inductive bfmNode : Type where
  | leaf1   (chunk : Nat) (ps : List (Nat × Nat))
  | leaf4   (chunk : Nat) (ps : List (Nat × Nat))
  | leaf16  (chunk : Nat) (ps : List (Nat × Nat))
  | leaf32  (chunk : Nat) (ps : List (Nat × Nat))
  | leaf128 (chunk : Nat) (offs : Nat → Option Nat) (vals : Nat → Nat) (cnt : Nat)
  | leafMax (chunk : Nat) (bset : Nat → Bool) (vals : Nat → Nat) (cnt : Nat)
  | inner1   (shift : Nat) (chunk : Nat) (ps : List (Nat × bfmNode))
  | inner4   (shift : Nat) (chunk : Nat) (ps : List (Nat × bfmNode))
  | inner16  (shift : Nat) (chunk : Nat) (ps : List (Nat × bfmNode))
  | inner32  (shift : Nat) (chunk : Nat) (ps : List (Nat × bfmNode))
  | inner128 (shift : Nat) (chunk : Nat) (offs : Nat → Option Nat)
      (slots : Nat → Option bfmNode) (cnt : Nat)
  | innerMax (shift : Nat) (chunk : Nat) (slots : Nat → Option bfmNode) (cnt : Nat)

/-- `node->b.node_shift` (0 for every leaf class). -/
def nodeShift : bfmNode → Nat
  | .inner1 sh _ _ => sh
  | .inner4 sh _ _ => sh
  | .inner16 sh _ _ => sh
  | .inner32 sh _ _ => sh
  | .inner128 sh _ _ _ _ => sh
  | .innerMax sh _ _ _ => sh
  | _ => 0

/-- `node->b.node_chunk`. -/
def nodeChunk : bfmNode → Nat
  | .leaf1 c _ => c
  | .leaf4 c _ => c
  | .leaf16 c _ => c
  | .leaf32 c _ => c
  | .leaf128 c _ _ _ => c
  | .leafMax c _ _ _ => c
  | .inner1 _ c _ => c
  | .inner4 _ c _ => c
  | .inner16 _ c _ => c
  | .inner32 _ c _ => c
  | .inner128 _ c _ _ _ => c
  | .innerMax _ c _ _ => c

/-- `child->node_chunk = child_chunk` (head of `bfm_insert_inner`). -/
def setNodeChunk : bfmNode → Nat → bfmNode
  | .leaf1 _ ps, c => .leaf1 c ps
  | .leaf4 _ ps, c => .leaf4 c ps
  | .leaf16 _ ps, c => .leaf16 c ps
  | .leaf32 _ ps, c => .leaf32 c ps
  | .leaf128 _ o v n, c => .leaf128 c o v n
  | .leafMax _ b v n, c => .leafMax c b v n
  | .inner1 sh _ ps, c => .inner1 sh c ps
  | .inner4 sh _ ps, c => .inner4 sh c ps
  | .inner16 sh _ ps, c => .inner16 sh c ps
  | .inner32 sh _ ps, c => .inner32 sh c ps
  | .inner128 sh _ o s n, c => .inner128 sh c o s n
  | .innerMax sh _ s n, c => .innerMax sh c s n

/-- `bfm_tree`: optional root and `maxval` (allocator pools and the
`BFM_STATS` counters carry no tree content and are omitted). -/
structure bfmTree : Type where
  rnode : Option bfmNode
  maxval : Nat

/-- `bfm_init`: `memset(root, 0, ...)` — empty root, `maxval = 0`. -/
def bfm_init : bfmTree := ⟨none, 0⟩

/-! ## Chunk-array search primitives (`search_chunk_array_*`) -/

/-- Scalar `search_chunk_array_{4,16,32}_eq` on the first `count`
elements, here on the logical list: index of the first element equal to
`m`, `none` for the C return value `-1`. -/
def search_eq : List Nat → Nat → Option Nat
  | [], _ => none
  | c :: cs, m => if c = m then some 0 else (search_eq cs m).map (· + 1)

/-- Scalar `search_chunk_array_{4,16,32}_le`: index of the first
element `≥ m`, or `count` when there is none. -/
def search_le : List Nat → Nat → Nat
  | [], _ => 0
  | c :: cs, m => if m ≤ c then 0 else (search_le cs m) + 1

/-- `memmove`-style insertion at an index (shift the tail up one slot,
write the new element at `i`). -/
def insAt : Nat → α → List α → List α
  | _, a, [] => [a]
  | 0, a, l => a :: l
  | n + 1, a, x :: l => x :: insAt n a l

/-- First-match association lookup: `search_chunk_array_*_eq` over the
`chunks` halves of the pairs followed by reading the payload at the
returned index. -/
def findPair : List (Nat × α) → Nat → Option α
  | [], _ => none
  | (c, v) :: ps, m => if c = m then some v else findPair ps m

/-- Overwrite the payload of the first pair whose chunk is `m`
(`values[index] = val` after a successful `_eq` search). -/
def writePair : List (Nat × α) → Nat → α → List (Nat × α)
  | [], _, _ => []
  | (c, v) :: ps, m, a => if c = m then (c, a) :: ps else (c, v) :: writePair ps m a

/-- `memmove`-style removal of the first pair whose chunk is `m`
(`bfm_delete_leaf` / `bfm_delete_inner` on the sorted classes). -/
def erasePair : List (Nat × α) → Nat → List (Nat × α)
  | [], _ => []
  | (c, v) :: ps, m => if c = m then ps else (c, v) :: erasePair ps m

/-- Sorted insertion: insert `(m, a)` at the `search_chunk_array_*_le`
position. -/
def insPairLe (ps : List (Nat × α)) (m : Nat) (a : α) : List (Nat × α) :=
  insAt (search_le (ps.map Prod.fst) m) (m, a) ps

/-! ## Per-level search (`bfm_find_one_level_inner` / `_leaf`) -/

/-- `bfm_find_one_level_inner`.  A NULL slot behind a live 128-class
offset is a miss, exactly as in the C walk (`slot == NULL`).  On a leaf
node the C code would be type-punning garbage; the model returns a
miss, and well-formed trees never take that branch. -/
def bfm_find_one_level_inner : bfmNode → Nat → Option bfmNode
  | .inner1 _ _ ps, chunk =>
      match ps with
      | (c, s) :: _ => if c = chunk then some s else none
      | [] => none
  | .inner4 _ _ ps, chunk => findPair ps chunk
  | .inner16 _ _ ps, chunk => findPair ps chunk
  | .inner32 _ _ ps, chunk => findPair ps chunk
  | .inner128 _ _ offs slots _, chunk =>
      match offs chunk with
      | some off => slots off
      | none => none
  | .innerMax _ _ slots _, chunk => slots chunk
  | _, _ => none

/-- `bfm_find_one_level_leaf` (`*valp` out-parameter becomes the
`Option` payload). -/
def bfm_find_one_level_leaf : bfmNode → Nat → Option Nat
  | .leaf1 _ ps, chunk =>
      match ps with
      | (c, v) :: _ => if c = chunk then some v else none
      | [] => none
  | .leaf4 _ ps, chunk => findPair ps chunk
  | .leaf16 _ ps, chunk => findPair ps chunk
  | .leaf32 _ ps, chunk => findPair ps chunk
  | .leaf128 _ offs vals _, chunk =>
      match offs chunk with
      | some off => some (vals off)
      | none => none
  | .leafMax _ bset vals _, chunk =>
      if bset chunk then some (vals chunk) else none
  | _, _ => none

/-! ## Leaf mutation (`bfm_set_leaf` and the `bfm_grow_leaf_*` paths) -/

/-- `bfm_set_leaf`: store `val` under `chunk`, growing the node to the
next size class when it is full.  Returns `(was_present, new node)`;
the C code mutates in place and publishes a grown node through
`bfm_redirect`, which the caller of this function models by storing the
returned node in the slot it came from.  The 128-class fresh-insert
branch writes the payload at index `cnt` without regard to stale live
offsets left by deletions, faithfully to the C code (see the FIXME on
the corresponding inner path). -/
def bfm_set_leaf : bfmNode → Nat → Nat → Bool × bfmNode
  | .leaf1 nc ps, chunk, val =>
      match ps with
      | (c, _) :: _ =>
          if c = chunk then (true, .leaf1 nc [(c, val)])
          else
            -- bfm_grow_leaf_1: copy old & insert new value in the right order
            (false, .leaf4 nc (if chunk < c then (chunk, val) :: ps else ps ++ [(chunk, val)]))
      | [] => (false, .leaf1 nc [(chunk, val)])
  | .leaf4 nc ps, chunk, val =>
      match search_eq (ps.map Prod.fst) chunk with
      | some _ => (true, .leaf4 nc (writePair ps chunk val))
      | none =>
          if ps.length < 4 then (false, .leaf4 nc (insPairLe ps chunk val))
          else (false, .leaf16 nc (insPairLe ps chunk val))  -- bfm_grow_leaf_4
  | .leaf16 nc ps, chunk, val =>
      match search_eq (ps.map Prod.fst) chunk with
      | some _ => (true, .leaf16 nc (writePair ps chunk val))
      | none =>
          if ps.length < 16 then (false, .leaf16 nc (insPairLe ps chunk val))
          else (false, .leaf32 nc (insPairLe ps chunk val))  -- bfm_grow_leaf_16
  | .leaf32 nc ps, chunk, val =>
      match search_eq (ps.map Prod.fst) chunk with
      | some _ => (true, .leaf32 nc (writePair ps chunk val))
      | none =>
          if ps.length < 32 then (false, .leaf32 nc (insPairLe ps chunk val))
          else
            -- bfm_grow_leaf_32: values[] copied by index, offsets[chunks[i]] = i,
            -- then the new entry at offset count = 32
            (false, .leaf128 nc
              (fun c => if c = chunk then some 32 else search_eq (ps.map Prod.fst) c)
              (fun i => if i = 32 then val else ((ps.get? i).map Prod.snd).getD 0)
              33)
  | .leaf128 nc offs vals cnt, chunk, val =>
      match offs chunk with
      | some off => (true, .leaf128 nc offs (fun i => if i = off then val else vals i) cnt)
      | none =>
          if cnt < 128 then
            (false, .leaf128 nc
              (fun c => if c = chunk then some cnt else offs c)
              (fun i => if i = cnt then val else vals i)
              (cnt + 1))
          else
            -- bfm_grow_leaf_128: presence bitmap from valid offsets, then set chunk
            (false, .leafMax nc
              (fun c => if c = chunk then true else (offs c).isSome)
              (fun c => if c = chunk then val else
                match offs c with
                | some off => vals off
                | none => 0)
              (cnt + 1))
  | .leafMax nc bset vals cnt, chunk, val =>
      if bset chunk then
        (true, .leafMax nc bset (fun c => if c = chunk then val else vals c) cnt)
      else
        (false, .leafMax nc
          (fun c => if c = chunk then true else bset c)
          (fun c => if c = chunk then val else vals c)
          (cnt + 1))
  | n, _, _ => (false, n)  -- inner classes: never reached on well-formed trees

/-! ## Inner mutation (`bfm_insert_inner`, `bfm_delete_inner`) -/

/-- `bfm_insert_inner`: attach `child0` under `chunk`, growing the node
to the next class when it is full (the C `switch` falls through from
each grow branch to the next class's insert branch).  The 128-class
else-branch reproduces the C code verbatim, including the FIXME'd
unconditional `offsets[child_chunk] = count; slots[count] = child`,
which can overwrite a live slot after deletions. -/
def bfm_insert_inner : bfmNode → bfmNode → Nat → bfmNode
  | .inner1 sh nc ps, child0, chunk =>
      let child := setNodeChunk child0 chunk
      (match ps with
       | [] => .inner1 sh nc [(chunk, child)]
       | (c0, s0) :: _ =>
           -- grow 1 -> 4 (old entry at index 0), fall through to the 4-insert
           .inner4 sh nc (insPairLe [(c0, s0)] chunk child))
  | .inner4 sh nc ps, child0, chunk =>
      let child := setNodeChunk child0 chunk
      if ps.length < 4 then .inner4 sh nc (insPairLe ps chunk child)
      else .inner16 sh nc (insPairLe ps chunk child)  -- grow 4 -> 16
  | .inner16 sh nc ps, child0, chunk =>
      let child := setNodeChunk child0 chunk
      if ps.length < 16 then .inner16 sh nc (insPairLe ps chunk child)
      else .inner32 sh nc (insPairLe ps chunk child)  -- grow 16 -> 32
  | .inner32 sh nc ps, child0, chunk =>
      let child := setNodeChunk child0 chunk
      if ps.length < 32 then .inner32 sh nc (insPairLe ps chunk child)
      else
        -- grow 32 -> 128: offsets[chunks[i]] = i, slots copied by index,
        -- then the 128-insert at offset count = 32
        .inner128 sh nc
          (fun c => if c = chunk then some 32 else search_eq (ps.map Prod.fst) c)
          (fun off => if off = 32 then some child else (ps.get? off).map Prod.snd)
          33
  | .inner128 sh nc offs slots cnt, child0, chunk =>
      let child := setNodeChunk child0 chunk
      if cnt < 128 then
        .inner128 sh nc
          (fun c => if c = chunk then some cnt else offs c)
          (fun off => if off = cnt then some child else slots off)
          (cnt + 1)
      else
        -- grow 128 -> max: slots[i] = slots[offsets[i]] for valid offsets,
        -- then the max-insert at slots[chunk]
        .innerMax sh nc
          (fun c => if c = chunk then some child else (offs c).bind slots)
          (cnt + 1)
  | .innerMax sh nc slots cnt, child0, chunk =>
      let child := setNodeChunk child0 chunk
      .innerMax sh nc (fun c => if c = chunk then some child else slots c) (cnt + 1)
  | n, _, _ => n  -- leaf classes: never reached on well-formed trees

/-- Store a possibly reallocated child back into the slot it was found
under: the in-place child mutation of the C code, resp. the
`bfm_redirect` performed when the child was grown. -/
def replaceChild : bfmNode → Nat → bfmNode → bfmNode
  | .inner1 sh nc ps, chunk, s' =>
      (match ps with
       | (c, _) :: rest => if c = chunk then .inner1 sh nc ((c, s') :: rest) else .inner1 sh nc ps
       | [] => .inner1 sh nc ps)
  | .inner4 sh nc ps, chunk, s' => .inner4 sh nc (writePair ps chunk s')
  | .inner16 sh nc ps, chunk, s' => .inner16 sh nc (writePair ps chunk s')
  | .inner32 sh nc ps, chunk, s' => .inner32 sh nc (writePair ps chunk s')
  | .inner128 sh nc offs slots cnt, chunk, s' =>
      (match offs chunk with
       | some off => .inner128 sh nc offs (fun o => if o = off then some s' else slots o) cnt
       | none => .inner128 sh nc offs slots cnt)
  | .innerMax sh nc slots cnt, chunk, s' =>
      .innerMax sh nc (fun c => if c = chunk then some s' else slots c) cnt
  | n, _, _ => n

/-- `bfm_delete_inner` minus the cascade: remove the child slot under
`chunk`; `none` when `count` reaches zero and the node is freed (the
caller then recurses into its own parent, modelled by the recursion in
`bfm_delete_node`). -/
def bfm_delete_inner_node : bfmNode → Nat → Option bfmNode
  | .inner1 sh nc ps, chunk =>
      let ps' := erasePair ps chunk
      if ps'.length = 0 then none else some (.inner1 sh nc ps')
  | .inner4 sh nc ps, chunk =>
      let ps' := erasePair ps chunk
      if ps'.length = 0 then none else some (.inner4 sh nc ps')
  | .inner16 sh nc ps, chunk =>
      let ps' := erasePair ps chunk
      if ps'.length = 0 then none else some (.inner16 sh nc ps')
  | .inner32 sh nc ps, chunk =>
      let ps' := erasePair ps chunk
      if ps'.length = 0 then none else some (.inner32 sh nc ps')
  | .inner128 sh nc offs slots cnt, chunk =>
      let offs' := fun c => if c = chunk then none else offs c
      let slots' := match offs chunk with
        | some off => fun o => if o = off then none else slots o
        | none => slots
      if cnt - 1 = 0 then none else some (.inner128 sh nc offs' slots' (cnt - 1))
  | .innerMax sh nc slots cnt, chunk =>
      let slots' := fun c => if c = chunk then none else slots c
      if cnt - 1 = 0 then none else some (.innerMax sh nc slots' (cnt - 1))
  | n, _ => some n

/-- `bfm_delete_leaf` minus the cascade: remove the entry under `chunk`
from a leaf; `none` when `count` reaches zero and the node is freed.
The 128 class clears only the offset (the payload slot keeps its stale
value), the max class clears only the presence bit. -/
def bfm_delete_leaf_node : bfmNode → Nat → Option bfmNode
  | .leaf1 sh ps, chunk =>
      let ps' := erasePair ps chunk
      if ps'.length = 0 then none else some (.leaf1 sh ps')
  | .leaf4 sh ps, chunk =>
      let ps' := erasePair ps chunk
      if ps'.length = 0 then none else some (.leaf4 sh ps')
  | .leaf16 sh ps, chunk =>
      let ps' := erasePair ps chunk
      if ps'.length = 0 then none else some (.leaf16 sh ps')
  | .leaf32 sh ps, chunk =>
      let ps' := erasePair ps chunk
      if ps'.length = 0 then none else some (.leaf32 sh ps')
  | .leaf128 nc offs vals cnt, chunk =>
      let offs' := fun c => if c = chunk then none else offs c
      if cnt - 1 = 0 then none else some (.leaf128 nc offs' vals (cnt - 1))
  | .leafMax nc bset vals cnt, chunk =>
      let bset' := fun c => if c = chunk then false else bset c
      if cnt - 1 = 0 then none else some (.leafMax nc bset' vals (cnt - 1))
  | n, _ => some n

/-! ## Traversal engine (`bfm_walk`, `bfm_set`, `bfm_delete`) -/

/-- The `while (shift > 0)` descent of `bfm_walk`, recursing on the
number of inner levels `d` (`shift = 8 * d`); the chunk at each level
is `(key >> shift) & 0xFF`, and at `shift = 0` the leaf is searched. -/
def bfm_walk_node : Nat → bfmNode → Nat → Option Nat
  | 0, n, key => bfm_find_one_level_leaf n (keyChunk key 0)
  | d + 1, n, key =>
      match bfm_find_one_level_inner n (keyChunk key (d + 1)) with
      | some slot => bfm_walk_node d slot key
      | none => none

/-- `bfm_lookup` (via `bfm_walk`): empty tree or `key > maxval` is a
miss; otherwise descend from the root with `shift = rnode->node_shift`.
The `(found, value)` pair models the `bool` result plus the `*val`
out-parameter (0 when not written).  Lookup never mutates: it does not
even return a tree. -/
def bfm_lookup (t : bfmTree) (key : Nat) : Bool × Nat :=
  match t.rnode with
  | none => (false, 0)
  | some r =>
      if t.maxval < key then (false, 0)
      else
        match bfm_walk_node (nodeShift r / 8) r key with
        | some v => (true, v)
        | none => (false, 0)

/-- The chain of fresh size-class-1 nodes built by `bfm_set_extend`
below a node of shift `8 * (d + 1)`: `bfm_chain key val d` is the node
at shift `8 * d`; each inner link holds its single child under the key
chunk of its own level, and the final `bfm_tree_node_leaf_1` holds
`(key & 0xFF, val)` with `count = 1`.  `node_chunk` of each link is
assigned by the enclosing `bfm_insert_inner`. -/
def bfm_chain (key val : Nat) : Nat → bfmNode
  | 0 => .leaf1 0 [(keyChunk key 0, val)]
  | d + 1 => .inner1 (8 * (d + 1)) 0
      [(keyChunk key (d + 1), setNodeChunk (bfm_chain key val d) (keyChunk key (d + 1)))]

/-- The descent loop of `bfm_set`: at a missing child, `bfm_set_extend`
synthesizes the chain of class-1 nodes and attaches it with
`bfm_insert_inner` (always "was absent"); at `shift = 0` the leaf is
updated by `bfm_set_leaf`.  The returned node replaces the one
descended into (in-place mutation / `bfm_redirect` after growth). -/
def bfm_set_node : Nat → bfmNode → Nat → Nat → Bool × bfmNode
  | 0, n, key, val => bfm_set_leaf n (keyChunk key 0) val
  | d + 1, n, key, val =>
      let chunk := keyChunk key (d + 1)
      match bfm_find_one_level_inner n chunk with
      | none => (false, bfm_insert_inner n (bfm_chain key val d) chunk)
      | some slot =>
          let r := bfm_set_node d slot key val
          (r.1, replaceChild n chunk r.2)

/-- `bfm_set_empty`: build a fresh root for the key's height
(`shift = (pg_leftmost_one_pos64(key) / 8) * 8`, i.e. the highest
multiple of 8 not above `log2 key`), set `maxval`, and either fill a
fresh class-1 leaf (shift 0) or run `bfm_set_extend` below a fresh
class-1 inner root. -/
def bfm_set_empty (key val : Nat) : Bool × bfmTree :=
  let shift := if key = 0 then 0 else pg_leftmost_one_pos64 key / 8 * 8
  if shift = 0 then
    let r := bfm_set_leaf (.leaf1 0 []) (keyChunk key 0) val
    (r.1, ⟨some r.2, bfm_maxval_shift 0⟩)
  else
    (false,
      ⟨some (bfm_insert_inner (.inner1 shift 0 []) (bfm_chain key val (shift / 8 - 1))
          (keyChunk key (shift / 8))),
        bfm_maxval_shift shift⟩)

/-- The root-wrapping loop of `bfm_set_shallow`: `k` times, put a new
class-1 inner node on top with the old root as its sole child under
chunk 0 (the old root covered the low sub-range). -/
def wrapRootN : Nat → bfmNode → bfmNode
  | 0, r => r
  | k + 1, r => wrapRootN k (.inner1 (nodeShift r + 8) 0 [(0, r)])

/-- `bfm_set_shallow`: wrap the root until its shift reaches the key's
height, update `maxval`, then `bfm_set_extend` from the new root. -/
def bfm_set_shallow (r : bfmNode) (key val : Nat) : Bool × bfmTree :=
  let shift := if key = 0 then 0 else pg_leftmost_one_pos64 key / 8 * 8
  let r' := wrapRootN ((shift - nodeShift r) / 8) r
  (false,
    ⟨some (bfm_insert_inner r' (bfm_chain key val (shift / 8 - 1)) (keyChunk key (shift / 8))),
      bfm_maxval_shift shift⟩)

/-- `bfm_set`: dispatch to `bfm_set_empty` / `bfm_set_shallow`, else
descend from the root.  Returns `(was_present, new tree)`. -/
def bfm_set (t : bfmTree) (key val : Nat) : Bool × bfmTree :=
  match t.rnode with
  | none => bfm_set_empty key val
  | some r =>
      if t.maxval < key then bfm_set_shallow r key val
      else
        let res := bfm_set_node (nodeShift r / 8) r key val
        (res.1, ⟨some res.2, t.maxval⟩)

/-- The walk-then-delete of `bfm_delete`: search exactly as
`bfm_walk_node`; on a hit remove the leaf entry (`bfm_delete_leaf`) and
cascade the emptiness check upward (`bfm_delete_inner` on each ancestor
whose child was freed).  Result: `(found, some n')` when the node
survives, `(found, none)` when it was freed. -/
def bfm_delete_node : Nat → bfmNode → Nat → Bool × Option bfmNode
  | 0, n, key =>
      match bfm_find_one_level_leaf n (keyChunk key 0) with
      | none => (false, some n)
      | some _ => (true, bfm_delete_leaf_node n (keyChunk key 0))
  | d + 1, n, key =>
      let chunk := keyChunk key (d + 1)
      match bfm_find_one_level_inner n chunk with
      | none => (false, some n)
      | some slot =>
          match bfm_delete_node d slot key with
          | (false, _) => (false, some n)
          | (true, some slot') => (true, some (replaceChild n chunk slot'))
          | (true, none) => (true, bfm_delete_inner_node n chunk)

/-- `bfm_delete`: a failed walk (empty tree, `key > maxval`, or a miss)
returns `false` and leaves the tree untouched; a hit deletes and
returns `true`, with `rnode = none` when the cascade freed the root. -/
def bfm_delete (t : bfmTree) (key : Nat) : Bool × bfmTree :=
  match t.rnode with
  | none => (false, t)
  | some r =>
      if t.maxval < key then (false, t)
      else
        match bfm_delete_node (nodeShift r / 8) r key with
        | (false, _) => (false, t)
        | (true, r') => (true, ⟨r', t.maxval⟩)

/-! ## Entry counting

The number of entries physically stored in the structure: one per
`(chunk, value)` pair held by a leaf.  Inner 128/max classes are summed
over their distinct payload cells (not over the chunk index), so a
subtree is counted once however many offsets point at its slot. -/

/-- Live `(chunk, value)` pairs of one leaf node. -/
def leafEntries : bfmNode → Nat
  | .leaf1 _ ps => ps.length
  | .leaf4 _ ps => ps.length
  | .leaf16 _ ps => ps.length
  | .leaf32 _ ps => ps.length
  | .leaf128 _ offs _ _ => ((List.range 256).filter (fun c => (offs c).isSome)).length
  | .leafMax _ bset _ _ => ((List.range 256).filter (fun c => bset c)).length
  | _ => 0

/-- Sum `f` over the children of one inner node. -/
def innerEntriesWith (f : bfmNode → Nat) : bfmNode → Nat
  | .inner1 _ _ ps => (ps.map (fun p => f p.2)).sum
  | .inner4 _ _ ps => (ps.map (fun p => f p.2)).sum
  | .inner16 _ _ ps => (ps.map (fun p => f p.2)).sum
  | .inner32 _ _ ps => (ps.map (fun p => f p.2)).sum
  | .inner128 _ _ _ slots _ =>
      ((List.range 128).map (fun off =>
        match slots off with
        | some s => f s
        | none => 0)).sum
  | .innerMax _ _ slots _ =>
      ((List.range 256).map (fun c =>
        match slots c with
        | some s => f s
        | none => 0)).sum
  | _ => 0

/-- Entries stored in a subtree with `d` inner levels below it. -/
def nodeEntries : Nat → bfmNode → Nat
  | 0 => leafEntries
  | d + 1 => innerEntriesWith (nodeEntries d)

/-- Entries stored in the whole tree. -/
def totalEntries (t : bfmTree) : Nat :=
  match t.rnode with
  | none => 0
  | some r => nodeEntries (nodeShift r / 8) r

/-! ## Reachability -/

/-- Tree states reachable from `create` through the public API with
uint64 keys and values. -/
inductive Reachable : bfmTree → Prop where
  | init : Reachable bfm_init
  | set {t : bfmTree} (key val : Nat) : Reachable t → key < 2 ^ 64 → val < 2 ^ 64 →
      Reachable (bfm_set t key val).2
  | del {t : bfmTree} (key : Nat) : Reachable t → key < 2 ^ 64 →
      Reachable (bfm_delete t key).2

/-- Fold a list of `set` calls over a tree. -/
def setList (t : bfmTree) (kvs : List (Nat × Nat)) : bfmTree :=
  kvs.foldl (fun t kv => (bfm_set t kv.1 kv.2).2) t

/-- Fold a list of `delete` calls over a tree. -/
def delList (t : bfmTree) (ks : List Nat) : bfmTree :=
  ks.foldl (fun t k => (bfm_delete t k).2) t

/-! ## Concrete traces exercising the FIXME'd 128-class insert

`bfm_insert_inner` / `bfm_set_leaf` on a 128-class node place a fresh
entry at payload index `count`.  After a deletion the live payload
indices need not be `0 .. count-1`, so index `count` can already be in
use by another chunk's entry (the C source marks this: "FIXME: this may
overwrite entry if there had been deletions").  The traces below reach
that situation from an empty tree. -/

/-- Keys `0..32` (all in one leaf, grown to class 128), values
`1000+i`. -/
def leafBugTree0 : bfmTree := setList bfm_init ((List.range 33).map (fun i => (i, 1000 + i)))

/-- ... then delete key 0: offset 0 dies, `count` drops to 32, but
payload index 32 (key 32's value) stays live. -/
def leafBugTree1 : bfmTree := (bfm_delete leafBugTree0 0).2

/-- ... then set key 100: the fresh entry is placed at payload index
`count = 32`, on top of key 32's value. -/
def leafBugTree2 : bfmTree := (bfm_set leafBugTree1 100 999).2

/-- Keys `i*256` for `i = 0..32` (33 children of one inner node, grown
to class 128), values `2000+i`. -/
def innerBugTree0 : bfmTree := setList bfm_init ((List.range 33).map (fun i => (i * 256, 2000 + i)))

/-- ... then delete key 0 (child slot 0 dies, `count` drops to 32). -/
def innerBugTree1 : bfmTree := (bfm_delete innerBugTree0 0).2

/-- ... then set key `100*256 = 25600`: the fresh child is stored at
slot index `count = 32`, on top of the chunk-32 child, while
`offsets[32]` still points there. -/
def innerBugTree2 : bfmTree := (bfm_set innerBugTree1 25600 777).2

/-- Keys `i*256` for `i = 0..31` plus `8197` and `8198` (the chunk-32
child is a two-entry leaf). -/
def entriesBugTree0 : bfmTree :=
  setList bfm_init (((List.range 32).map (fun i => (i * 256, 2000 + i))) ++ [(8197, 55), (8198, 56)])

/-- ... then delete key 0. -/
def entriesBugTree1 : bfmTree := (bfm_delete entriesBugTree0 0).2

/-- The child node the root finds under `chunk`, projected to its
recorded `node_chunk`. -/
def rootChildChunkAt (t : bfmTree) (c : Nat) : Option Nat :=
  match t.rnode with
  | some r => (bfm_find_one_level_inner r c).map nodeChunk
  | none => none

/-- The root's `offsets[c]` when the root is a 128-class inner node. -/
def rootOffsAt (t : bfmTree) (c : Nat) : Option Nat :=
  match t.rnode with
  | some (.inner128 _ _ offs _ _) => offs c
  | _ => none

/-! ## Spec-side lookup (for the refinement claim on `Lookup(key)`)

A second lookup written from the specification text: "start at root
with `shift = root.shift`, extract `chunk = (key >> shift) & 0xFF`;
while `shift > 0`: find child by chunk in the current inner node (miss
⇒ not found); descend, `shift -= 8`.  At `shift = 0`, search the leaf
for `chunk`".  Here the per-level chunks are listed up front and the
`while` loop is a fold over that list. -/

/-- The chunk bytes consumed by the inner levels, topmost first:
`[(key >> 8*d) & 0xFF, …, (key >> 8) & 0xFF]`. -/
def specChunkList (key d : Nat) : List Nat :=
  (List.range d).reverse.map (fun i => keyChunk key (i + 1))

/-- Descend through inner nodes along a list of chunks. -/
def specDescend : bfmNode → List Nat → Option bfmNode
  | n, [] => some n
  | n, c :: cs =>
      match bfm_find_one_level_inner n c with
      | some s => specDescend s cs
      | none => none

/-- `Lookup(key)` as the specification words it. -/
def spec_lookup (t : bfmTree) (key : Nat) : Bool × Nat :=
  match t.rnode with
  | none => (false, 0)
  | some r =>
      if t.maxval < key then (false, 0)
      else
        match specDescend r (specChunkList key (nodeShift r / 8)) with
        | none => (false, 0)
        | some leafn =>
            match bfm_find_one_level_leaf leafn (keyChunk key 0) with
            | some v => (true, v)
            | none => (false, 0)

/-! ## Vectorized chunk search (`search_chunk_array_16_eq` SSE2 path,
`search_chunk_array_32_eq` AVX2 path)

`_mm_cmpeq_epi8` + `_mm_movemask_epi8` produce a bitfield whose bit `i`
is set iff byte `i` matches; the bitfield is masked to the low `count`
bits and the answer is its count of trailing zeros (or -1 = `none` when
the masked bitfield is zero). -/

/-- `_mm_movemask_epi8(_mm_cmpeq_epi8(set1(m), chunks))`: bit `i` set
iff `chunks[i] = m`. -/
def movemask_eq : List Nat → Nat → Nat
  | [], _ => 0
  | c :: cs, m => (if c = m then 1 else 0) + 2 * movemask_eq cs m

/-- `__builtin_ctz` (fueled; callers guard a nonzero argument). -/
def ctz : Nat → Nat → Nat
  | 0, _ => 0
  | f + 1, n => if n % 2 = 1 then 0 else ctz f (n / 2) + 1

/-- SSE2 `search_chunk_array_16_eq`: 16 bytes are loaded regardless of
`count`, compared, and the movemask is masked by `(1 << count) - 1`. -/
def search_chunk_array_16_eq_simd (chunks : List Nat) (m count : Nat) : Option Nat :=
  let bitfield := movemask_eq (chunks.take 16) m &&& (2 ^ count - 1)
  if bitfield = 0 then none else some (ctz 16 bitfield)

/-- AVX2 `search_chunk_array_32_eq`: 32 bytes loaded, movemask masked
by `(1 << count) - 1`. -/
def search_chunk_array_32_eq_simd (chunks : List Nat) (m count : Nat) : Option Nat :=
  let bitfield := movemask_eq (chunks.take 32) m &&& (2 ^ count - 1)
  if bitfield = 0 then none else some (ctz 32 bitfield)

/-! ## Allocator (`bfm_alloc_inner`, `bfm_alloc_leaf`,
`inner_class_info` / `leaf_class_info`)

`bfm_alloc_node` obtains raw storage of the requested size from the
slab for `(family, kind)`; `bfm_alloc_inner`/`bfm_alloc_leaf` then run
`memset(&node->b, 0, sizeof(node->b))` — zeroing only the common
header — and store the class tag.  The class-specific constructors
additionally initialize their index structures: class 128 runs
`memset(offsets, BFM_TREE_NODE_128_INVALID /* 0xFF */, 256)`, inner max
zeroes its slot array, leaf max zeroes its presence bitmap.  The bulk
`chunks[]`/`slots[]`/`values[]` arrays of the other classes are left as
the allocator returned them.  Byte sizes of the node structs are memory
layout and are not modelled. -/

/-- The six size classes (`bfm_tree_node_kind`). -/
inductive bfmKind : Type where
  | k1 | k4 | k16 | k32 | k128 | kMax
deriving DecidableEq

/-- `inner_class_info[kind].elements`. -/
def inner_class_elements : bfmKind → Nat
  | .k1 => 1
  | .k4 => 4
  | .k16 => 16
  | .k32 => 32
  | .k128 => 128
  | .kMax => 256

/-- `leaf_class_info[kind].elements`. -/
def leaf_class_elements : bfmKind → Nat
  | .k1 => 1
  | .k4 => 4
  | .k16 => 16
  | .k32 => 32
  | .k128 => 128
  | .kMax => 256

/-- The common `bfm_tree_node` header of a freshly allocated node. -/
structure bfmAllocHeader : Type where
  kind : bfmKind
  node_shift : Nat
  node_chunk : Nat
  count : Nat
  parentIsNull : Bool
deriving DecidableEq

/-- `bfm_alloc_inner` / `bfm_alloc_leaf` on the header:
`memset(&node->b, 0, sizeof(node->b)); node->b.kind = kind`. -/
def bfm_alloc_header (k : bfmKind) : bfmAllocHeader := ⟨k, 0, 0, 0, true⟩

/-- `bfm_alloc_inner_128`: bytes of the `offsets[]` table after
`memset(&node->offsets, BFM_TREE_NODE_128_INVALID, sizeof(...))`. -/
def bfm_alloc_inner_128_offsets_byte : Nat → Nat := fun _ => 255

/-- `bfm_alloc_leaf_128`: bytes of `offsets[]` after the same memset. -/
def bfm_alloc_leaf_128_offsets_byte : Nat → Nat := fun _ => 255

/-- `bfm_alloc_inner_max`: `memset(&node->slots, 0, ...)` — every slot
byte is zero (NULL). -/
def bfm_alloc_inner_max_slots_byte : Nat → Nat := fun _ => 0

/-- `bfm_alloc_leaf_max`: `memset(node->set, 0, ...)` — the presence
bitmap is zeroed. -/
def bfm_alloc_leaf_max_set_byte : Nat → Nat := fun _ => 0

/-! ## Structural well-formedness

What every reachable state satisfies (also the states corrupted by the
FIXME'd 128-class insert): nodes at fuel 0 are leaves, nodes at fuel
`d+1` are inner with well-formed children, and the sorted classes hold
no duplicate chunk.  Nothing is assumed about 128-class offsets beyond
their type: stale sharing is representable. -/

/-- The node is one of the six inner classes. -/
def isInnerNode : bfmNode → Prop
  | .inner1 _ _ _ => True
  | .inner4 _ _ _ => True
  | .inner16 _ _ _ => True
  | .inner32 _ _ _ => True
  | .inner128 _ _ _ _ _ => True
  | .innerMax _ _ _ _ => True
  | _ => False

/-- The node is one of the six leaf classes. -/
def isLeafNode : bfmNode → Prop
  | .leaf1 _ _ => True
  | .leaf4 _ _ => True
  | .leaf16 _ _ => True
  | .leaf32 _ _ => True
  | .leaf128 _ _ _ _ => True
  | .leafMax _ _ _ _ => True
  | _ => False

/-- Shape and no-duplicate-chunk invariant of a subtree with `d` inner
levels below its top node. -/
def nodeOk : Nat → bfmNode → Prop
  | 0, n =>
      match n with
      | .leaf1 _ ps => (ps.map Prod.fst).Nodup ∧ ps.length ≤ 1
      | .leaf4 _ ps => (ps.map Prod.fst).Nodup
      | .leaf16 _ ps => (ps.map Prod.fst).Nodup
      | .leaf32 _ ps => (ps.map Prod.fst).Nodup
      | .leaf128 _ _ _ _ => True
      | .leafMax _ _ _ _ => True
      | _ => False
  | d + 1, n =>
      match n with
      | .inner1 _ _ ps => (ps.map Prod.fst).Nodup ∧ ps.length ≤ 1 ∧ ∀ p ∈ ps, nodeOk d p.2
      | .inner4 _ _ ps => (ps.map Prod.fst).Nodup ∧ ∀ p ∈ ps, nodeOk d p.2
      | .inner16 _ _ ps => (ps.map Prod.fst).Nodup ∧ ∀ p ∈ ps, nodeOk d p.2
      | .inner32 _ _ ps => (ps.map Prod.fst).Nodup ∧ ∀ p ∈ ps, nodeOk d p.2
      | .inner128 _ _ _ slots _ => ∀ o s, slots o = some s → nodeOk d s
      | .innerMax _ _ slots _ => ∀ c s, slots c = some s → nodeOk d s
      | _ => False

/-- Whole-tree invariant: when the root exists, it is well-formed at
its advertised height, its shift is a multiple of 8 of at most 56, and
`maxval` is exactly `bfm_maxval_shift` of that shift. -/
def treeWf (t : bfmTree) : Prop :=
  ∀ r, t.rnode = some r →
    nodeOk (nodeShift r / 8) r ∧ nodeShift r % 8 = 0 ∧ nodeShift r ≤ 56 ∧
      t.maxval = bfm_maxval_shift (nodeShift r)

/-! ## Clean states

The stronger invariant of states built without interleaving a 128-class
deletion before an insertion into the same node: counts are accurate,
128-class offsets are injective and (in the insert-only phase, `pk =
true`) packed below `count`, payload cells and offsets reference each
other exactly, and every subtree holds at least one entry.  The
insert-then-delete-all program of the shrink-to-empty property stays
inside these states. -/

/-- Number of live offsets (chunks mapped by a 128-class table). -/
def offsLive (offs : Nat → Option Nat) : Nat :=
  ((List.range 256).filter (fun c => (offs c).isSome)).length

/-- Number of set bits of a max-class leaf bitmap. -/
def bitsLive (bset : Nat → Bool) : Nat :=
  ((List.range 256).filter (fun c => bset c)).length

/-- Number of live slots of a max-class inner node. -/
def slotsLive (slots : Nat → Option bfmNode) : Nat :=
  ((List.range 256).filter (fun c => (slots c).isSome)).length

/-- Distinct chunks never share a payload index. -/
def offsInj (offs : Nat → Option Nat) : Prop :=
  ∀ c1 c2 o, offs c1 = some o → offs c2 = some o → c1 = c2

/-- Cleanliness of a subtree (`pk = true` adds the packedness bound
`offset < count` that fresh 128-class insertion relies on). -/
def nodeClean (pk : Bool) : Nat → bfmNode → Prop
  | 0, n =>
      match n with
      | .leaf1 _ ps => (ps.map Prod.fst).Nodup ∧ ps.length ≤ 1 ∧ ∀ p ∈ ps, p.1 < 256
      | .leaf4 _ ps => (ps.map Prod.fst).Nodup ∧ ps.length ≤ 4 ∧ ∀ p ∈ ps, p.1 < 256
      | .leaf16 _ ps => (ps.map Prod.fst).Nodup ∧ ps.length ≤ 16 ∧ ∀ p ∈ ps, p.1 < 256
      | .leaf32 _ ps => (ps.map Prod.fst).Nodup ∧ ps.length ≤ 32 ∧ ∀ p ∈ ps, p.1 < 256
      | .leaf128 _ offs _ cnt =>
          cnt = offsLive offs ∧ cnt ≤ 128 ∧ offsInj offs ∧
            (∀ c, 256 ≤ c → offs c = none) ∧
            (pk = true → ∀ c o, offs c = some o → o < cnt)
      | .leafMax _ bset _ cnt =>
          cnt = bitsLive bset ∧ ∀ c, 256 ≤ c → bset c = false
      | _ => False
  | d + 1, n =>
      match n with
      | .inner1 _ _ ps =>
          (ps.map Prod.fst).Nodup ∧ ps.length ≤ 1 ∧
            ∀ p ∈ ps, p.1 < 256 ∧ nodeClean pk d p.2 ∧ 1 ≤ nodeEntries d p.2
      | .inner4 _ _ ps =>
          (ps.map Prod.fst).Nodup ∧ ps.length ≤ 4 ∧
            ∀ p ∈ ps, p.1 < 256 ∧ nodeClean pk d p.2 ∧ 1 ≤ nodeEntries d p.2
      | .inner16 _ _ ps =>
          (ps.map Prod.fst).Nodup ∧ ps.length ≤ 16 ∧
            ∀ p ∈ ps, p.1 < 256 ∧ nodeClean pk d p.2 ∧ 1 ≤ nodeEntries d p.2
      | .inner32 _ _ ps =>
          (ps.map Prod.fst).Nodup ∧ ps.length ≤ 32 ∧
            ∀ p ∈ ps, p.1 < 256 ∧ nodeClean pk d p.2 ∧ 1 ≤ nodeEntries d p.2
      | .inner128 _ _ offs slots cnt =>
          cnt = offsLive offs ∧ cnt ≤ 128 ∧ offsInj offs ∧
            (∀ c, 256 ≤ c → offs c = none) ∧
            (pk = true → ∀ c o, offs c = some o → o < cnt) ∧
            (∀ o, (slots o).isSome → ∃ c, c < 256 ∧ offs c = some o) ∧
            (∀ c o, offs c = some o → o < 128 ∧ (slots o).isSome) ∧
            (∀ o s, slots o = some s → nodeClean pk d s ∧ 1 ≤ nodeEntries d s)
      | .innerMax _ _ slots cnt =>
          cnt = slotsLive slots ∧ (∀ c, 256 ≤ c → slots c = none) ∧
            ∀ c s, slots c = some s → nodeClean pk d s ∧ 1 ≤ nodeEntries d s
      | _ => False

/-- Whole-tree cleanliness. -/
def treeClean (pk : Bool) (t : bfmTree) : Prop :=
  ∀ r, t.rnode = some r →
    nodeClean pk (nodeShift r / 8) r ∧ nodeShift r % 8 = 0 ∧ nodeShift r ≤ 56 ∧
      t.maxval = bfm_maxval_shift (nodeShift r) ∧ 1 ≤ nodeEntries (nodeShift r / 8) r

/-! # Theorems -/

/-! ## The lookup algorithm (claim C2) -/

theorem specChunkList_succ (key d : Nat) :
    specChunkList key (d + 1) = keyChunk key (d + 1) :: specChunkList key d := by
  simp [specChunkList, List.range_succ]

theorem walk_eq_specDescend (key : Nat) : ∀ (d : Nat) (n : bfmNode),
    (match specDescend n (specChunkList key d) with
      | none => none
      | some leafn => bfm_find_one_level_leaf leafn (keyChunk key 0)) =
      bfm_walk_node d n key := by
  intro d
  induction d with
  | zero => intro n; simp [specChunkList, specDescend, bfm_walk_node]
  | succ d ih =>
      intro n
      rw [specChunkList_succ]
      simp only [specDescend, bfm_walk_node]
      cases bfm_find_one_level_inner n (keyChunk key (d + 1)) with
      | none => rfl
      | some s => exact ih s

/-- C2: for every tree state and every key, `bfm_lookup` follows
exactly the specified algorithm: empty tree or `key > max_val` reports
not found; otherwise it starts at the root with `shift = root.shift`,
extracts `chunk = (key >> shift) & 0xFF` at each level, reports not
found on a missing child, descends with `shift` decreasing by 8, and at
`shift = 0` searches the leaf for the final chunk, returning its value
exactly when present.  (`bfm_lookup` never mutates: it takes the tree
and returns only the `(found, value)` pair.) -/
theorem claim_C2_lookup_algorithm (t : bfmTree) (key : Nat) :
    bfm_lookup t key = spec_lookup t key := by
  unfold bfm_lookup spec_lookup
  cases t.rnode with
  | none => rfl
  | some r =>
      by_cases h : t.maxval < key
      · simp [h]
      · simp only [h, if_false]
        rw [← walk_eq_specDescend key (nodeShift r / 8) r]
        cases specDescend r (specChunkList key (nodeShift r / 8)) with
        | none => rfl
        | some leafn =>
            cases bfm_find_one_level_leaf leafn (keyChunk key 0) with
            | none => rfl
            | some v => rfl

/-! ## The FIXME'd 128-class insert-after-delete (claims C3, C5, C6) -/

/-- C6 (counter-evidence): writing one key can destroy the binding of
another.  From an empty tree, set keys `0..32` (key `i` to `1000+i`),
delete key 0, then set key 100 to 999: the fresh entry is stored at
payload index `count = 32`, which still holds key 32's value, so
`lookup(32)` now returns key 100's value 999 instead of 1032, while
`set` itself reported key 100 absent. -/
theorem claim_C6_frame_violated :
    bfm_lookup leafBugTree1 32 = (true, 1032) ∧
      (bfm_set leafBugTree1 100 999).1 = false ∧
      bfm_lookup leafBugTree2 32 = (true, 999) ∧
      bfm_lookup leafBugTree2 100 = (true, 999) := by
  refine ⟨by decide, by decide, by decide, by decide⟩

/-- C5 (counter-evidence): the slot/chunk-match invariant is not
preserved.  From an empty tree, set keys `i*256` for `i = 0..32`,
delete key 0, then set key `100*256`: in the root 128-class inner node
`offsets[32]` still points at slot 32, but that slot now holds the
fresh chunk-100 child, so the child found under chunk 32 records
`node_chunk = 100 ≠ 32`. -/
theorem claim_C5_chunk_match_violated :
    rootOffsAt innerBugTree2 32 = some 32 ∧
      rootChildChunkAt innerBugTree2 32 = some 100 ∧
      rootChildChunkAt innerBugTree1 32 = some 32 := by
  refine ⟨by decide, by decide, by decide⟩

/-- C3 (counter-evidence): a `set` that returns `false` (key absent)
can fail to increase the entry count.  From an empty tree, set keys
`i*256` for `i = 0..31` plus 8197 and 8198, delete key 0 (33 entries
remain), then set key 25600: the call returns `false` but the fresh
chunk-100 child overwrites the slot still holding the two-entry
chunk-32 leaf, so the stored entry count drops from 33 to 32 (and key
8197's binding is gone). -/
theorem claim_C3_count_violated :
    totalEntries entriesBugTree1 = 33 ∧
      (bfm_set entriesBugTree1 25600 7).1 = false ∧
      totalEntries (bfm_set entriesBugTree1 25600 7).2 = 32 ∧
      bfm_lookup (bfm_set entriesBugTree1 25600 7).2 8197 = (false, 0) := by
  refine ⟨by decide, by decide, by decide, by decide⟩

/-! ## Vectorized versus scalar chunk search (claim C9) -/

theorem movemask_eq_mod (m : Nat) : ∀ (l : List Nat) (n : Nat),
    movemask_eq l m % 2 ^ n = movemask_eq (l.take n) m := by
  intro l
  induction l with
  | nil => intro n; simp [movemask_eq]
  | cons c cs ih =>
      intro n
      cases n with
      | zero => simp [movemask_eq, Nat.mod_one]
      | succ n =>
          have hM := ih n
          simp only [List.take_succ_cons, movemask_eq]
          have hmd := Nat.div_add_mod (movemask_eq cs m) (2 ^ n)
          have hmul : 2 ^ (n + 1) * (movemask_eq cs m / 2 ^ n) =
              2 * (2 ^ n * (movemask_eq cs m / 2 ^ n)) := by ring
          have hdecomp : (if c = m then 1 else 0) + 2 * movemask_eq cs m =
              ((if c = m then 1 else 0) + 2 * (movemask_eq cs m % 2 ^ n)) +
                2 ^ (n + 1) * (movemask_eq cs m / 2 ^ n) := by
            omega
          rw [hdecomp, Nat.add_mul_mod_self_left]
          have hb : (if c = m then 1 else 0) ≤ 1 := by split <;> omega
          have hr : movemask_eq cs m % 2 ^ n < 2 ^ n :=
            Nat.mod_lt _ (Nat.pos_pow_of_pos n (by omega))
          have hlt : (if c = m then 1 else 0) + 2 * (movemask_eq cs m % 2 ^ n) < 2 ^ (n + 1) := by
            rw [pow_succ]
            omega
          rw [Nat.mod_eq_of_lt hlt, hM]

theorem movemask_eq_zero_iff (m : Nat) : ∀ l : List Nat,
    (movemask_eq l m = 0 ↔ search_eq l m = none) := by
  intro l
  induction l with
  | nil => simp [movemask_eq, search_eq]
  | cons c cs ih =>
      by_cases h : c = m
      · simp [movemask_eq, search_eq, h]
      · simp only [movemask_eq, search_eq, h, if_false, ite_false]
        constructor
        · intro h0
          have : movemask_eq cs m = 0 := by omega
          simp [ih.1 this]
        · intro h0
          have : search_eq cs m = none := by
            cases hs : search_eq cs m with
            | none => rfl
            | some i => rw [hs] at h0; simp at h0
          have := ih.2 this
          omega

theorem ctz_movemask (m : Nat) : ∀ (l : List Nat) (f : Nat), l.length ≤ f →
    movemask_eq l m ≠ 0 → some (ctz f (movemask_eq l m)) = search_eq l m := by
  intro l
  induction l with
  | nil => intro f _ h0; simp [movemask_eq] at h0
  | cons c cs ih =>
      intro f hf h0
      cases f with
      | zero => simp at hf
      | succ f =>
          by_cases h : c = m
          · subst h
            have h1 : movemask_eq (c :: cs) c = 1 + 2 * movemask_eq cs c := by
              simp [movemask_eq]
            have hmod : movemask_eq (c :: cs) c % 2 = 1 := by omega
            simp [ctz, hmod, search_eq]
          · have h1 : movemask_eq (c :: cs) m = 2 * movemask_eq cs m := by
              simp [movemask_eq, h]
            have hmod : movemask_eq (c :: cs) m % 2 = 0 := by omega
            have hMne : movemask_eq cs m ≠ 0 := by omega
            have hdiv : movemask_eq (c :: cs) m / 2 = movemask_eq cs m := by omega
            have hlen : cs.length ≤ f := by
              simp only [List.length_cons] at hf
              omega
            have := ih f hlen hMne
            simp only [ctz, hmod, hdiv, search_eq, h, if_false, ite_false]
            rw [← this]
            simp

theorem simd_search_eq_scalar (w : Nat) (chunks : List Nat) (m count : Nat)
    (hc : count ≤ w) :
    (let bitfield := movemask_eq (chunks.take w) m &&& (2 ^ count - 1)
      if bitfield = 0 then none else some (ctz w bitfield)) =
      search_eq (chunks.take count) m := by
  have hmask : movemask_eq (chunks.take w) m &&& (2 ^ count - 1) =
      movemask_eq (chunks.take count) m := by
    rw [Nat.and_pow_two_sub_one_eq_mod, movemask_eq_mod, List.take_take,
      Nat.min_eq_left hc]
  simp only [hmask]
  by_cases h0 : movemask_eq (chunks.take count) m = 0
  · simp [h0, (movemask_eq_zero_iff m _).1 h0]
  · have hlen : (chunks.take count).length ≤ w :=
      le_trans (List.length_take_le count chunks) hc
    simp [h0, ctz_movemask m (chunks.take count) w hlen h0]

/-- C9: for every chunk array, search byte and logical length `count`
within the class capacity, the vectorized `search_chunk_array_16_eq`
(SSE2) and `search_chunk_array_32_eq` (AVX2) paths return exactly the
same index (or not-found) as the naive linear scan `search_eq` of the
first `count` elements — the bit-for-bit equivalence the C code asserts
between its fast and slow paths (`search_chunk_array_4_eq` is itself
that naive scan). -/
theorem claim_C9_search_equiv :
    (∀ (chunks : List Nat) (m count : Nat), count ≤ 16 →
        search_chunk_array_16_eq_simd chunks m count = search_eq (chunks.take count) m) ∧
      (∀ (chunks : List Nat) (m count : Nat), count ≤ 32 →
        search_chunk_array_32_eq_simd chunks m count = search_eq (chunks.take count) m) := by
  constructor
  · intro chunks m count hc
    exact simd_search_eq_scalar 16 chunks m count hc
  · intro chunks m count hc
    exact simd_search_eq_scalar 32 chunks m count hc

/-- C9 witness: the equivalence applied at concrete arrays, lengths and
search bytes. -/
theorem claim_C9_search_equiv_witness :
    search_chunk_array_16_eq_simd [9, 5, 7, 5, 0, 0, 0, 0, 0, 0, 0, 0, 0, 0, 0, 5] 5 3 =
        search_eq ([9, 5, 7, 5, 0, 0, 0, 0, 0, 0, 0, 0, 0, 0, 0, 5].take 3) 5 ∧
      search_chunk_array_32_eq_simd (List.range 32) 31 10 =
        search_eq ((List.range 32).take 10) 31 :=
  ⟨claim_C9_search_equiv.1 _ 5 3 (by decide), claim_C9_search_equiv.2 _ 31 10 (by decide)⟩

/-! ## Allocation (claim C10) -/

/-- C10 (counter-evidence): an allocated node is not entirely
zero-initialized.  `bfm_alloc_inner_128` (and `bfm_alloc_leaf_128`)
deliberately fill the 256-byte `offsets[]` table with the sentinel
`BFM_TREE_NODE_128_INVALID = 0xFF`, so e.g. the byte `offsets[0]` of a
fresh class-128 inner node is 255, not 0 (and the bulk
`chunks`/`slots`/`values` arrays of the other classes are not
initialized at all: only `memset(&node->b, 0, sizeof(node->b))` runs). -/
theorem claim_C10_not_zero_initialized :
    bfm_alloc_inner_128_offsets_byte 0 = 255 ∧ bfm_alloc_leaf_128_offsets_byte 0 = 255 ∧
      (255 : Nat) ≠ 0 :=
  ⟨rfl, rfl, by decide⟩

/-- C10 (amended): `allocate(family, class)` returns a node tagged with
the requested class whose common header (`node_shift`, `node_chunk`,
`count`, parent pointer) is zero-initialized, and whose class-specific
index structures are initialized to their empty state — the class-128
`offsets[]` tables to the (non-zero) `0xFF` sentinel, the inner-max
slot array and the leaf-max presence bitmap to zero; the capacity
recorded for each class in `inner_class_info`/`leaf_class_info` is
1, 4, 16, 32, 128, 256 for both families. -/
theorem claim_C10_alloc_amended :
    (∀ k : bfmKind, bfm_alloc_header k =
      { kind := k, node_shift := 0, node_chunk := 0, count := 0, parentIsNull := true }) ∧
      (∀ b, bfm_alloc_inner_128_offsets_byte b = 255) ∧
      (∀ b, bfm_alloc_leaf_128_offsets_byte b = 255) ∧
      (∀ b, bfm_alloc_inner_max_slots_byte b = 0) ∧
      (∀ b, bfm_alloc_leaf_max_set_byte b = 0) ∧
      (∀ k : bfmKind, inner_class_elements k = leaf_class_elements k) ∧
      ((inner_class_elements .k1 = 1 ∧ inner_class_elements .k4 = 4) ∧
        (inner_class_elements .k16 = 16 ∧ inner_class_elements .k32 = 32) ∧
        (inner_class_elements .k128 = 128 ∧ inner_class_elements .kMax = 256)) := by
  refine ⟨fun k => rfl, fun b => rfl, fun b => rfl, fun b => rfl, fun b => rfl, fun k => ?_, ?_⟩
  · cases k <;> rfl
  · exact ⟨⟨rfl, rfl⟩, ⟨rfl, rfl⟩, ⟨rfl, rfl⟩⟩

/-! ## Association-list lemmas for the sorted size classes -/

theorem findPair_eq_none_iff {α : Type} (m : Nat) : ∀ ps : List (Nat × α),
    findPair ps m = none ↔ m ∉ ps.map Prod.fst := by
  intro ps
  induction ps with
  | nil => simp [findPair]
  | cons p ps ih =>
      obtain ⟨c, v⟩ := p
      by_cases h : c = m
      · subst h
        simp [findPair]
      · simp [findPair, h, Ne.symm h, ih]

theorem search_eq_eq_none_iff (m : Nat) : ∀ l : List Nat,
    search_eq l m = none ↔ m ∉ l := by
  intro l
  induction l with
  | nil => simp [search_eq]
  | cons c cs ih =>
      by_cases h : c = m
      · subst h
        simp [search_eq]
      · simp [search_eq, h, Ne.symm h, ih, Option.map_eq_none']

theorem search_eq_get {α : Type} (m : Nat) : ∀ (ps : List (Nat × α)) (i : Nat),
    search_eq (ps.map Prod.fst) m = some i → (ps.get? i).map Prod.snd = findPair ps m := by
  intro ps
  induction ps with
  | nil => intro i h; simp [search_eq] at h
  | cons p ps ih =>
      intro i h
      obtain ⟨c, v⟩ := p
      by_cases hc : c = m
      · subst hc
        simp [search_eq] at h
        subst h
        simp [findPair]
      · simp only [List.map_cons, search_eq, hc, if_false, ite_false] at h
        cases hs : search_eq (ps.map Prod.fst) m with
        | none => rw [hs] at h; simp at h
        | some j =>
            rw [hs] at h
            simp at h
            obtain rfl : j + 1 = i := by omega
            simp only [List.get?_cons_succ, findPair, hc, if_false, ite_false]
            exact ih j hs

theorem findPair_writePair_self {α : Type} (m : Nat) (a : α) : ∀ ps : List (Nat × α),
    findPair ps m ≠ none → findPair (writePair ps m a) m = some a := by
  intro ps
  induction ps with
  | nil => intro h; simp [findPair] at h
  | cons p ps ih =>
      intro h
      obtain ⟨c, v⟩ := p
      by_cases hc : c = m
      · subst hc
        simp [writePair, findPair]
      · simp only [findPair, hc, if_false, ite_false] at h
        simp [writePair, findPair, hc, ih h]

theorem findPair_writePair_other {α : Type} (m c : Nat) (a : α) (hne : c ≠ m) :
    ∀ ps : List (Nat × α), findPair (writePair ps m a) c = findPair ps c := by
  intro ps
  induction ps with
  | nil => simp [writePair]
  | cons p ps ih =>
      obtain ⟨c0, v⟩ := p
      by_cases h0 : c0 = m
      · simp [writePair, findPair, h0, Ne.symm hne]
      · by_cases hc : c0 = c
        · simp [writePair, findPair, h0, hc, hne]
        · simp [writePair, findPair, h0, hc, ih]

theorem map_fst_writePair {α : Type} (m : Nat) (a : α) : ∀ ps : List (Nat × α),
    (writePair ps m a).map Prod.fst = ps.map Prod.fst := by
  intro ps
  induction ps with
  | nil => simp [writePair]
  | cons p ps ih =>
      obtain ⟨c0, v⟩ := p
      by_cases h0 : c0 = m
      · simp [writePair, h0]
      · simp [writePair, h0, ih]

theorem findPair_insAt_other {α : Type} (m c : Nat) (a : α) (hne : c ≠ m) :
    ∀ (ps : List (Nat × α)) (k : Nat), findPair (insAt k (m, a) ps) c = findPair ps c := by
  intro ps
  induction ps with
  | nil => intro k; simp [insAt, findPair, Ne.symm hne]
  | cons p ps ih =>
      intro k
      obtain ⟨c0, v⟩ := p
      cases k with
      | zero => simp [insAt, findPair, Ne.symm hne]
      | succ k =>
          by_cases h0 : c0 = c
          · simp [insAt, findPair, h0]
          · simp [insAt, findPair, h0, ih]

theorem findPair_insAt_self {α : Type} (m : Nat) (a : α) : ∀ (ps : List (Nat × α)) (k : Nat),
    m ∉ ps.map Prod.fst → findPair (insAt k (m, a) ps) m = some a := by
  intro ps
  induction ps with
  | nil => intro k _; simp [insAt, findPair]
  | cons p ps ih =>
      intro k hm
      obtain ⟨c0, v⟩ := p
      simp only [List.map_cons, List.mem_cons] at hm
      push_neg at hm
      cases k with
      | zero => simp [insAt, findPair]
      | succ k => simp [insAt, findPair, Ne.symm hm.1, ih k hm.2]

theorem map_fst_insAt {α : Type} (m : Nat) (a : α) : ∀ (ps : List (Nat × α)) (k : Nat),
    (insAt k (m, a) ps).map Prod.fst = insAt k m (ps.map Prod.fst) := by
  intro ps
  induction ps with
  | nil => intro k; simp [insAt]
  | cons p ps ih =>
      intro k
      cases k with
      | zero => simp [insAt]
      | succ k => simp [insAt, ih]

theorem mem_insAt {α : Type} (x a : α) : ∀ (l : List α) (k : Nat),
    x ∈ insAt k a l ↔ x = a ∨ x ∈ l := by
  intro l
  induction l with
  | nil => intro k; simp [insAt]
  | cons y l ih =>
      intro k
      cases k with
      | zero => simp [insAt]
      | succ k =>
          simp only [insAt, List.mem_cons, ih]
          tauto

theorem nodup_insAt (a : Nat) : ∀ (l : List Nat) (k : Nat),
    a ∉ l → l.Nodup → (insAt k a l).Nodup := by
  intro l
  induction l with
  | nil => intro k _ _; simp [insAt]
  | cons y l ih =>
      intro k ha hl
      simp only [List.mem_cons] at ha
      push_neg at ha
      simp only [List.nodup_cons] at hl
      cases k with
      | zero =>
          simp only [insAt, List.nodup_cons, List.mem_cons]
          constructor
          · push_neg
            exact ⟨ha.1, ha.2⟩
          · exact ⟨hl.1, hl.2⟩
      | succ k =>
          simp only [insAt, List.nodup_cons]
          refine ⟨?_, ih k ha.2 hl.2⟩
          rw [mem_insAt]
          push_neg
          exact ⟨Ne.symm ha.1, hl.1⟩

theorem length_insAt {α : Type} (a : α) : ∀ (l : List α) (k : Nat),
    (insAt k a l).length = l.length + 1 := by
  intro l
  induction l with
  | nil => intro k; simp [insAt]
  | cons y l ih =>
      intro k
      cases k with
      | zero => simp [insAt]
      | succ k => simp [insAt, ih]

theorem findPair_erasePair_other {α : Type} (m c : Nat) (hne : c ≠ m) :
    ∀ ps : List (Nat × α), findPair (erasePair ps m) c = findPair ps c := by
  intro ps
  induction ps with
  | nil => simp [erasePair]
  | cons p ps ih =>
      obtain ⟨c0, v⟩ := p
      by_cases h0 : c0 = m
      · simp [erasePair, findPair, h0, Ne.symm hne]
      · by_cases hc : c0 = c
        · simp [erasePair, findPair, h0, hc, hne]
        · simp [erasePair, findPair, h0, hc, ih]

theorem findPair_erasePair_self {α : Type} (m : Nat) : ∀ ps : List (Nat × α),
    (ps.map Prod.fst).Nodup → findPair (erasePair ps m) m = none := by
  intro ps
  induction ps with
  | nil => intro _; simp [erasePair, findPair]
  | cons p ps ih =>
      intro hd
      obtain ⟨c0, v⟩ := p
      simp only [List.map_cons, List.nodup_cons] at hd
      by_cases h0 : c0 = m
      · subst h0
        simp only [erasePair, if_pos rfl, ite_true]
        exact (findPair_eq_none_iff c0 ps).2 hd.1
      · simp [erasePair, findPair, h0, ih hd.2]

theorem erasePair_sublist {α : Type} (m : Nat) : ∀ ps : List (Nat × α),
    (erasePair ps m).Sublist ps := by
  intro ps
  induction ps with
  | nil => simp [erasePair]
  | cons p ps ih =>
      obtain ⟨c0, v⟩ := p
      by_cases h0 : c0 = m
      · simp only [erasePair, h0, if_pos rfl, ite_true]
        exact List.sublist_cons_self _ _
      · simp only [erasePair, h0, if_false, ite_false]
        exact List.Sublist.cons₂ _ ih

theorem map_fst_erasePair_nodup {α : Type} (m : Nat) (ps : List (Nat × α))
    (h : (ps.map Prod.fst).Nodup) : ((erasePair ps m).map Prod.fst).Nodup :=
  List.Nodup.sublist (List.Sublist.map Prod.fst (erasePair_sublist m ps)) h

theorem length_erasePair_of_found {α : Type} (m : Nat) : ∀ ps : List (Nat × α),
    findPair ps m ≠ none → (erasePair ps m).length + 1 = ps.length := by
  intro ps
  induction ps with
  | nil => intro h; simp [findPair] at h
  | cons p ps ih =>
      intro h
      obtain ⟨c0, v⟩ := p
      by_cases h0 : c0 = m
      · simp [erasePair, h0]
      · simp only [findPair, h0, if_false, ite_false] at h
        simp [erasePair, h0, ih h]

/-! ## Per-level lemmas -/

theorem keyChunk_lt (key d : Nat) : keyChunk key d < 256 :=
  Nat.mod_lt _ (by omega)

theorem findPair_some_mem {α : Type} (m : Nat) : ∀ (ps : List (Nat × α)) (a : α),
    findPair ps m = some a → ∃ p ∈ ps, p.2 = a := by
  intro ps
  induction ps with
  | nil => intro a h; simp [findPair] at h
  | cons p ps ih =>
      intro a h
      obtain ⟨c, v⟩ := p
      by_cases hc : c = m
      · simp only [findPair, hc, if_pos rfl, ite_true, Option.some_inj] at h
        exact ⟨(c, v), by simp, h⟩
      · simp only [findPair, hc, if_false, ite_false] at h
        obtain ⟨q, hq, hq2⟩ := ih a h
        exact ⟨q, by simp [hq], hq2⟩

theorem find_inner_setNodeChunk (n : bfmNode) (c m : Nat) :
    bfm_find_one_level_inner (setNodeChunk n c) m = bfm_find_one_level_inner n m := by
  cases n <;> rfl

theorem find_leaf_setNodeChunk (n : bfmNode) (c m : Nat) :
    bfm_find_one_level_leaf (setNodeChunk n c) m = bfm_find_one_level_leaf n m := by
  cases n <;> rfl

theorem nodeShift_setNodeChunk (n : bfmNode) (c : Nat) :
    nodeShift (setNodeChunk n c) = nodeShift n := by
  cases n <;> rfl

theorem walk_setNodeChunk (d : Nat) (n : bfmNode) (c key : Nat) :
    bfm_walk_node d (setNodeChunk n c) key = bfm_walk_node d n key := by
  cases d with
  | zero => simp [bfm_walk_node, find_leaf_setNodeChunk]
  | succ d => simp [bfm_walk_node, find_inner_setNodeChunk]

theorem walk_chain_self (key val : Nat) : ∀ d : Nat,
    bfm_walk_node d (bfm_chain key val d) key = some val := by
  intro d
  induction d with
  | zero => simp [bfm_chain, bfm_walk_node, bfm_find_one_level_leaf]
  | succ d ih =>
      simp only [bfm_chain, bfm_walk_node, bfm_find_one_level_inner, if_pos rfl, ite_true]
      rw [walk_setNodeChunk]
      exact ih

theorem nodeOk_setNodeChunk (c : Nat) : ∀ (d : Nat) (n : bfmNode),
    nodeOk d (setNodeChunk n c) ↔ nodeOk d n := by
  intro d n
  cases d <;> cases n <;> simp [setNodeChunk, nodeOk]

theorem chain_nodeOk (key val : Nat) : ∀ d : Nat, nodeOk d (bfm_chain key val d) := by
  intro d
  induction d with
  | zero => simp [bfm_chain, nodeOk]
  | succ d ih =>
      simp only [bfm_chain, nodeOk, List.map_cons, List.map_nil]
      refine ⟨by simp, by simp, ?_⟩
      intro p hp
      simp at hp
      subst hp
      exact (nodeOk_setNodeChunk _ _ _).2 ih

theorem nodeShift_chain (key val : Nat) : ∀ d : Nat, nodeShift (bfm_chain key val d) = 8 * d := by
  intro d
  cases d <;> simp [bfm_chain, nodeShift]

/-- `bfm_set_leaf` stores the value where `bfm_find_one_level_leaf`
will read it back. -/
theorem set_leaf_find_self (chunk val : Nat) : ∀ n : bfmNode, nodeOk 0 n →
    bfm_find_one_level_leaf (bfm_set_leaf n chunk val).2 chunk = some val := by
  intro n hok
  cases n with
  | leaf1 nc ps =>
      cases ps with
      | nil => simp [bfm_set_leaf, bfm_find_one_level_leaf]
      | cons p rest =>
          obtain ⟨c, v⟩ := p
          have hlen1 : ((c, v) :: rest).length ≤ 1 := hok.2
          have hlen : rest = [] := by
            cases rest with
            | nil => rfl
            | cons q qs => simp at hlen1
          subst hlen
          by_cases hc : c = chunk
          · simp [bfm_set_leaf, bfm_find_one_level_leaf, hc]
          · by_cases hlt : chunk < c
            · simp [bfm_set_leaf, bfm_find_one_level_leaf, hc, hlt, findPair]
            · simp [bfm_set_leaf, bfm_find_one_level_leaf, hc, hlt, findPair, Ne.symm hc]
  | leaf4 nc ps =>
      cases hs : search_eq (ps.map Prod.fst) chunk with
      | some i =>
          have hne : findPair ps chunk ≠ none := by
            rw [Ne, findPair_eq_none_iff]
            intro hmem
            rw [← search_eq_eq_none_iff chunk (ps.map Prod.fst)] at hmem
            rw [hs] at hmem
            simp at hmem
          simp [bfm_set_leaf, hs, bfm_find_one_level_leaf, findPair_writePair_self _ _ _ hne]
      | none =>
          have hmem : chunk ∉ ps.map Prod.fst := (search_eq_eq_none_iff _ _).1 hs
          by_cases hlt : ps.length < 4 <;>
            simp [bfm_set_leaf, hs, hlt, bfm_find_one_level_leaf, insPairLe,
              findPair_insAt_self _ _ _ _ hmem]
  | leaf16 nc ps =>
      cases hs : search_eq (ps.map Prod.fst) chunk with
      | some i =>
          have hne : findPair ps chunk ≠ none := by
            rw [Ne, findPair_eq_none_iff]
            intro hmem
            rw [← search_eq_eq_none_iff chunk (ps.map Prod.fst)] at hmem
            rw [hs] at hmem
            simp at hmem
          simp [bfm_set_leaf, hs, bfm_find_one_level_leaf, findPair_writePair_self _ _ _ hne]
      | none =>
          have hmem : chunk ∉ ps.map Prod.fst := (search_eq_eq_none_iff _ _).1 hs
          by_cases hlt : ps.length < 16 <;>
            simp [bfm_set_leaf, hs, hlt, bfm_find_one_level_leaf, insPairLe,
              findPair_insAt_self _ _ _ _ hmem]
  | leaf32 nc ps =>
      cases hs : search_eq (ps.map Prod.fst) chunk with
      | some i =>
          have hne : findPair ps chunk ≠ none := by
            rw [Ne, findPair_eq_none_iff]
            intro hmem
            rw [← search_eq_eq_none_iff chunk (ps.map Prod.fst)] at hmem
            rw [hs] at hmem
            simp at hmem
          simp [bfm_set_leaf, hs, bfm_find_one_level_leaf, findPair_writePair_self _ _ _ hne]
      | none =>
          have hmem : chunk ∉ ps.map Prod.fst := (search_eq_eq_none_iff _ _).1 hs
          by_cases hlt : ps.length < 32 <;>
            simp [bfm_set_leaf, hs, hlt, bfm_find_one_level_leaf, insPairLe,
              findPair_insAt_self _ _ _ _ hmem]
  | leaf128 nc offs vals cnt =>
      cases ho : offs chunk with
      | some off => simp [bfm_set_leaf, ho, bfm_find_one_level_leaf]
      | none =>
          by_cases hlt : cnt < 128 <;> simp [bfm_set_leaf, ho, hlt, bfm_find_one_level_leaf]
  | leafMax nc bset vals cnt =>
      by_cases hb : bset chunk <;> simp [bfm_set_leaf, hb, bfm_find_one_level_leaf]
  | inner1 sh nc ps => exact absurd hok (by simp [nodeOk])
  | inner4 sh nc ps => exact absurd hok (by simp [nodeOk])
  | inner16 sh nc ps => exact absurd hok (by simp [nodeOk])
  | inner32 sh nc ps => exact absurd hok (by simp [nodeOk])
  | inner128 sh nc offs slots cnt => exact absurd hok (by simp [nodeOk])
  | innerMax sh nc slots cnt => exact absurd hok (by simp [nodeOk])

theorem search_eq_none_iff_findPair {α : Type} (m : Nat) (ps : List (Nat × α)) :
    (search_eq (ps.map Prod.fst) m = none ↔ findPair ps m = none) := by
  rw [search_eq_eq_none_iff, findPair_eq_none_iff]

/-- `bfm_set_leaf` reports "was present" exactly when the per-level
search finds the chunk. -/
theorem set_leaf_flag (chunk val : Nat) : ∀ n : bfmNode,
    (bfm_set_leaf n chunk val).1 = (bfm_find_one_level_leaf n chunk).isSome := by
  intro n
  cases n with
  | leaf1 nc ps =>
      cases ps with
      | nil => simp [bfm_set_leaf, bfm_find_one_level_leaf]
      | cons p rest =>
          obtain ⟨c, v⟩ := p
          by_cases hc : c = chunk
          · simp [bfm_set_leaf, bfm_find_one_level_leaf, hc]
          · by_cases hlt : chunk < c <;> simp [bfm_set_leaf, bfm_find_one_level_leaf, hc, hlt]
  | leaf4 nc ps =>
      cases hs : search_eq (ps.map Prod.fst) chunk with
      | some i =>
          have : findPair ps chunk ≠ none := by
            intro hn
            rw [← search_eq_none_iff_findPair] at hn
            rw [hn] at hs
            cases hs
          simp [bfm_set_leaf, hs, bfm_find_one_level_leaf, Option.isSome_iff_ne_none, this]
      | none =>
          have : findPair ps chunk = none := (search_eq_none_iff_findPair _ _).1 hs
          by_cases hlt : ps.length < 4 <;> simp [bfm_set_leaf, hs, hlt, bfm_find_one_level_leaf, this]
  | leaf16 nc ps =>
      cases hs : search_eq (ps.map Prod.fst) chunk with
      | some i =>
          have : findPair ps chunk ≠ none := by
            intro hn
            rw [← search_eq_none_iff_findPair] at hn
            rw [hn] at hs
            cases hs
          simp [bfm_set_leaf, hs, bfm_find_one_level_leaf, Option.isSome_iff_ne_none, this]
      | none =>
          have : findPair ps chunk = none := (search_eq_none_iff_findPair _ _).1 hs
          by_cases hlt : ps.length < 16 <;> simp [bfm_set_leaf, hs, hlt, bfm_find_one_level_leaf, this]
  | leaf32 nc ps =>
      cases hs : search_eq (ps.map Prod.fst) chunk with
      | some i =>
          have : findPair ps chunk ≠ none := by
            intro hn
            rw [← search_eq_none_iff_findPair] at hn
            rw [hn] at hs
            cases hs
          simp [bfm_set_leaf, hs, bfm_find_one_level_leaf, Option.isSome_iff_ne_none, this]
      | none =>
          have : findPair ps chunk = none := (search_eq_none_iff_findPair _ _).1 hs
          by_cases hlt : ps.length < 32 <;> simp [bfm_set_leaf, hs, hlt, bfm_find_one_level_leaf, this]
  | leaf128 nc offs vals cnt =>
      cases ho : offs chunk with
      | some off => simp [bfm_set_leaf, ho, bfm_find_one_level_leaf]
      | none =>
          by_cases hlt : cnt < 128 <;> simp [bfm_set_leaf, ho, hlt, bfm_find_one_level_leaf]
  | leafMax nc bset vals cnt =>
      by_cases hb : bset chunk <;> simp [bfm_set_leaf, hb, bfm_find_one_level_leaf]
  | inner1 sh nc ps => simp [bfm_set_leaf, bfm_find_one_level_leaf]
  | inner4 sh nc ps => simp [bfm_set_leaf, bfm_find_one_level_leaf]
  | inner16 sh nc ps => simp [bfm_set_leaf, bfm_find_one_level_leaf]
  | inner32 sh nc ps => simp [bfm_set_leaf, bfm_find_one_level_leaf]
  | inner128 sh nc offs slots cnt => simp [bfm_set_leaf, bfm_find_one_level_leaf]
  | innerMax sh nc slots cnt => simp [bfm_set_leaf, bfm_find_one_level_leaf]

/-- After `bfm_insert_inner` the chunk that was missing finds the
freshly attached child. -/
theorem find_insert_self (child : bfmNode) (chunk : Nat) : ∀ n : bfmNode, isInnerNode n →
    bfm_find_one_level_inner n chunk = none →
    bfm_find_one_level_inner (bfm_insert_inner n child chunk) chunk =
      some (setNodeChunk child chunk) := by
  intro n hinner hnone
  cases n with
  | inner1 sh nc ps =>
      cases ps with
      | nil => simp [bfm_insert_inner, bfm_find_one_level_inner]
      | cons p rest =>
          obtain ⟨c0, s0⟩ := p
          have hc0 : c0 ≠ chunk := by
            intro h
            simp [bfm_find_one_level_inner, h] at hnone
          simp only [bfm_insert_inner, bfm_find_one_level_inner, insPairLe]
          rw [findPair_insAt_self]
          simp [Ne.symm hc0]
  | inner4 sh nc ps =>
      have hmem : chunk ∉ ps.map Prod.fst := by
        rw [← findPair_eq_none_iff]
        simpa [bfm_find_one_level_inner] using hnone
      by_cases hlt : ps.length < 4 <;>
        simp [bfm_insert_inner, hlt, bfm_find_one_level_inner, insPairLe,
          findPair_insAt_self _ _ _ _ hmem]
  | inner16 sh nc ps =>
      have hmem : chunk ∉ ps.map Prod.fst := by
        rw [← findPair_eq_none_iff]
        simpa [bfm_find_one_level_inner] using hnone
      by_cases hlt : ps.length < 16 <;>
        simp [bfm_insert_inner, hlt, bfm_find_one_level_inner, insPairLe,
          findPair_insAt_self _ _ _ _ hmem]
  | inner32 sh nc ps =>
      have hmem : chunk ∉ ps.map Prod.fst := by
        rw [← findPair_eq_none_iff]
        simpa [bfm_find_one_level_inner] using hnone
      by_cases hlt : ps.length < 32 <;>
        simp [bfm_insert_inner, hlt, bfm_find_one_level_inner, insPairLe,
          findPair_insAt_self _ _ _ _ hmem]
  | inner128 sh nc offs slots cnt =>
      by_cases hlt : cnt < 128 <;> simp [bfm_insert_inner, hlt, bfm_find_one_level_inner]
  | innerMax sh nc slots cnt => simp [bfm_insert_inner, bfm_find_one_level_inner]
  | leaf1 nc ps => exact absurd hinner (by simp [isInnerNode])
  | leaf4 nc ps => exact absurd hinner (by simp [isInnerNode])
  | leaf16 nc ps => exact absurd hinner (by simp [isInnerNode])
  | leaf32 nc ps => exact absurd hinner (by simp [isInnerNode])
  | leaf128 nc offs vals cnt => exact absurd hinner (by simp [isInnerNode])
  | leafMax nc bset vals cnt => exact absurd hinner (by simp [isInnerNode])

/-- Storing a new child over the slot a chunk was found under makes
that chunk find the new child. -/
theorem find_replace_self (s' : bfmNode) (chunk : Nat) : ∀ (n s : bfmNode),
    bfm_find_one_level_inner n chunk = some s →
    bfm_find_one_level_inner (replaceChild n chunk s') chunk = some s' := by
  intro n s hfind
  cases n with
  | inner1 sh nc ps =>
      cases ps with
      | nil => simp [bfm_find_one_level_inner] at hfind
      | cons p rest =>
          obtain ⟨c0, s0⟩ := p
          by_cases hc0 : c0 = chunk
          · simp [replaceChild, bfm_find_one_level_inner, hc0]
          · simp [bfm_find_one_level_inner, hc0] at hfind
  | inner4 sh nc ps =>
      have : findPair ps chunk ≠ none := by
        simp only [bfm_find_one_level_inner] at hfind
        simp [hfind]
      simp [replaceChild, bfm_find_one_level_inner, findPair_writePair_self _ _ _ this]
  | inner16 sh nc ps =>
      have : findPair ps chunk ≠ none := by
        simp only [bfm_find_one_level_inner] at hfind
        simp [hfind]
      simp [replaceChild, bfm_find_one_level_inner, findPair_writePair_self _ _ _ this]
  | inner32 sh nc ps =>
      have : findPair ps chunk ≠ none := by
        simp only [bfm_find_one_level_inner] at hfind
        simp [hfind]
      simp [replaceChild, bfm_find_one_level_inner, findPair_writePair_self _ _ _ this]
  | inner128 sh nc offs slots cnt =>
      cases ho : offs chunk with
      | none => simp [bfm_find_one_level_inner, ho] at hfind
      | some off => simp [replaceChild, bfm_find_one_level_inner, ho]
  | innerMax sh nc slots cnt => simp [replaceChild, bfm_find_one_level_inner]
  | leaf1 nc ps => simp [bfm_find_one_level_inner] at hfind
  | leaf4 nc ps => simp [bfm_find_one_level_inner] at hfind
  | leaf16 nc ps => simp [bfm_find_one_level_inner] at hfind
  | leaf32 nc ps => simp [bfm_find_one_level_inner] at hfind
  | leaf128 nc offs vals cnt => simp [bfm_find_one_level_inner] at hfind
  | leafMax nc bset vals cnt => simp [bfm_find_one_level_inner] at hfind

/-! ## `node_shift` is untouched by the mutation paths -/

theorem nodeShift_insert_inner (n child : bfmNode) (chunk : Nat) :
    nodeShift (bfm_insert_inner n child chunk) = nodeShift n := by
  cases n with
  | inner1 sh nc ps => cases ps <;> rfl
  | inner4 sh nc ps => by_cases h : ps.length < 4 <;> simp [bfm_insert_inner, h, nodeShift]
  | inner16 sh nc ps => by_cases h : ps.length < 16 <;> simp [bfm_insert_inner, h, nodeShift]
  | inner32 sh nc ps => by_cases h : ps.length < 32 <;> simp [bfm_insert_inner, h, nodeShift]
  | inner128 sh nc offs slots cnt =>
      by_cases h : cnt < 128 <;> simp [bfm_insert_inner, h, nodeShift]
  | innerMax sh nc slots cnt => rfl
  | leaf1 nc ps => rfl
  | leaf4 nc ps => rfl
  | leaf16 nc ps => rfl
  | leaf32 nc ps => rfl
  | leaf128 nc offs vals cnt => rfl
  | leafMax nc bset vals cnt => rfl

theorem nodeShift_replaceChild (n : bfmNode) (chunk : Nat) (s' : bfmNode) :
    nodeShift (replaceChild n chunk s') = nodeShift n := by
  cases n with
  | inner1 sh nc ps =>
      cases ps with
      | nil => rfl
      | cons p rest =>
          obtain ⟨c0, s0⟩ := p
          by_cases h : c0 = chunk <;> simp [replaceChild, h, nodeShift]
  | inner4 sh nc ps => rfl
  | inner16 sh nc ps => rfl
  | inner32 sh nc ps => rfl
  | inner128 sh nc offs slots cnt =>
      cases h : offs chunk <;> simp [replaceChild, h, nodeShift]
  | innerMax sh nc slots cnt => rfl
  | leaf1 nc ps => rfl
  | leaf4 nc ps => rfl
  | leaf16 nc ps => rfl
  | leaf32 nc ps => rfl
  | leaf128 nc offs vals cnt => rfl
  | leafMax nc bset vals cnt => rfl

theorem nodeShift_set_leaf (n : bfmNode) (chunk val : Nat) :
    nodeShift (bfm_set_leaf n chunk val).2 = nodeShift n := by
  cases n with
  | leaf1 nc ps =>
      cases ps with
      | nil => rfl
      | cons p rest =>
          obtain ⟨c, v⟩ := p
          by_cases hc : c = chunk
          · simp [bfm_set_leaf, hc, nodeShift]
          · by_cases hlt : chunk < c <;> simp [bfm_set_leaf, hc, hlt, nodeShift]
  | leaf4 nc ps =>
      cases hs : search_eq (ps.map Prod.fst) chunk with
      | some i => simp [bfm_set_leaf, hs, nodeShift]
      | none => by_cases hlt : ps.length < 4 <;> simp [bfm_set_leaf, hs, hlt, nodeShift]
  | leaf16 nc ps =>
      cases hs : search_eq (ps.map Prod.fst) chunk with
      | some i => simp [bfm_set_leaf, hs, nodeShift]
      | none => by_cases hlt : ps.length < 16 <;> simp [bfm_set_leaf, hs, hlt, nodeShift]
  | leaf32 nc ps =>
      cases hs : search_eq (ps.map Prod.fst) chunk with
      | some i => simp [bfm_set_leaf, hs, nodeShift]
      | none => by_cases hlt : ps.length < 32 <;> simp [bfm_set_leaf, hs, hlt, nodeShift]
  | leaf128 nc offs vals cnt =>
      cases ho : offs chunk with
      | some off => simp [bfm_set_leaf, ho, nodeShift]
      | none => by_cases hlt : cnt < 128 <;> simp [bfm_set_leaf, ho, hlt, nodeShift]
  | leafMax nc bset vals cnt =>
      by_cases hb : bset chunk <;> simp [bfm_set_leaf, hb, nodeShift]
  | inner1 sh nc ps => rfl
  | inner4 sh nc ps => rfl
  | inner16 sh nc ps => rfl
  | inner32 sh nc ps => rfl
  | inner128 sh nc offs slots cnt => rfl
  | innerMax sh nc slots cnt => rfl

theorem nodeShift_set_node (key val : Nat) : ∀ (d : Nat) (n : bfmNode),
    nodeShift (bfm_set_node d n key val).2 = nodeShift n := by
  intro d
  induction d with
  | zero => intro n; exact nodeShift_set_leaf n _ val
  | succ d ih =>
      intro n
      simp only [bfm_set_node]
      cases hf : bfm_find_one_level_inner n (keyChunk key (d + 1)) with
      | none => simpa using nodeShift_insert_inner n _ _
      | some slot => simpa using nodeShift_replaceChild n _ _

/-! ## Well-formedness of children and mutation results -/

theorem nodeOk_find_child (d : Nat) : ∀ (n s : bfmNode) (c : Nat), nodeOk (d + 1) n →
    bfm_find_one_level_inner n c = some s → nodeOk d s := by
  intro n s c hok hfind
  cases n with
  | inner1 sh nc ps =>
      cases ps with
      | nil => simp [bfm_find_one_level_inner] at hfind
      | cons p rest =>
          obtain ⟨c0, s0⟩ := p
          by_cases hc0 : c0 = c
          · simp only [bfm_find_one_level_inner, hc0, if_pos rfl, ite_true,
              Option.some_inj] at hfind
            subst hfind
            exact (hok.2.2 (c0, s0) (by simp))
          · simp [bfm_find_one_level_inner, hc0] at hfind
  | inner4 sh nc ps =>
      simp only [bfm_find_one_level_inner] at hfind
      obtain ⟨p, hp, hp2⟩ := findPair_some_mem _ _ _ hfind
      exact hp2 ▸ hok.2 p hp
  | inner16 sh nc ps =>
      simp only [bfm_find_one_level_inner] at hfind
      obtain ⟨p, hp, hp2⟩ := findPair_some_mem _ _ _ hfind
      exact hp2 ▸ hok.2 p hp
  | inner32 sh nc ps =>
      simp only [bfm_find_one_level_inner] at hfind
      obtain ⟨p, hp, hp2⟩ := findPair_some_mem _ _ _ hfind
      exact hp2 ▸ hok.2 p hp
  | inner128 sh nc offs slots cnt =>
      simp only [bfm_find_one_level_inner] at hfind
      cases ho : offs c with
      | none => rw [ho] at hfind; cases hfind
      | some off =>
          rw [ho] at hfind
          exact hok off s hfind
  | innerMax sh nc slots cnt =>
      simp only [bfm_find_one_level_inner] at hfind
      exact hok c s hfind
  | leaf1 nc ps => exact absurd hok (by simp [nodeOk])
  | leaf4 nc ps => exact absurd hok (by simp [nodeOk])
  | leaf16 nc ps => exact absurd hok (by simp [nodeOk])
  | leaf32 nc ps => exact absurd hok (by simp [nodeOk])
  | leaf128 nc offs vals cnt => exact absurd hok (by simp [nodeOk])
  | leafMax nc bset vals cnt => exact absurd hok (by simp [nodeOk])

theorem nodeOk_isInner (d : Nat) (n : bfmNode) (hok : nodeOk (d + 1) n) : isInnerNode n := by
  cases n with
  | inner1 sh nc ps => simp [isInnerNode]
  | inner4 sh nc ps => simp [isInnerNode]
  | inner16 sh nc ps => simp [isInnerNode]
  | inner32 sh nc ps => simp [isInnerNode]
  | inner128 sh nc offs slots cnt => simp [isInnerNode]
  | innerMax sh nc slots cnt => simp [isInnerNode]
  | leaf1 nc ps => exact absurd hok (by simp [nodeOk])
  | leaf4 nc ps => exact absurd hok (by simp [nodeOk])
  | leaf16 nc ps => exact absurd hok (by simp [nodeOk])
  | leaf32 nc ps => exact absurd hok (by simp [nodeOk])
  | leaf128 nc offs vals cnt => exact absurd hok (by simp [nodeOk])
  | leafMax nc bset vals cnt => exact absurd hok (by simp [nodeOk])

/-- The heart of the round trip: after `bfm_set_node`, walking the same
key reads back the stored value. -/
theorem set_node_walk_self (key val : Nat) : ∀ (d : Nat) (n : bfmNode), nodeOk d n →
    bfm_walk_node d (bfm_set_node d n key val).2 key = some val := by
  intro d
  induction d with
  | zero =>
      intro n hok
      exact set_leaf_find_self _ _ n hok
  | succ d ih =>
      intro n hok
      simp only [bfm_set_node, bfm_walk_node]
      cases hf : bfm_find_one_level_inner n (keyChunk key (d + 1)) with
      | none =>
          simp only
          rw [find_insert_self _ _ n (nodeOk_isInner d n hok) hf]
          simp only
          rw [walk_setNodeChunk]
          exact walk_chain_self key val d
      | some slot =>
          simp only
          rw [find_replace_self _ _ n slot hf]
          exact ih _ (nodeOk_find_child d n slot _ hok hf)

/-! ## Shape preservation -/

theorem mem_writePair {α : Type} (m : Nat) (a : α) : ∀ (ps : List (Nat × α)) (p : Nat × α),
    p ∈ writePair ps m a → p ∈ ps ∨ p = (m, a) := by
  intro ps
  induction ps with
  | nil => intro p hp; simp [writePair] at hp
  | cons q ps ih =>
      intro p hp
      obtain ⟨c0, v0⟩ := q
      by_cases h0 : c0 = m
      · subst h0
        simp only [writePair, if_pos rfl, ite_true, List.mem_cons] at hp
        cases hp with
        | inl h => right; exact h
        | inr h => left; simp [h]
      · simp only [writePair, h0, if_false, ite_false, List.mem_cons] at hp
        cases hp with
        | inl h => left; simp [h]
        | inr h =>
            cases ih p h with
            | inl h2 => left; simp [h2]
            | inr h2 => right; exact h2

theorem nodup_insPairLe {α : Type} (ps : List (Nat × α)) (m : Nat) (a : α)
    (hm : m ∉ ps.map Prod.fst) (hd : (ps.map Prod.fst).Nodup) :
    ((insPairLe ps m a).map Prod.fst).Nodup := by
  rw [insPairLe, map_fst_insAt]
  exact nodup_insAt m _ _ hm hd

theorem mem_insPairLe {α : Type} (ps : List (Nat × α)) (m : Nat) (a : α) (p : Nat × α)
    (hp : p ∈ insPairLe ps m a) : p = (m, a) ∨ p ∈ ps := by
  rw [insPairLe] at hp
  exact (mem_insAt p (m, a) ps _).1 hp

/-- `bfm_set_leaf` keeps the leaf well-formed. -/
theorem set_leaf_nodeOk (chunk val : Nat) : ∀ n : bfmNode, nodeOk 0 n →
    nodeOk 0 (bfm_set_leaf n chunk val).2 := by
  intro n hok
  cases n with
  | leaf1 nc ps =>
      cases ps with
      | nil => simp [bfm_set_leaf, nodeOk]
      | cons p rest =>
          obtain ⟨c, v⟩ := p
          have hlen1 : ((c, v) :: rest).length ≤ 1 := hok.2
          have hrest : rest = [] := by
            cases rest with
            | nil => rfl
            | cons q qs => simp at hlen1
          subst hrest
          by_cases hc : c = chunk
          · simp [bfm_set_leaf, hc, nodeOk]
          · by_cases hlt : chunk < c <;>
              simp [bfm_set_leaf, hc, hlt, nodeOk, Ne.symm hc]
  | leaf4 nc ps =>
      have hd : (ps.map Prod.fst).Nodup := hok
      cases hs : search_eq (ps.map Prod.fst) chunk with
      | some i =>
          simp only [bfm_set_leaf, hs]
          show ((writePair ps chunk val).map Prod.fst).Nodup
          rw [map_fst_writePair]
          exact hd
      | none =>
          have hmem : chunk ∉ ps.map Prod.fst := (search_eq_eq_none_iff _ _).1 hs
          by_cases hlt : ps.length < 4 <;>
            · simp only [bfm_set_leaf, hs, hlt, if_true, if_false, ite_true, ite_false]
              exact nodup_insPairLe ps chunk val hmem hd
  | leaf16 nc ps =>
      have hd : (ps.map Prod.fst).Nodup := hok
      cases hs : search_eq (ps.map Prod.fst) chunk with
      | some i =>
          simp only [bfm_set_leaf, hs]
          show ((writePair ps chunk val).map Prod.fst).Nodup
          rw [map_fst_writePair]
          exact hd
      | none =>
          have hmem : chunk ∉ ps.map Prod.fst := (search_eq_eq_none_iff _ _).1 hs
          by_cases hlt : ps.length < 16 <;>
            · simp only [bfm_set_leaf, hs, hlt, if_true, if_false, ite_true, ite_false]
              exact nodup_insPairLe ps chunk val hmem hd
  | leaf32 nc ps =>
      have hd : (ps.map Prod.fst).Nodup := hok
      cases hs : search_eq (ps.map Prod.fst) chunk with
      | some i =>
          simp only [bfm_set_leaf, hs]
          show ((writePair ps chunk val).map Prod.fst).Nodup
          rw [map_fst_writePair]
          exact hd
      | none =>
          have hmem : chunk ∉ ps.map Prod.fst := (search_eq_eq_none_iff _ _).1 hs
          by_cases hlt : ps.length < 32
          · simp only [bfm_set_leaf, hs, hlt, ite_true]
            exact nodup_insPairLe ps chunk val hmem hd
          · simp [bfm_set_leaf, hs, hlt, nodeOk]
  | leaf128 nc offs vals cnt =>
      cases ho : offs chunk with
      | some off => simp [bfm_set_leaf, ho, nodeOk]
      | none => by_cases hlt : cnt < 128 <;> simp [bfm_set_leaf, ho, hlt, nodeOk]
  | leafMax nc bset vals cnt =>
      by_cases hb : bset chunk <;> simp [bfm_set_leaf, hb, nodeOk]
  | inner1 sh nc ps => exact absurd hok (by simp [nodeOk])
  | inner4 sh nc ps => exact absurd hok (by simp [nodeOk])
  | inner16 sh nc ps => exact absurd hok (by simp [nodeOk])
  | inner32 sh nc ps => exact absurd hok (by simp [nodeOk])
  | inner128 sh nc offs slots cnt => exact absurd hok (by simp [nodeOk])
  | innerMax sh nc slots cnt => exact absurd hok (by simp [nodeOk])

/-- `bfm_insert_inner` keeps the inner node well-formed when the
attached child is. -/
theorem insert_inner_nodeOk (d : Nat) (chunk : Nat) : ∀ (n child : bfmNode),
    nodeOk (d + 1) n → nodeOk d child → bfm_find_one_level_inner n chunk = none →
    nodeOk (d + 1) (bfm_insert_inner n child chunk) := by
  intro n child hok hchild hnone
  have hchild' : nodeOk d (setNodeChunk child chunk) := (nodeOk_setNodeChunk _ _ _).2 hchild
  cases n with
  | inner1 sh nc ps =>
      cases ps with
      | nil =>
          refine ⟨by simp, by simp, ?_⟩
          intro p hp
          simp at hp
          subst hp
          exact hchild'
      | cons p rest =>
          obtain ⟨c0, s0⟩ := p
          have hc0 : c0 ≠ chunk := by
            intro h
            simp [bfm_find_one_level_inner, h] at hnone
          simp only [bfm_insert_inner]
          refine ⟨nodup_insPairLe _ _ _ (by simp [Ne.symm hc0]) (by simp), ?_⟩
          intro p hp
          cases mem_insPairLe _ _ _ _ hp with
          | inl h => subst h; exact hchild'
          | inr h =>
              simp at h
              subst h
              exact hok.2.2 (c0, s0) (by simp)
  | inner4 sh nc ps =>
      have hmem : chunk ∉ ps.map Prod.fst := by
        rw [← findPair_eq_none_iff]
        simpa [bfm_find_one_level_inner] using hnone
      have hstep : ∀ p ∈ insPairLe ps chunk (setNodeChunk child chunk), nodeOk d p.2 := by
        intro p hp
        cases mem_insPairLe _ _ _ _ hp with
        | inl h => subst h; exact hchild'
        | inr h => exact hok.2 p h
      by_cases hlt : ps.length < 4 <;>
        · simp only [bfm_insert_inner, hlt, ite_true, ite_false]
          exact ⟨nodup_insPairLe _ _ _ hmem hok.1, hstep⟩
  | inner16 sh nc ps =>
      have hmem : chunk ∉ ps.map Prod.fst := by
        rw [← findPair_eq_none_iff]
        simpa [bfm_find_one_level_inner] using hnone
      have hstep : ∀ p ∈ insPairLe ps chunk (setNodeChunk child chunk), nodeOk d p.2 := by
        intro p hp
        cases mem_insPairLe _ _ _ _ hp with
        | inl h => subst h; exact hchild'
        | inr h => exact hok.2 p h
      by_cases hlt : ps.length < 16 <;>
        · simp only [bfm_insert_inner, hlt, ite_true, ite_false]
          exact ⟨nodup_insPairLe _ _ _ hmem hok.1, hstep⟩
  | inner32 sh nc ps =>
      have hmem : chunk ∉ ps.map Prod.fst := by
        rw [← findPair_eq_none_iff]
        simpa [bfm_find_one_level_inner] using hnone
      by_cases hlt : ps.length < 32
      · have hstep : ∀ p ∈ insPairLe ps chunk (setNodeChunk child chunk), nodeOk d p.2 := by
          intro p hp
          cases mem_insPairLe _ _ _ _ hp with
          | inl h => subst h; exact hchild'
          | inr h => exact hok.2 p h
        simp only [bfm_insert_inner, hlt, ite_true]
        exact ⟨nodup_insPairLe _ _ _ hmem hok.1, hstep⟩
      · simp only [bfm_insert_inner, hlt, ite_false, nodeOk]
        intro o s hs
        by_cases ho : o = 32
        · subst ho
          simp at hs
          exact hs ▸ hchild'
        · simp only [ho, if_false, ite_false] at hs
          cases hg : ps.get? o with
          | none => rw [hg] at hs; cases hs
          | some p =>
              rw [hg] at hs
              simp at hs
              exact hs ▸ hok.2 p (List.get?_mem hg)
  | inner128 sh nc offs slots cnt =>
      by_cases hlt : cnt < 128
      · simp only [bfm_insert_inner, hlt, ite_true, nodeOk]
        intro o s hs
        by_cases ho : o = cnt
        · subst ho
          simp at hs
          exact hs ▸ hchild'
        · simp only [ho, if_false, ite_false] at hs
          exact hok o s hs
      · simp only [bfm_insert_inner, hlt, ite_false, nodeOk]
        intro c s hs
        by_cases hc : c = chunk
        · subst hc
          simp at hs
          exact hs ▸ hchild'
        · simp only [hc, if_false, ite_false] at hs
          cases ho : offs c with
          | none => rw [ho] at hs; cases hs
          | some off =>
              rw [ho] at hs
              simp at hs
              exact hok off s hs
  | innerMax sh nc slots cnt =>
      simp only [bfm_insert_inner, nodeOk]
      intro c s hs
      by_cases hc : c = chunk
      · subst hc
        simp at hs
        exact hs ▸ hchild'
      · simp only [hc, if_false, ite_false] at hs
        exact hok c s hs
  | leaf1 nc ps => exact absurd hok (by simp [nodeOk])
  | leaf4 nc ps => exact absurd hok (by simp [nodeOk])
  | leaf16 nc ps => exact absurd hok (by simp [nodeOk])
  | leaf32 nc ps => exact absurd hok (by simp [nodeOk])
  | leaf128 nc offs vals cnt => exact absurd hok (by simp [nodeOk])
  | leafMax nc bset vals cnt => exact absurd hok (by simp [nodeOk])

/-- `replaceChild` keeps the inner node well-formed when the new child
is. -/
theorem replaceChild_nodeOk (d : Nat) (chunk : Nat) : ∀ (n s' : bfmNode),
    nodeOk (d + 1) n → nodeOk d s' → nodeOk (d + 1) (replaceChild n chunk s') := by
  intro n s' hok hs'
  cases n with
  | inner1 sh nc ps =>
      cases ps with
      | nil => exact hok
      | cons p rest =>
          obtain ⟨c0, s0⟩ := p
          by_cases hc0 : c0 = chunk
          · subst hc0
            simp only [replaceChild, if_pos rfl, ite_true]
            refine ⟨?_, ?_, ?_⟩
            · have := hok.1
              simpa using this
            · have := hok.2.1
              simpa using this
            · intro p hp
              simp at hp
              cases hp with
              | inl h => simp [h, hs']
              | inr h => exact hok.2.2 p (by simp [h])
          · simp only [replaceChild, hc0, if_false, ite_false]
            exact hok
  | inner4 sh nc ps =>
      refine ⟨by rw [map_fst_writePair]; exact hok.1, ?_⟩
      intro p hp
      cases mem_writePair _ _ _ _ hp with
      | inl h => exact hok.2 p h
      | inr h => simp [h, hs']
  | inner16 sh nc ps =>
      refine ⟨by rw [map_fst_writePair]; exact hok.1, ?_⟩
      intro p hp
      cases mem_writePair _ _ _ _ hp with
      | inl h => exact hok.2 p h
      | inr h => simp [h, hs']
  | inner32 sh nc ps =>
      refine ⟨by rw [map_fst_writePair]; exact hok.1, ?_⟩
      intro p hp
      cases mem_writePair _ _ _ _ hp with
      | inl h => exact hok.2 p h
      | inr h => simp [h, hs']
  | inner128 sh nc offs slots cnt =>
      cases ho : offs chunk with
      | none => simp only [replaceChild, ho]; exact hok
      | some off =>
          simp only [replaceChild, ho, nodeOk]
          intro o s hs
          by_cases hoo : o = off
          · subst hoo
            simp at hs
            exact hs ▸ hs'
          · simp only [hoo, if_false, ite_false] at hs
            exact hok o s hs
  | innerMax sh nc slots cnt =>
      simp only [replaceChild, nodeOk]
      intro c s hs
      by_cases hc : c = chunk
      · subst hc
        simp at hs
        exact hs ▸ hs'
      · simp only [hc, if_false, ite_false] at hs
        exact hok c s hs
  | leaf1 nc ps => exact hok
  | leaf4 nc ps => exact hok
  | leaf16 nc ps => exact hok
  | leaf32 nc ps => exact hok
  | leaf128 nc offs vals cnt => exact hok
  | leafMax nc bset vals cnt => exact hok

/-- `bfm_set_node` keeps the subtree well-formed. -/
theorem set_node_nodeOk (key val : Nat) : ∀ (d : Nat) (n : bfmNode), nodeOk d n →
    nodeOk d (bfm_set_node d n key val).2 := by
  intro d
  induction d with
  | zero => intro n hok; exact set_leaf_nodeOk _ _ n hok
  | succ d ih =>
      intro n hok
      simp only [bfm_set_node]
      cases hf : bfm_find_one_level_inner n (keyChunk key (d + 1)) with
      | none =>
          simp only
          exact insert_inner_nodeOk d _ n _ hok (chain_nodeOk key val d) hf
      | some slot =>
          simp only
          exact replaceChild_nodeOk d _ n _ hok (ih _ (nodeOk_find_child d n slot _ hok hf))

/-! ## Height arithmetic -/

theorem log2fuel_spec : ∀ f n : Nat, 1 ≤ n → n < 2 ^ f →
    2 ^ log2fuel f n ≤ n ∧ n < 2 ^ (log2fuel f n + 1) := by
  intro f
  induction f with
  | zero => intro n h1 h2; omega
  | succ f ih =>
      intro n h1 h2
      by_cases hsm : n < 2
      · have : n = 1 := by omega
        subst this
        simp [log2fuel]
      · have hrec := ih (n / 2) (by omega) (by
          rw [pow_succ] at h2
          omega)
        have heq : log2fuel (f + 1) n = log2fuel f (n / 2) + 1 := by
          simp [log2fuel, hsm]
        rw [heq]
        constructor
        · rw [pow_succ]
          omega
        · rw [pow_succ, pow_succ] at *
          omega

/-- The `shift` chosen at `bfm_set_empty` / `bfm_set_shallow`:
`(pg_leftmost_one_pos64(key) / 8) * 8`. -/
theorem shift_facts (key : Nat) (h1 : 1 ≤ key) (h64 : key < 2 ^ 64) :
    pg_leftmost_one_pos64 key / 8 * 8 % 8 = 0 ∧
      pg_leftmost_one_pos64 key / 8 * 8 ≤ 56 ∧
      key < 2 ^ (pg_leftmost_one_pos64 key / 8 * 8 + 8) ∧
      2 ^ (pg_leftmost_one_pos64 key / 8 * 8) ≤ key := by
  obtain ⟨hlo0, hhi0⟩ := log2fuel_spec 64 key h1 h64
  have hlo : 2 ^ pg_leftmost_one_pos64 key ≤ key := hlo0
  have hhi : key < 2 ^ (pg_leftmost_one_pos64 key + 1) := hhi0
  generalize hgen : pg_leftmost_one_pos64 key = lp at hlo hhi ⊢
  have hlp63 : lp ≤ 63 := by
    by_contra hgt
    push_neg at hgt
    have : 2 ^ 64 ≤ 2 ^ lp := Nat.pow_le_pow_right (by omega) (by omega)
    omega
  have hsm : lp / 8 * 8 ≤ lp := Nat.div_mul_le_self lp 8
  have hsb : lp < lp / 8 * 8 + 8 := by omega
  refine ⟨by omega, by omega, ?_, ?_⟩
  · calc key < 2 ^ (lp + 1) := hhi
      _ ≤ 2 ^ (lp / 8 * 8 + 8) := Nat.pow_le_pow_right (by omega) (by omega)
  · calc 2 ^ (lp / 8 * 8) ≤ 2 ^ lp := Nat.pow_le_pow_right (by omega) hsm
      _ ≤ key := hlo

theorem bfm_maxval_shift_eq (shift : Nat) (h : shift ≤ 56) :
    bfm_maxval_shift shift = 2 ^ (shift + 8) - 1 := by
  unfold bfm_maxval_shift
  have h1 : 2 ^ (shift + 8) ≤ 2 ^ 64 := Nat.pow_le_pow_right (by omega) (by omega)
  have h2 : 1 ≤ 2 ^ (shift + 8) := Nat.one_le_two_pow
  exact Nat.mod_eq_of_lt (by omega)

theorem le_maxval_shift (key shift : Nat) (hsh : shift ≤ 56) (hk : key < 2 ^ (shift + 8)) :
    key ≤ bfm_maxval_shift shift := by
  rw [bfm_maxval_shift_eq shift hsh]
  omega

theorem keyChunk_top_pos (key shift : Nat) (hm : shift % 8 = 0)
    (hlo : 2 ^ shift ≤ key) (hhi : key < 2 ^ (shift + 8)) :
    1 ≤ keyChunk key (shift / 8) ∧ keyChunk key (shift / 8) = key / 2 ^ shift := by
  have h8 : 8 * (shift / 8) = shift := by omega
  have hdiv1 : 1 ≤ key / 2 ^ shift := Nat.le_div_iff_mul_le (Nat.pos_pow_of_pos _ (by omega)) |>.2 (by omega)
  have hdiv2 : key / 2 ^ shift < 256 := by
    rw [Nat.div_lt_iff_lt_mul (Nat.pos_pow_of_pos _ (by omega))]
    calc key < 2 ^ (shift + 8) := hhi
      _ = 256 * 2 ^ shift := by rw [pow_add]; ring

  unfold keyChunk
  rw [h8]
  exact ⟨by rw [Nat.mod_eq_of_lt hdiv2]; omega, Nat.mod_eq_of_lt hdiv2⟩

/-! ## Root wrapping (`bfm_set_shallow`) -/

theorem nodeShift_wrapRootN : ∀ (k : Nat) (r : bfmNode),
    nodeShift (wrapRootN k r) = nodeShift r + 8 * k := by
  intro k
  induction k with
  | zero => intro r; simp [wrapRootN]
  | succ k ih =>
      intro r
      simp only [wrapRootN]
      rw [ih]
      simp [nodeShift]
      omega

theorem wrapRootN_nodeOk : ∀ (k : Nat) (d : Nat) (r : bfmNode), nodeOk d r →
    nodeOk (d + k) (wrapRootN k r) := by
  intro k
  induction k with
  | zero => intro d r h; simpa [wrapRootN] using h
  | succ k ih =>
      intro d r h
      have h1 : nodeOk (d + 1) (bfmNode.inner1 (nodeShift r + 8) 0 [(0, r)]) := by
        refine ⟨by simp, by simp, ?_⟩
        intro p hp
        simp at hp
        subst hp
        exact h
      have := ih (d + 1) _ h1
      simpa [wrapRootN, Nat.add_assoc, Nat.add_comm 1 k] using this

theorem wrapRootN_shape : ∀ (k : Nat) (r : bfmNode),
    ∃ s, wrapRootN (k + 1) r = bfmNode.inner1 (nodeShift r + 8 * (k + 1)) 0 [(0, s)] := by
  intro k
  induction k with
  | zero =>
      intro r
      exact ⟨r, by simp [wrapRootN, nodeShift]⟩
  | succ k ih =>
      intro r
      obtain ⟨s, hs⟩ := ih (bfmNode.inner1 (nodeShift r + 8) 0 [(0, r)])
      refine ⟨s, ?_⟩
      show wrapRootN (k + 1) (bfmNode.inner1 (nodeShift r + 8) 0 [(0, r)]) = _
      rw [hs]
      simp [nodeShift]
      omega

/-! ## Top-level correctness of `bfm_set` -/

/-- A fresh root built by `bfm_insert_inner` into an empty class-1
inner node. -/
theorem insert_into_empty_inner1 (sh : Nat) (child : bfmNode) (chunk : Nat) :
    bfm_insert_inner (bfmNode.inner1 sh 0 []) child chunk =
      bfmNode.inner1 sh 0 [(chunk, setNodeChunk child chunk)] := rfl

theorem walk_fresh_inner1 (sh0 : Nat) (d : Nat) (key val : Nat) (chunk : Nat)
    (hchunk : chunk = keyChunk key (d + 1)) :
    bfm_walk_node (d + 1)
      (bfmNode.inner1 sh0 0 [(chunk, setNodeChunk (bfm_chain key val d) chunk)]) key =
      some val := by
  subst hchunk
  simp only [bfm_walk_node, bfm_find_one_level_inner, if_pos rfl, ite_true]
  rw [walk_setNodeChunk]
  exact walk_chain_self key val d

theorem fresh_inner1_nodeOk (sh0 : Nat) (d : Nat) (key val chunk : Nat) :
    nodeOk (d + 1) (bfmNode.inner1 sh0 0 [(chunk, setNodeChunk (bfm_chain key val d) chunk)]) := by
  refine ⟨by simp, by simp, ?_⟩
  intro p hp
  simp at hp
  subst hp
  exact (nodeOk_setNodeChunk _ _ _).2 (chain_nodeOk key val d)

theorem set_empty_wf_self (key val : Nat) (hk : key < 2 ^ 64) :
    treeWf (bfm_set_empty key val).2 ∧
      bfm_lookup (bfm_set_empty key val).2 key = (true, val) := by
  by_cases hz : key = 0
  · subst hz
    simp only [bfm_set_empty, if_pos rfl, ite_true]
    constructor
    · intro r hr
      simp only [Option.some_inj] at hr
      subst hr
      rw [nodeShift_set_leaf]
      simp only [nodeShift, Nat.zero_div, Nat.zero_mod]
      exact ⟨set_leaf_nodeOk _ _ _ (by simp [nodeOk]), trivial, by omega, trivial⟩
    · simp only [bfm_lookup]
      rw [bfm_maxval_shift_eq 0 (by omega)]
      simp only [show ¬(2 ^ (0 + 8) - 1 < 0) by omega, if_false, ite_false]
      rw [nodeShift_set_leaf]
      simp only [nodeShift, Nat.zero_div, bfm_walk_node]
      rw [set_leaf_find_self _ _ _ (by simp [nodeOk])]
  · obtain ⟨hm8, h56, hhi, hlo⟩ := shift_facts key (by omega) hk
    simp only [bfm_set_empty, hz, if_false, ite_false]
    generalize hSdef : pg_leftmost_one_pos64 key / 8 * 8 = S at hm8 h56 hhi hlo ⊢
    by_cases hs0 : S = 0
    · subst hs0
      have hkey : key < 256 := by simpa using hhi
      simp only [if_pos rfl, ite_true]
      constructor
      · intro r hr
        simp only [Option.some_inj] at hr
        subst hr
        rw [nodeShift_set_leaf]
        simp only [nodeShift, Nat.zero_div, Nat.zero_mod]
        exact ⟨set_leaf_nodeOk _ _ _ (by simp [nodeOk]), trivial, by omega, trivial⟩
      · simp only [bfm_lookup]
        rw [bfm_maxval_shift_eq 0 (by omega)]
        simp only [show ¬(2 ^ (0 + 8) - 1 < key) by omega, if_false, ite_false]
        rw [nodeShift_set_leaf]
        simp only [nodeShift, Nat.zero_div, bfm_walk_node]
        rw [set_leaf_find_self _ _ _ (by simp [nodeOk])]
    · have hge8 : 8 ≤ S := by omega
      obtain ⟨d, hd⟩ : ∃ d, S / 8 = d + 1 := ⟨S / 8 - 1, by omega⟩
      simp only [hs0, if_false, ite_false]
      rw [insert_into_empty_inner1]
      constructor
      · intro r hr
        simp only [Option.some_inj] at hr
        subst hr
        simp only [nodeShift]
        refine ⟨?_, hm8, h56, trivial⟩
        rw [hd]
        simp only [Nat.add_sub_cancel]
        exact fresh_inner1_nodeOk _ d key val _
      · simp only [bfm_lookup]
        have hguard : ¬ (bfm_maxval_shift S < key) := by
          have := le_maxval_shift key _ h56 hhi
          omega
        simp only [hguard, if_false, ite_false, nodeShift]
        rw [hd]
        simp only [Nat.add_sub_cancel]
        rw [walk_fresh_inner1 _ d key val _ rfl]

theorem set_shallow_wf_self (r : bfmNode) (key val : Nat)
    (hok : nodeOk (nodeShift r / 8) r) (hm8 : nodeShift r % 8 = 0) (hns : nodeShift r ≤ 56)
    (hgt : bfm_maxval_shift (nodeShift r) < key) (hk : key < 2 ^ 64) :
    treeWf (bfm_set_shallow r key val).2 ∧
      bfm_lookup (bfm_set_shallow r key val).2 key = (true, val) := by
  have hz : key ≠ 0 := by
    intro h
    subst h
    omega
  obtain ⟨hm8', h56', hhi, hlo⟩ := shift_facts key (by omega) hk
  simp only [bfm_set_shallow, hz, if_false, ite_false]
  generalize hSdef : pg_leftmost_one_pos64 key / 8 * 8 = S at hm8' h56' hhi hlo ⊢
  have hkey_ge : 2 ^ (nodeShift r + 8) ≤ key := by
    rw [bfm_maxval_shift_eq _ hns] at hgt
    omega
  have hpow : nodeShift r + 8 < S + 8 := by
    by_contra hcon
    push_neg at hcon
    have : (2:Nat) ^ (S + 8) ≤ 2 ^ (nodeShift r + 8) := Nat.pow_le_pow_right (by omega) hcon
    omega
  have hSge : nodeShift r + 8 ≤ S := by omega
  obtain ⟨k1, hk1⟩ : ∃ k1, (S - nodeShift r) / 8 = k1 + 1 :=
    ⟨(S - nodeShift r) / 8 - 1, by omega⟩
  have hshift' : nodeShift (wrapRootN ((S - nodeShift r) / 8) r) = S := by
    rw [nodeShift_wrapRootN]
    omega
  have hok' : nodeOk (S / 8) (wrapRootN ((S - nodeShift r) / 8) r) := by
    have h0 := wrapRootN_nodeOk ((S - nodeShift r) / 8) (nodeShift r / 8) r hok
    have harith : nodeShift r / 8 + (S - nodeShift r) / 8 = S / 8 := by omega
    rwa [harith] at h0
  obtain ⟨hc1, hceq⟩ := keyChunk_top_pos key S hm8' hlo hhi
  have hfind : bfm_find_one_level_inner (wrapRootN ((S - nodeShift r) / 8) r)
      (keyChunk key (S / 8)) = none := by
    rw [hk1]
    obtain ⟨s, hs⟩ := wrapRootN_shape k1 r
    rw [hs]
    simp only [bfm_find_one_level_inner]
    rw [if_neg (by omega)]
  have hinner : isInnerNode (wrapRootN ((S - nodeShift r) / 8) r) := by
    rw [hk1]
    obtain ⟨s, hs⟩ := wrapRootN_shape k1 r
    rw [hs]
    simp [isInnerNode]
  obtain ⟨d, hdS⟩ : ∃ d, S / 8 = d + 1 := ⟨S / 8 - 1, by omega⟩
  have hchain : S / 8 - 1 = d := by omega
  have hself := find_insert_self (bfm_chain key val (S / 8 - 1)) (keyChunk key (S / 8)) _
    hinner hfind
  have hshape : nodeOk (S / 8)
      (bfm_insert_inner (wrapRootN ((S - nodeShift r) / 8) r)
        (bfm_chain key val (S / 8 - 1)) (keyChunk key (S / 8))) := by
    rw [hdS] at hfind ⊢
    simp only [Nat.add_sub_cancel]
    exact insert_inner_nodeOk d _ _ _ (hdS ▸ hok') (chain_nodeOk key val d) hfind
  have hshift'' : nodeShift
      (bfm_insert_inner (wrapRootN ((S - nodeShift r) / 8) r)
        (bfm_chain key val (S / 8 - 1)) (keyChunk key (S / 8))) = S := by
    rw [nodeShift_insert_inner]
    exact hshift'
  constructor
  · intro r0 hr0
    simp only [Option.some_inj] at hr0
    subst hr0
    rw [hshift'']
    exact ⟨hshape, hm8', h56', rfl⟩
  · simp only [bfm_lookup]
    have hguard : ¬ (bfm_maxval_shift S < key) := by
      have := le_maxval_shift key _ h56' hhi
      omega
    simp only [hguard, if_false, ite_false]
    rw [hshift'']
    rw [hdS]
    simp only [Nat.add_sub_cancel]
    rw [hdS] at hself
    simp only [Nat.add_sub_cancel] at hself
    simp only [bfm_walk_node]
    rw [hself]
    simp only
    rw [walk_setNodeChunk]
    rw [walk_chain_self]

/-- `bfm_set` preserves the tree invariant and makes the key it wrote
immediately readable. -/
theorem bfm_set_wf_self (t : bfmTree) (key val : Nat) (hwf : treeWf t) (hk : key < 2 ^ 64) :
    treeWf (bfm_set t key val).2 ∧ bfm_lookup (bfm_set t key val).2 key = (true, val) := by
  cases hr : t.rnode with
  | none =>
      have : bfm_set t key val = bfm_set_empty key val := by
        unfold bfm_set
        rw [hr]
      rw [this]
      exact set_empty_wf_self key val hk
  | some r =>
      obtain ⟨hok, hm8, hns, hmax⟩ := hwf r hr
      by_cases hgt : t.maxval < key
      · have : bfm_set t key val = bfm_set_shallow r key val := by
          unfold bfm_set
          rw [hr]
          simp [hgt]
        rw [this]
        exact set_shallow_wf_self r key val hok hm8 hns (hmax ▸ hgt) hk
      · have : bfm_set t key val =
            ((bfm_set_node (nodeShift r / 8) r key val).1,
              ⟨some (bfm_set_node (nodeShift r / 8) r key val).2, t.maxval⟩) := by
          unfold bfm_set
          rw [hr]
          simp [hgt]
        rw [this]
        constructor
        · intro r0 hr0
          simp only [Option.some_inj] at hr0
          subst hr0
          rw [nodeShift_set_node]
          exact ⟨set_node_nodeOk key val _ r hok, hm8, hns, hmax⟩
        · simp only [bfm_lookup]
          rw [nodeShift_set_node]
          simp only [hgt, if_false, ite_false]
          rw [set_node_walk_self key val _ r hok]

/-! ## `bfm_delete` preserves the tree invariant -/

theorem delete_leaf_node_nodeOk (chunk : Nat) : ∀ (n n' : bfmNode), nodeOk 0 n →
    bfm_delete_leaf_node n chunk = some n' → nodeOk 0 n' ∧ nodeShift n' = nodeShift n := by
  intro n n' hok hdel
  cases n with
  | leaf1 nc ps =>
      simp only [bfm_delete_leaf_node] at hdel
      split at hdel
      · cases hdel
      · simp only [Option.some_inj] at hdel
        subst hdel
        refine ⟨⟨map_fst_erasePair_nodup _ _ hok.1, ?_⟩, rfl⟩
        have := List.Sublist.length_le (erasePair_sublist chunk ps)
        have := hok.2
        omega
  | leaf4 nc ps =>
      simp only [bfm_delete_leaf_node] at hdel
      split at hdel
      · cases hdel
      · simp only [Option.some_inj] at hdel
        subst hdel
        exact ⟨map_fst_erasePair_nodup _ _ hok, rfl⟩
  | leaf16 nc ps =>
      simp only [bfm_delete_leaf_node] at hdel
      split at hdel
      · cases hdel
      · simp only [Option.some_inj] at hdel
        subst hdel
        exact ⟨map_fst_erasePair_nodup _ _ hok, rfl⟩
  | leaf32 nc ps =>
      simp only [bfm_delete_leaf_node] at hdel
      split at hdel
      · cases hdel
      · simp only [Option.some_inj] at hdel
        subst hdel
        exact ⟨map_fst_erasePair_nodup _ _ hok, rfl⟩
  | leaf128 nc offs vals cnt =>
      simp only [bfm_delete_leaf_node] at hdel
      split at hdel
      · cases hdel
      · simp only [Option.some_inj] at hdel
        subst hdel
        exact ⟨trivial, rfl⟩
  | leafMax nc bset vals cnt =>
      simp only [bfm_delete_leaf_node] at hdel
      split at hdel
      · cases hdel
      · simp only [Option.some_inj] at hdel
        subst hdel
        exact ⟨trivial, rfl⟩
  | inner1 sh nc ps => exact absurd hok (by simp [nodeOk])
  | inner4 sh nc ps => exact absurd hok (by simp [nodeOk])
  | inner16 sh nc ps => exact absurd hok (by simp [nodeOk])
  | inner32 sh nc ps => exact absurd hok (by simp [nodeOk])
  | inner128 sh nc offs slots cnt => exact absurd hok (by simp [nodeOk])
  | innerMax sh nc slots cnt => exact absurd hok (by simp [nodeOk])

theorem mem_erasePair {α : Type} (m : Nat) (ps : List (Nat × α)) (p : Nat × α)
    (hp : p ∈ erasePair ps m) : p ∈ ps :=
  (erasePair_sublist m ps).mem hp

theorem delete_inner_node_nodeOk (d : Nat) (chunk : Nat) : ∀ (n n' : bfmNode),
    nodeOk (d + 1) n → bfm_delete_inner_node n chunk = some n' →
    nodeOk (d + 1) n' ∧ nodeShift n' = nodeShift n := by
  intro n n' hok hdel
  cases n with
  | inner1 sh nc ps =>
      simp only [bfm_delete_inner_node] at hdel
      split at hdel
      · cases hdel
      · simp only [Option.some_inj] at hdel
        subst hdel
        refine ⟨⟨map_fst_erasePair_nodup _ _ hok.1, ?_, ?_⟩, rfl⟩
        · have := List.Sublist.length_le (erasePair_sublist chunk ps)
          have := hok.2.1
          omega
        · intro p hp
          exact hok.2.2 p (mem_erasePair _ _ _ hp)
  | inner4 sh nc ps =>
      simp only [bfm_delete_inner_node] at hdel
      split at hdel
      · cases hdel
      · simp only [Option.some_inj] at hdel
        subst hdel
        refine ⟨⟨map_fst_erasePair_nodup _ _ hok.1, ?_⟩, rfl⟩
        intro p hp
        exact hok.2 p (mem_erasePair _ _ _ hp)
  | inner16 sh nc ps =>
      simp only [bfm_delete_inner_node] at hdel
      split at hdel
      · cases hdel
      · simp only [Option.some_inj] at hdel
        subst hdel
        refine ⟨⟨map_fst_erasePair_nodup _ _ hok.1, ?_⟩, rfl⟩
        intro p hp
        exact hok.2 p (mem_erasePair _ _ _ hp)
  | inner32 sh nc ps =>
      simp only [bfm_delete_inner_node] at hdel
      split at hdel
      · cases hdel
      · simp only [Option.some_inj] at hdel
        subst hdel
        refine ⟨⟨map_fst_erasePair_nodup _ _ hok.1, ?_⟩, rfl⟩
        intro p hp
        exact hok.2 p (mem_erasePair _ _ _ hp)
  | inner128 sh nc offs slots cnt =>
      simp only [bfm_delete_inner_node] at hdel
      split at hdel
      · cases hdel
      · simp only [Option.some_inj] at hdel
        subst hdel
        refine ⟨?_, rfl⟩
        intro o s hs
        cases hoff : offs chunk with
        | some off =>
            rw [hoff] at hs
            simp only at hs
            split at hs
            · cases hs
            · exact hok o s hs
        | none =>
            rw [hoff] at hs
            exact hok o s hs
  | innerMax sh nc slots cnt =>
      simp only [bfm_delete_inner_node] at hdel
      split at hdel
      · cases hdel
      · simp only [Option.some_inj] at hdel
        subst hdel
        refine ⟨?_, rfl⟩
        intro c s hs
        simp only at hs
        split at hs
        · cases hs
        · exact hok c s hs
  | leaf1 nc ps => exact absurd hok (by simp [nodeOk])
  | leaf4 nc ps => exact absurd hok (by simp [nodeOk])
  | leaf16 nc ps => exact absurd hok (by simp [nodeOk])
  | leaf32 nc ps => exact absurd hok (by simp [nodeOk])
  | leaf128 nc offs vals cnt => exact absurd hok (by simp [nodeOk])
  | leafMax nc bset vals cnt => exact absurd hok (by simp [nodeOk])

theorem delete_node_nodeOk (key : Nat) : ∀ (d : Nat) (n : bfmNode), nodeOk d n →
    ∀ n', (bfm_delete_node d n key).2 = some n' →
      nodeOk d n' ∧ nodeShift n' = nodeShift n := by
  intro d
  induction d with
  | zero =>
      intro n hok n' hdel
      simp only [bfm_delete_node] at hdel
      split at hdel
      · simp only [Option.some_inj] at hdel
        subst hdel
        exact ⟨hok, rfl⟩
      · exact delete_leaf_node_nodeOk _ n n' hok hdel
  | succ d ih =>
      intro n hok n' hdel
      simp only [bfm_delete_node] at hdel
      split at hdel
      · simp only [Option.some_inj] at hdel
        subst hdel
        exact ⟨hok, rfl⟩
      · rename_i slot hslot
        split at hdel
        · simp only [Option.some_inj] at hdel
          subst hdel
          exact ⟨hok, rfl⟩
        · rename_i slot' heq
          simp only [Option.some_inj] at hdel
          subst hdel
          have hsok := nodeOk_find_child d n slot _ hok hslot
          have hrec := ih slot hsok slot' (by rw [heq])
          exact ⟨replaceChild_nodeOk d _ n slot' hok hrec.1, nodeShift_replaceChild n _ _⟩
        · exact delete_inner_node_nodeOk d _ n n' hok hdel

/-- `bfm_delete` preserves the tree invariant. -/
theorem bfm_delete_wf (t : bfmTree) (key : Nat) (hwf : treeWf t) :
    treeWf (bfm_delete t key).2 := by
  cases hr : t.rnode with
  | none =>
      have : (bfm_delete t key).2 = t := by
        unfold bfm_delete
        rw [hr]
      rw [this]
      exact hwf
  | some r =>
      obtain ⟨hok, hm8, hns, hmax⟩ := hwf r hr
      unfold bfm_delete
      rw [hr]
      by_cases hgt : t.maxval < key
      · simp only [hgt, if_pos, ite_true]
        exact hwf
      · simp only [hgt, if_false, ite_false]
        cases hdel : bfm_delete_node (nodeShift r / 8) r key with
        | mk found r' =>
            cases found with
            | false => exact hwf
            | true =>
                cases r' with
                | none =>
                    intro r0 hr0
                    cases hr0
                | some n' =>
                    intro r0 hr0
                    simp only [Option.some_inj] at hr0
                    subst hr0
                    have hd := delete_node_nodeOk key _ r hok n' (by rw [hdel])
                    rw [hd.2]
                    exact ⟨hd.1, hm8, hns, hmax⟩

/-- Every reachable tree state satisfies the structural invariant. -/
theorem reachable_treeWf (t : bfmTree) (h : Reachable t) : treeWf t := by
  induction h with
  | init => intro r hr; cases hr
  | set key val _ hk _ ih => exact (bfm_set_wf_self _ key val ih hk).1
  | del key _ _ ih => exact bfm_delete_wf _ key ih

/-- C1: for every reachable tree state, every 64-bit key and value,
`set(tree, k, v)` followed by `lookup(tree, k)` returns `(true, v)` —
the set/lookup pair is a round trip for the key just written (through
the fresh-root, height-extension, descend/extend-downward, leaf
overwrite and every node-growth path). -/
theorem claim_C1_roundtrip (t : bfmTree) (h : Reachable t) (key val : Nat)
    (hk : key < 2 ^ 64) (hv : val < 2 ^ 64) :
    bfm_lookup (bfm_set t key val).2 key = (true, val) :=
  (bfm_set_wf_self t key val (reachable_treeWf t h) hk).2

/-- C1 witness: the round trip at a concrete reachable state (built by
two sets and a delete) and a concrete key/value. -/
theorem claim_C1_roundtrip_witness :
    bfm_lookup (bfm_set (bfm_delete (bfm_set (bfm_set bfm_init 1024 1).2 3 9).2 3).2 77 5).2 77 =
      (true, 5) :=
  claim_C1_roundtrip _
    (Reachable.del 3
      (Reachable.set 3 9 (Reachable.set 1024 1 Reachable.init (by decide) (by decide))
        (by decide) (by decide))
      (by decide))
    77 5 (by decide) (by decide)

/-! ## Delete semantics (C4) -/

/-- The found flag of the delete descent equals that of the walk. -/
theorem delete_node_flag (key : Nat) : ∀ (d : Nat) (n : bfmNode),
    (bfm_delete_node d n key).1 = (bfm_walk_node d n key).isSome := by
  intro d
  induction d with
  | zero =>
      intro n
      simp only [bfm_delete_node, bfm_walk_node]
      cases hfind : bfm_find_one_level_leaf n (keyChunk key 0) <;> simp
  | succ d ih =>
      intro n
      simp only [bfm_delete_node, bfm_walk_node]
      cases hfind : bfm_find_one_level_inner n (keyChunk key (d + 1)) with
      | none => simp
      | some slot =>
          simp only
          cases hdel : bfm_delete_node d slot key with
          | mk fl r' =>
              have hflag : fl = (bfm_walk_node d slot key).isSome := by
                have h0 := ih slot
                rw [hdel] at h0
                exact h0
              rw [← hflag]
              cases fl <;> cases r' <;> rfl

/-- Removing a chunk from a leaf makes that chunk miss. -/
theorem delete_leaf_node_miss (chunk : Nat) : ∀ (n n' : bfmNode), nodeOk 0 n →
    bfm_delete_leaf_node n chunk = some n' →
    bfm_find_one_level_leaf n' chunk = none := by
  intro n n' hok hdel
  cases n with
  | leaf1 nc ps =>
      simp only [bfm_delete_leaf_node] at hdel
      split at hdel
      · cases hdel
      · rename_i hlen
        simp only [Option.some_inj] at hdel
        subst hdel
        cases ps with
        | nil => simp [erasePair] at hlen
        | cons p rest =>
            cases rest with
            | nil =>
                obtain ⟨c, v⟩ := p
                by_cases hc : c = chunk
                · subst hc
                  simp [erasePair] at hlen
                · simp [erasePair, hc, bfm_find_one_level_leaf]
            | cons q rest' =>
                have hlen1 := hok.2
                simp at hlen1
  | leaf4 nc ps =>
      simp only [bfm_delete_leaf_node] at hdel
      split at hdel
      · cases hdel
      · simp only [Option.some_inj] at hdel
        subst hdel
        simp only [bfm_find_one_level_leaf]
        exact findPair_erasePair_self chunk ps hok
  | leaf16 nc ps =>
      simp only [bfm_delete_leaf_node] at hdel
      split at hdel
      · cases hdel
      · simp only [Option.some_inj] at hdel
        subst hdel
        simp only [bfm_find_one_level_leaf]
        exact findPair_erasePair_self chunk ps hok
  | leaf32 nc ps =>
      simp only [bfm_delete_leaf_node] at hdel
      split at hdel
      · cases hdel
      · simp only [Option.some_inj] at hdel
        subst hdel
        simp only [bfm_find_one_level_leaf]
        exact findPair_erasePair_self chunk ps hok
  | leaf128 nc offs vals cnt =>
      simp only [bfm_delete_leaf_node] at hdel
      split at hdel
      · cases hdel
      · simp only [Option.some_inj] at hdel
        subst hdel
        simp [bfm_find_one_level_leaf]
  | leafMax nc bset vals cnt =>
      simp only [bfm_delete_leaf_node] at hdel
      split at hdel
      · cases hdel
      · simp only [Option.some_inj] at hdel
        subst hdel
        simp [bfm_find_one_level_leaf]
  | inner1 sh nc ps => exact absurd hok (by simp [nodeOk])
  | inner4 sh nc ps => exact absurd hok (by simp [nodeOk])
  | inner16 sh nc ps => exact absurd hok (by simp [nodeOk])
  | inner32 sh nc ps => exact absurd hok (by simp [nodeOk])
  | inner128 sh nc offs slots cnt => exact absurd hok (by simp [nodeOk])
  | innerMax sh nc slots cnt => exact absurd hok (by simp [nodeOk])

/-- Removing a chunk from an inner node makes that chunk miss. -/
theorem delete_inner_node_miss (d : Nat) (chunk : Nat) : ∀ (n n' : bfmNode),
    nodeOk (d + 1) n → bfm_delete_inner_node n chunk = some n' →
    bfm_find_one_level_inner n' chunk = none := by
  intro n n' hok hdel
  cases n with
  | inner1 sh nc ps =>
      simp only [bfm_delete_inner_node] at hdel
      split at hdel
      · cases hdel
      · rename_i hlen
        simp only [Option.some_inj] at hdel
        subst hdel
        cases ps with
        | nil => simp [erasePair] at hlen
        | cons p rest =>
            cases rest with
            | nil =>
                obtain ⟨c, s⟩ := p
                by_cases hc : c = chunk
                · subst hc
                  simp [erasePair] at hlen
                · simp [erasePair, hc, bfm_find_one_level_inner]
            | cons q rest' =>
                have hlen1 := hok.2.1
                simp at hlen1
  | inner4 sh nc ps =>
      simp only [bfm_delete_inner_node] at hdel
      split at hdel
      · cases hdel
      · simp only [Option.some_inj] at hdel
        subst hdel
        simp only [bfm_find_one_level_inner]
        exact findPair_erasePair_self chunk ps hok.1
  | inner16 sh nc ps =>
      simp only [bfm_delete_inner_node] at hdel
      split at hdel
      · cases hdel
      · simp only [Option.some_inj] at hdel
        subst hdel
        simp only [bfm_find_one_level_inner]
        exact findPair_erasePair_self chunk ps hok.1
  | inner32 sh nc ps =>
      simp only [bfm_delete_inner_node] at hdel
      split at hdel
      · cases hdel
      · simp only [Option.some_inj] at hdel
        subst hdel
        simp only [bfm_find_one_level_inner]
        exact findPair_erasePair_self chunk ps hok.1
  | inner128 sh nc offs slots cnt =>
      simp only [bfm_delete_inner_node] at hdel
      split at hdel
      · cases hdel
      · simp only [Option.some_inj] at hdel
        subst hdel
        simp [bfm_find_one_level_inner]
  | innerMax sh nc slots cnt =>
      simp only [bfm_delete_inner_node] at hdel
      split at hdel
      · cases hdel
      · simp only [Option.some_inj] at hdel
        subst hdel
        simp [bfm_find_one_level_inner]
  | leaf1 nc ps => exact absurd hok (by simp [nodeOk])
  | leaf4 nc ps => exact absurd hok (by simp [nodeOk])
  | leaf16 nc ps => exact absurd hok (by simp [nodeOk])
  | leaf32 nc ps => exact absurd hok (by simp [nodeOk])
  | leaf128 nc offs vals cnt => exact absurd hok (by simp [nodeOk])
  | leafMax nc bset vals cnt => exact absurd hok (by simp [nodeOk])

/-- After a successful delete that leaves a node behind, the walk for
the deleted key misses in that node. -/
theorem delete_node_walk_miss (key : Nat) : ∀ (d : Nat) (n : bfmNode), nodeOk d n →
    ∀ n', bfm_delete_node d n key = (true, some n') →
      bfm_walk_node d n' key = none := by
  intro d
  induction d with
  | zero =>
      intro n hok n' hdel
      simp only [bfm_delete_node] at hdel
      split at hdel
      · simp at hdel
      · simp only [Prod.mk.injEq, true_and] at hdel
        simp only [bfm_walk_node]
        exact delete_leaf_node_miss _ n n' hok hdel
  | succ d ih =>
      intro n hok n' hdel
      simp only [bfm_delete_node] at hdel
      split at hdel
      · simp at hdel
      · rename_i slot hslot
        split at hdel
        · simp at hdel
        · rename_i slot' heq
          simp only [Prod.mk.injEq, true_and, Option.some_inj] at hdel
          subst hdel
          simp only [bfm_walk_node]
          rw [find_replace_self slot' _ n slot hslot]
          exact ih slot (nodeOk_find_child d n slot _ hok hslot) slot' heq
        · simp only [Prod.mk.injEq, true_and] at hdel
          simp only [bfm_walk_node]
          rw [delete_inner_node_miss d _ n n' hok hdel]

/-- The top-level delete flag equals the lookup flag. -/
theorem bfm_delete_flag (t : bfmTree) (key : Nat) :
    (bfm_delete t key).1 = (bfm_lookup t key).1 := by
  unfold bfm_delete bfm_lookup
  cases hr : t.rnode with
  | none => rfl
  | some r =>
      by_cases hgt : t.maxval < key
      · simp [hgt]
      · simp only [if_neg hgt]
        have hflag := delete_node_flag key (nodeShift r / 8) r
        cases hdel : bfm_delete_node (nodeShift r / 8) r key with
        | mk fl r' =>
            rw [hdel] at hflag
            cases hw : bfm_walk_node (nodeShift r / 8) r key with
            | none =>
                rw [hw] at hflag
                simp only [Option.isSome_none] at hflag
                have hfl : fl = false := hflag
                subst hfl
                rfl
            | some v =>
                rw [hw] at hflag
                simp only [Option.isSome_some] at hflag
                have hfl : fl = true := hflag
                subst hfl
                rfl

/-- A delete that reports "absent" leaves the tree literally unchanged. -/
theorem bfm_delete_absent (t : bfmTree) (key : Nat)
    (h : (bfm_delete t key).1 = false) : (bfm_delete t key).2 = t := by
  unfold bfm_delete at h ⊢
  cases hr : t.rnode with
  | none => rfl
  | some r =>
      rw [hr] at h
      by_cases hgt : t.maxval < key
      · simp [hgt]
      · simp only [if_neg hgt] at h ⊢
        cases hdel : bfm_delete_node (nodeShift r / 8) r key with
        | mk fl r' =>
            rw [hdel] at h
            cases fl with
            | false => rfl
            | true => simp at h

/-- After a delete that reports "present", the deleted key misses. -/
theorem bfm_delete_hit_lookup (t : bfmTree) (key : Nat) (hwf : treeWf t)
    (h : (bfm_delete t key).1 = true) :
    (bfm_lookup (bfm_delete t key).2 key).1 = false := by
  unfold bfm_delete at h ⊢
  cases hr : t.rnode with
  | none =>
      rw [hr] at h
      simp at h
  | some r =>
      obtain ⟨hok, _, _, _⟩ := hwf r hr
      rw [hr] at h
      by_cases hgt : t.maxval < key
      · simp [hgt] at h
      · simp only [if_neg hgt] at h ⊢
        cases hdel : bfm_delete_node (nodeShift r / 8) r key with
        | mk fl r' =>
            rw [hdel] at h
            cases fl with
            | false => simp at h
            | true =>
                cases r' with
                | none => rfl
                | some n' =>
                    have hmiss := delete_node_walk_miss key (nodeShift r / 8) r hok n'
                      (by rw [hdel])
                    have hsh := (delete_node_nodeOk key (nodeShift r / 8) r hok n'
                      (by rw [hdel])).2
                    show (bfm_lookup ⟨some n', t.maxval⟩ key).1 = false
                    unfold bfm_lookup
                    simp only
                    rw [if_neg hgt, hsh, hmiss]

/-- A chunk below level `m` only depends on the key modulo `2^(8*m)`. -/
theorem keyChunk_mod (key j m : Nat) (hj : j < m) :
    keyChunk (key % 2 ^ (8 * m)) j = keyChunk key j := by
  unfold keyChunk
  have hm : 8 * m = 8 * j + 8 * (m - j) := by omega
  rw [hm, pow_add, Nat.mod_mul_right_div_self]
  have hdvd : (256 : Nat) ∣ 2 ^ (8 * (m - j)) := by
    have h1 : (256 : Nat) = 2 ^ 8 := by norm_num
    rw [h1]
    exact pow_dvd_pow 2 (by omega)
  rw [Nat.mod_mod_of_dvd _ hdvd]

/-- The walk only reads the chunks at its levels: it depends on the key
only modulo `2^(shift + 8)`. -/
theorem walk_mod : ∀ (d : Nat) (n : bfmNode) (key : Nat),
    bfm_walk_node d n (key % 2 ^ (8 * (d + 1))) = bfm_walk_node d n key := by
  intro d
  induction d with
  | zero =>
      intro n key
      simp only [bfm_walk_node]
      rw [keyChunk_mod key 0 (0 + 1) (by omega)]
  | succ d ih =>
      intro n key
      simp only [bfm_walk_node]
      rw [keyChunk_mod key (d + 1) (d + 1 + 1) (by omega)]
      cases hfind : bfm_find_one_level_inner n (keyChunk key (d + 1)) with
      | none => rfl
      | some slot =>
          simp only
          have h1 := ih slot (key % 2 ^ (8 * (d + 1 + 1)))
          rw [← h1, Nat.mod_mod_of_dvd key (pow_dvd_pow 2 (by omega))]
          exact ih slot key

/-- C8: the tree invariant holds in every reachable state: with no
root the tree stores nothing and every lookup misses; with a root
present, any key the walk can reach is reached through its canonical
64-bit representative (the key modulo `2^(root shift + 8)`), which is
at most `max_val` and which `lookup` finds with the stored value —
every key stored in the tree is bounded by `max_val`. -/
theorem claim_C8_maxval_invariant (t : bfmTree) (h : Reachable t) :
    (t.rnode = none → totalEntries t = 0 ∧ ∀ key, bfm_lookup t key = (false, 0)) ∧
    (∀ r, t.rnode = some r → ∀ key v,
      bfm_walk_node (nodeShift r / 8) r key = some v →
        key % 2 ^ (nodeShift r + 8) ≤ t.maxval ∧
        bfm_lookup t (key % 2 ^ (nodeShift r + 8)) = (true, v)) := by
  have hwf := reachable_treeWf t h
  constructor
  · intro hn
    constructor
    · unfold totalEntries
      rw [hn]
    · intro key
      unfold bfm_lookup
      rw [hn]
  · intro r hr key v hv
    obtain ⟨hok, hm8, hns, hmax⟩ := hwf r hr
    have hpos : 0 < 2 ^ (nodeShift r + 8) := Nat.pos_pow_of_pos _ (by omega)
    have hcan : key % 2 ^ (nodeShift r + 8) ≤ t.maxval := by
      rw [hmax]
      exact le_maxval_shift _ _ hns (Nat.mod_lt _ hpos)
    refine ⟨hcan, ?_⟩
    have hexp : 2 ^ (nodeShift r + 8) = 2 ^ (8 * (nodeShift r / 8 + 1)) := by
      congr 1
      omega
    have hwalk : bfm_walk_node (nodeShift r / 8) r (key % 2 ^ (nodeShift r + 8)) = some v := by
      rw [hexp, walk_mod, hv]
    unfold bfm_lookup
    simp only [hr]
    rw [if_neg (by omega : ¬t.maxval < key % 2 ^ (nodeShift r + 8))]
    rw [hwalk]

/-- C8 witness: in the one-entry reachable tree `{5 ↦ 9}` (root shift
0), the non-canonical key 261 walk-hits; its canonical representative
261 mod 256 = 5 is below `max_val` and `lookup` finds it. -/
theorem claim_C8_maxval_invariant_witness :
    261 % 2 ^ (nodeShift (bfmNode.leaf1 0 [(5, 9)]) + 8) ≤ (bfm_set bfm_init 5 9).2.maxval ∧
    bfm_lookup (bfm_set bfm_init 5 9).2
      (261 % 2 ^ (nodeShift (bfmNode.leaf1 0 [(5, 9)]) + 8)) = (true, 9) :=
  (claim_C8_maxval_invariant (bfm_set bfm_init 5 9).2
      (Reachable.set 5 9 Reachable.init (by decide) (by decide))).2
    (bfmNode.leaf1 0 [(5, 9)]) rfl 261 9 (by decide)

/-- C4: `delete` reports "was present" exactly when `lookup` finds the
key; an absent key makes `delete` return `false` with the tree literally
unchanged (hence the same entries and the same lookup result for every
key); after deleting a present key, `lookup` of that key misses and an
immediately repeated `delete` returns `false`. -/
theorem claim_C4_delete_semantics (t : bfmTree) (h : Reachable t) (key : Nat) :
    (bfm_delete t key).1 = (bfm_lookup t key).1 ∧
    ((bfm_lookup t key).1 = false → (bfm_delete t key).2 = t) ∧
    ((bfm_lookup t key).1 = true →
      (bfm_lookup (bfm_delete t key).2 key).1 = false ∧
      (bfm_delete (bfm_delete t key).2 key).1 = false) := by
  have hwf := reachable_treeWf t h
  have hflag := bfm_delete_flag t key
  refine ⟨hflag, ?_, ?_⟩
  · intro hm
    exact bfm_delete_absent t key (by rw [hflag, hm])
  · intro hp
    have hd : (bfm_delete t key).1 = true := by rw [hflag, hp]
    refine ⟨bfm_delete_hit_lookup t key hwf hd, ?_⟩
    rw [bfm_delete_flag]
    exact bfm_delete_hit_lookup t key hwf hd

/-- C4 witness: the delete semantics at a concrete reachable two-entry
tree and a key that is present. -/
theorem claim_C4_delete_semantics_witness :
    ((bfm_delete (bfm_set (bfm_set bfm_init 7 3).2 300 4).2 7).1 =
        (bfm_lookup (bfm_set (bfm_set bfm_init 7 3).2 300 4).2 7).1) ∧
    ((bfm_lookup (bfm_set (bfm_set bfm_init 7 3).2 300 4).2 7).1 = false →
      (bfm_delete (bfm_set (bfm_set bfm_init 7 3).2 300 4).2 7).2 =
        (bfm_set (bfm_set bfm_init 7 3).2 300 4).2) ∧
    ((bfm_lookup (bfm_set (bfm_set bfm_init 7 3).2 300 4).2 7).1 = true →
      (bfm_lookup (bfm_delete (bfm_set (bfm_set bfm_init 7 3).2 300 4).2 7).2 7).1 = false ∧
      (bfm_delete (bfm_delete (bfm_set (bfm_set bfm_init 7 3).2 300 4).2 7).2 7).1 = false) :=
  claim_C4_delete_semantics _
    (Reachable.set 300 4 (Reachable.set 7 3 Reachable.init (by decide) (by decide))
      (by decide) (by decide)) 7

/-! ## Shrink-to-empty (claim C7): helper lemmas

Arithmetic on chunk decomposition, association-list insertion, and
counting of live table cells. -/

theorem mod_succ_decomp (x m : Nat) :
    x % 2 ^ (8 * (m + 1)) = x % 2 ^ (8 * m) + 2 ^ (8 * m) * keyChunk x m := by
  have h : 8 * (m + 1) = 8 * m + 8 := by ring
  rw [h, pow_add, Nat.mod_mul]
  unfold keyChunk
  norm_num

theorem mod_succ_eq_iff (key key' m : Nat) :
    key' % 2 ^ (8 * (m + 1)) = key % 2 ^ (8 * (m + 1)) ↔
      (keyChunk key' m = keyChunk key m ∧ key' % 2 ^ (8 * m) = key % 2 ^ (8 * m)) := by
  have hd1 := mod_succ_decomp key m
  have hd2 := mod_succ_decomp key' m
  have hpos : 0 < 2 ^ (8 * m) := Nat.pos_pow_of_pos _ (by omega)
  constructor
  · intro h
    rw [hd1, hd2] at h
    have hb1 : key % 2 ^ (8 * m) < 2 ^ (8 * m) := Nat.mod_lt _ hpos
    have hb2 : key' % 2 ^ (8 * m) < 2 ^ (8 * m) := Nat.mod_lt _ hpos
    have hA : key' % 2 ^ (8 * m) = key % 2 ^ (8 * m) := by
      have hcongr := congrArg (· % 2 ^ (8 * m)) h
      simp only [Nat.add_mul_mod_self_left] at hcongr
      rwa [Nat.mod_eq_of_lt hb2, Nat.mod_eq_of_lt hb1] at hcongr
    have hBC : 2 ^ (8 * m) * keyChunk key' m = 2 ^ (8 * m) * keyChunk key m := by omega
    exact ⟨Nat.eq_of_mul_eq_mul_left hpos hBC, hA⟩
  · intro h
    rw [hd1, hd2, h.1, h.2]

theorem mod_mul_eq_zero_iff (y B M : Nat) (hB : 0 < B) :
    y % (B * M) = 0 ↔ y % B = 0 ∧ y / B % M = 0 := by
  rw [Nat.mod_mul]
  constructor
  · intro h
    have h2 : y % B = 0 ∧ B * (y / B % M) = 0 := by omega
    rcases Nat.mul_eq_zero.1 h2.2 with hB0 | hz
    · omega
    · exact ⟨h2.1, hz⟩
  · intro h
    rw [h.1, h.2]
    simp

theorem findPair_insPairLe_self {α : Type} (ps : List (Nat × α)) (m : Nat) (a : α)
    (hm : m ∉ ps.map Prod.fst) : findPair (insPairLe ps m a) m = some a :=
  findPair_insAt_self m a ps _ hm

theorem findPair_insPairLe_other {α : Type} (ps : List (Nat × α)) (m c : Nat) (a : α)
    (hne : c ≠ m) : findPair (insPairLe ps m a) c = findPair ps c :=
  findPair_insAt_other m c a hne ps _

theorem length_insPairLe {α : Type} (ps : List (Nat × α)) (m : Nat) (a : α) :
    (insPairLe ps m a).length = ps.length + 1 :=
  length_insAt (m, a) ps _

theorem perm_insAt {α : Type} (a : α) : ∀ (l : List α) (k : Nat),
    (insAt k a l).Perm (a :: l) := by
  intro l
  induction l with
  | nil => intro k; cases k <;> simp [insAt]
  | cons x l ih =>
      intro k
      cases k with
      | zero => simp [insAt]
      | succ k =>
          simp only [insAt]
          exact ((ih k).cons x).trans (List.Perm.swap a x l)

theorem one_le_sum_map {α : Type} (f : α → Nat) (ps : List α) (p : α) (hp : p ∈ ps)
    (h1 : 1 ≤ f p) : 1 ≤ (ps.map f).sum :=
  le_trans h1 (List.single_le_sum (fun x _ => Nat.zero_le x) _ (List.mem_map_of_mem f hp))

theorem one_le_sum_range (g : Nat → Nat) (N o : Nat) (ho : o < N) (h1 : 1 ≤ g o) :
    1 ≤ ((List.range N).map g).sum :=
  le_trans h1 (List.single_le_sum (fun x _ => Nat.zero_le x) _
    (List.mem_map_of_mem g (List.mem_range.2 ho)))

theorem length_filter_update_true (p : Nat → Bool) (k : Nat) : ∀ N, k < N → p k = false →
    ((List.range N).filter (fun c => if c = k then true else p c)).length =
      ((List.range N).filter p).length + 1 := by
  intro N
  induction N with
  | zero => intro h _; omega
  | succ N ih =>
      intro hk hpk
      rw [List.range_succ, List.filter_append, List.filter_append,
        List.length_append, List.length_append]
      by_cases hkN : k = N
      · subst hkN
        have hcong : (List.range k).filter (fun c => if c = k then true else p c) =
            (List.range k).filter p := by
          apply List.filter_congr
          intro c hc
          have : c < k := List.mem_range.1 hc
          simp [show c ≠ k by omega]
        rw [hcong]
        simp [List.filter_cons, hpk]
      · have hk' : k < N := by omega
        rw [ih hk' hpk]
        have h1 : (List.filter (fun c => if c = k then true else p c) [N]).length =
            (List.filter p [N]).length := by
          by_cases hpN : p N <;>
            simp [List.filter_cons, hpN, show N ≠ k from fun h => hkN h.symm]
        omega

theorem length_filter_update_false (p : Nat → Bool) (k : Nat) : ∀ N, k < N → p k = true →
    ((List.range N).filter p).length =
      ((List.range N).filter (fun c => if c = k then false else p c)).length + 1 := by
  intro N
  induction N with
  | zero => intro h _; omega
  | succ N ih =>
      intro hk hpk
      rw [List.range_succ, List.filter_append, List.filter_append,
        List.length_append, List.length_append]
      by_cases hkN : k = N
      · subst hkN
        have hcong : (List.range k).filter (fun c => if c = k then false else p c) =
            (List.range k).filter p := by
          apply List.filter_congr
          intro c hc
          have : c < k := List.mem_range.1 hc
          simp [show c ≠ k by omega]
        rw [hcong]
        simp [List.filter_cons, hpk]
      · have hk' : k < N := by omega
        rw [ih hk' hpk]
        have h1 : (List.filter (fun c => if c = k then false else p c) [N]).length =
            (List.filter p [N]).length := by
          by_cases hpN : p N <;>
            simp [List.filter_cons, hpN, show N ≠ k from fun h => hkN h.symm]
        omega

theorem length_filter_mem_eq (p : Nat → Bool) (l : List Nat) (N : Nat) (hnd : l.Nodup)
    (hb : ∀ c ∈ l, c < N) (hp : ∀ c, p c = true ↔ c ∈ l) :
    ((List.range N).filter p).length = l.length := by
  apply List.Perm.length_eq
  rw [List.perm_ext_iff_of_nodup (List.Nodup.filter _ (List.nodup_range N)) hnd]
  intro a
  rw [List.mem_filter, List.mem_range, hp]
  exact ⟨fun h => h.2, fun h => ⟨hb a h, h⟩⟩

theorem exists_true_of_filter_pos (p : Nat → Bool) (N : Nat)
    (h : 1 ≤ ((List.range N).filter p).length) : ∃ c, c < N ∧ p c = true := by
  cases hf : (List.range N).filter p with
  | nil => rw [hf] at h; simp at h
  | cons a l =>
      have ha : a ∈ (List.range N).filter p := by
        rw [hf]
        exact List.mem_cons_self a l
      rw [List.mem_filter, List.mem_range] at ha
      exact ⟨a, ha.1, ha.2⟩

theorem one_le_filter_of_true (p : Nat → Bool) (N c : Nat) (hc : c < N) (hp : p c = true) :
    1 ≤ ((List.range N).filter p).length := by
  have hm : c ∈ (List.range N).filter p := List.mem_filter.2 ⟨List.mem_range.2 hc, hp⟩
  exact List.length_pos.2 (List.ne_nil_of_mem hm)

theorem filter_length_one_unique (p : Nat → Bool) (N c1 c2 : Nat)
    (h : ((List.range N).filter p).length = 1) (h1 : c1 < N) (hp1 : p c1 = true)
    (h2 : c2 < N) (hp2 : p c2 = true) : c1 = c2 := by
  have m1 : c1 ∈ (List.range N).filter p := List.mem_filter.2 ⟨List.mem_range.2 h1, hp1⟩
  have m2 : c2 ∈ (List.range N).filter p := List.mem_filter.2 ⟨List.mem_range.2 h2, hp2⟩
  cases hf : (List.range N).filter p with
  | nil => rw [hf] at m1; cases m1
  | cons a l =>
      rw [hf] at h m1 m2
      simp only [List.length_cons] at h
      have hl : l = [] := List.length_eq_zero.1 (by omega)
      subst hl
      simp only [List.mem_singleton] at m1 m2
      rw [m1, m2]

theorem nodeClean_nodeOk (pk : Bool) : ∀ (d : Nat) (n : bfmNode),
    nodeClean pk d n → nodeOk d n := by
  intro d
  induction d with
  | zero =>
      intro n h
      cases n with
      | leaf1 nc ps => exact ⟨h.1, h.2.1⟩
      | leaf4 nc ps => exact h.1
      | leaf16 nc ps => exact h.1
      | leaf32 nc ps => exact h.1
      | leaf128 nc offs vals cnt => trivial
      | leafMax nc bset vals cnt => trivial
      | inner1 sh nc ps => exact absurd h (by simp [nodeClean])
      | inner4 sh nc ps => exact absurd h (by simp [nodeClean])
      | inner16 sh nc ps => exact absurd h (by simp [nodeClean])
      | inner32 sh nc ps => exact absurd h (by simp [nodeClean])
      | inner128 sh nc offs slots cnt => exact absurd h (by simp [nodeClean])
      | innerMax sh nc slots cnt => exact absurd h (by simp [nodeClean])
  | succ d ih =>
      intro n h
      cases n with
      | inner1 sh nc ps =>
          exact ⟨h.1, h.2.1, fun p hp => ih p.2 (h.2.2 p hp).2.1⟩
      | inner4 sh nc ps =>
          exact ⟨h.1, fun p hp => ih p.2 (h.2.2 p hp).2.1⟩
      | inner16 sh nc ps =>
          exact ⟨h.1, fun p hp => ih p.2 (h.2.2 p hp).2.1⟩
      | inner32 sh nc ps =>
          exact ⟨h.1, fun p hp => ih p.2 (h.2.2 p hp).2.1⟩
      | inner128 sh nc offs slots cnt =>
          obtain ⟨h1, h2, h3, h4, h5, h6, h7, h8⟩ := h
          exact fun o s hs => ih s (h8 o s hs).1
      | innerMax sh nc slots cnt =>
          obtain ⟨h1, h2, h3⟩ := h
          exact fun c s hs => ih s (h3 c s hs).1
      | leaf1 nc ps => exact absurd h (by simp [nodeClean])
      | leaf4 nc ps => exact absurd h (by simp [nodeClean])
      | leaf16 nc ps => exact absurd h (by simp [nodeClean])
      | leaf32 nc ps => exact absurd h (by simp [nodeClean])
      | leaf128 nc offs vals cnt => exact absurd h (by simp [nodeClean])
      | leafMax nc bset vals cnt => exact absurd h (by simp [nodeClean])

theorem nodeClean_weaken : ∀ (d : Nat) (n : bfmNode),
    nodeClean true d n → nodeClean false d n := by
  intro d
  induction d with
  | zero =>
      intro n h
      cases n with
      | leaf1 nc ps => exact h
      | leaf4 nc ps => exact h
      | leaf16 nc ps => exact h
      | leaf32 nc ps => exact h
      | leaf128 nc offs vals cnt =>
          obtain ⟨h1, h2, h3, h4, h5⟩ := h
          exact ⟨h1, h2, h3, h4, fun hcon => absurd hcon (by simp)⟩
      | leafMax nc bset vals cnt => exact h
      | inner1 sh nc ps => exact absurd h (by simp [nodeClean])
      | inner4 sh nc ps => exact absurd h (by simp [nodeClean])
      | inner16 sh nc ps => exact absurd h (by simp [nodeClean])
      | inner32 sh nc ps => exact absurd h (by simp [nodeClean])
      | inner128 sh nc offs slots cnt => exact absurd h (by simp [nodeClean])
      | innerMax sh nc slots cnt => exact absurd h (by simp [nodeClean])
  | succ d ih =>
      intro n h
      cases n with
      | inner1 sh nc ps =>
          exact ⟨h.1, h.2.1, fun p hp =>
            ⟨(h.2.2 p hp).1, ih p.2 (h.2.2 p hp).2.1, (h.2.2 p hp).2.2⟩⟩
      | inner4 sh nc ps =>
          exact ⟨h.1, h.2.1, fun p hp =>
            ⟨(h.2.2 p hp).1, ih p.2 (h.2.2 p hp).2.1, (h.2.2 p hp).2.2⟩⟩
      | inner16 sh nc ps =>
          exact ⟨h.1, h.2.1, fun p hp =>
            ⟨(h.2.2 p hp).1, ih p.2 (h.2.2 p hp).2.1, (h.2.2 p hp).2.2⟩⟩
      | inner32 sh nc ps =>
          exact ⟨h.1, h.2.1, fun p hp =>
            ⟨(h.2.2 p hp).1, ih p.2 (h.2.2 p hp).2.1, (h.2.2 p hp).2.2⟩⟩
      | inner128 sh nc offs slots cnt =>
          obtain ⟨h1, h2, h3, h4, h5, h6, h7, h8⟩ := h
          exact ⟨h1, h2, h3, h4, fun hcon => absurd hcon (by simp), h6, h7,
            fun o s hs => ⟨ih s (h8 o s hs).1, (h8 o s hs).2⟩⟩
      | innerMax sh nc slots cnt =>
          obtain ⟨h1, h2, h3⟩ := h
          exact ⟨h1, h2, fun c s hs => ⟨ih s (h3 c s hs).1, (h3 c s hs).2⟩⟩
      | leaf1 nc ps => exact absurd h (by simp [nodeClean])
      | leaf4 nc ps => exact absurd h (by simp [nodeClean])
      | leaf16 nc ps => exact absurd h (by simp [nodeClean])
      | leaf32 nc ps => exact absurd h (by simp [nodeClean])
      | leaf128 nc offs vals cnt => exact absurd h (by simp [nodeClean])
      | leafMax nc bset vals cnt => exact absurd h (by simp [nodeClean])

theorem leafEntries_setNodeChunk (n : bfmNode) (c : Nat) :
    leafEntries (setNodeChunk n c) = leafEntries n := by
  cases n <;> rfl

theorem innerEntriesWith_setNodeChunk (f : bfmNode → Nat) (n : bfmNode) (c : Nat) :
    innerEntriesWith f (setNodeChunk n c) = innerEntriesWith f n := by
  cases n <;> rfl

theorem nodeEntries_setNodeChunk (d : Nat) (n : bfmNode) (c : Nat) :
    nodeEntries d (setNodeChunk n c) = nodeEntries d n := by
  cases d with
  | zero => exact leafEntries_setNodeChunk n c
  | succ d => exact innerEntriesWith_setNodeChunk _ n c

theorem nodeClean_setNodeChunk (pk : Bool) (c : Nat) (d : Nat) (n : bfmNode) :
    nodeClean pk d (setNodeChunk n c) ↔ nodeClean pk d n := by
  cases d <;> cases n <;> exact Iff.rfl

theorem chain_entries (key val : Nat) : ∀ d : Nat,
    nodeEntries d (bfm_chain key val d) = 1 := by
  intro d
  induction d with
  | zero => rfl
  | succ d ih =>
      show innerEntriesWith (nodeEntries d) (bfm_chain key val (d + 1)) = 1
      simp only [bfm_chain, innerEntriesWith, List.map_cons, List.map_nil, List.sum_cons,
        List.sum_nil]
      rw [nodeEntries_setNodeChunk, ih]
      omega

theorem chain_clean (pk : Bool) (key val : Nat) : ∀ d : Nat,
    nodeClean pk d (bfm_chain key val d) := by
  intro d
  induction d with
  | zero =>
      refine ⟨by simp, by simp, ?_⟩
      intro p hp
      simp at hp
      subst hp
      exact keyChunk_lt key 0
  | succ d ih =>
      refine ⟨by simp, by simp, ?_⟩
      intro p hp
      simp at hp
      subst hp
      refine ⟨keyChunk_lt key (d + 1), ?_, ?_⟩
      · exact (nodeClean_setNodeChunk pk _ d _).2 ih
      · rw [nodeEntries_setNodeChunk, chain_entries]

/-- The walk on a `bfm_set_extend` chain hits exactly the keys that
agree with the stored key on all of its chunks. -/
theorem walk_chain_eq (key val : Nat) : ∀ (d : Nat) (key' : Nat),
    bfm_walk_node d (bfm_chain key val d) key' =
      if key' % 2 ^ (8 * (d + 1)) = key % 2 ^ (8 * (d + 1)) then some val else none := by
  intro d
  induction d with
  | zero =>
      intro key'
      have h0 : ∀ x : Nat, keyChunk x 0 = x % 2 ^ (8 * (0 + 1)) := by
        intro x
        unfold keyChunk
        norm_num
      simp only [bfm_chain, bfm_walk_node, bfm_find_one_level_leaf]
      by_cases h : keyChunk key 0 = keyChunk key' 0
      · have hc : key' % 2 ^ (8 * (0 + 1)) = key % 2 ^ (8 * (0 + 1)) := by
          rw [← h0 key', ← h0 key]
          exact h.symm
        rw [if_pos h, if_pos hc]
      · have hc : ¬ key' % 2 ^ (8 * (0 + 1)) = key % 2 ^ (8 * (0 + 1)) := by
          rw [← h0 key', ← h0 key]
          exact fun hx => h hx.symm
        rw [if_neg h, if_neg hc]
  | succ d ih =>
      intro key'
      by_cases h : keyChunk key (d + 1) = keyChunk key' (d + 1)
      · have hfind : bfm_find_one_level_inner (bfm_chain key val (d + 1))
            (keyChunk key' (d + 1)) =
            some (setNodeChunk (bfm_chain key val d) (keyChunk key (d + 1))) := by
          simp only [bfm_chain, bfm_find_one_level_inner]
          rw [if_pos h]
        simp only [bfm_walk_node]
        rw [hfind]
        simp only
        rw [walk_setNodeChunk, ih key']
        by_cases hm : key' % 2 ^ (8 * (d + 1)) = key % 2 ^ (8 * (d + 1))
        · rw [if_pos hm, if_pos ((mod_succ_eq_iff key key' (d + 1)).2 ⟨h.symm, hm⟩)]
        · rw [if_neg hm, if_neg (fun hc => hm ((mod_succ_eq_iff key key' (d + 1)).1 hc).2)]
      · have hfind : bfm_find_one_level_inner (bfm_chain key val (d + 1))
            (keyChunk key' (d + 1)) = none := by
          simp only [bfm_chain, bfm_find_one_level_inner]
          rw [if_neg h]
        simp only [bfm_walk_node]
        rw [hfind]
        rw [if_neg (fun hc => h ((mod_succ_eq_iff key key' (d + 1)).1 hc).1.symm)]

/-- The child found under a chunk of a clean inner node is clean and
holds at least one entry. -/
theorem nodeClean_find_child (pk : Bool) (d : Nat) : ∀ (n s : bfmNode) (c : Nat),
    nodeClean pk (d + 1) n → bfm_find_one_level_inner n c = some s →
    nodeClean pk d s ∧ 1 ≤ nodeEntries d s := by
  intro n s c hc hf
  cases n with
  | inner1 sh nc ps =>
      cases ps with
      | nil => simp [bfm_find_one_level_inner] at hf
      | cons p rest =>
          obtain ⟨c0, s0⟩ := p
          simp only [bfm_find_one_level_inner] at hf
          split at hf
          · simp only [Option.some_inj] at hf
            subst hf
            have := hc.2.2 (c0, s0) (List.mem_cons_self _ _)
            exact ⟨this.2.1, this.2.2⟩
          · cases hf
  | inner4 sh nc ps =>
      obtain ⟨p, hp, hps⟩ := findPair_some_mem c ps s hf
      have hmem := hc.2.2 p hp
      exact hps ▸ ⟨hmem.2.1, hmem.2.2⟩
  | inner16 sh nc ps =>
      obtain ⟨p, hp, hps⟩ := findPair_some_mem c ps s hf
      have hmem := hc.2.2 p hp
      exact hps ▸ ⟨hmem.2.1, hmem.2.2⟩
  | inner32 sh nc ps =>
      obtain ⟨p, hp, hps⟩ := findPair_some_mem c ps s hf
      have hmem := hc.2.2 p hp
      exact hps ▸ ⟨hmem.2.1, hmem.2.2⟩
  | inner128 sh nc offs slots cnt =>
      obtain ⟨h1, h2, h3, h4, h5, h6, h7, h8⟩ := hc
      simp only [bfm_find_one_level_inner] at hf
      cases hoff : offs c with
      | none => rw [hoff] at hf; cases hf
      | some off =>
          rw [hoff] at hf
          exact h8 off s hf
  | innerMax sh nc slots cnt =>
      obtain ⟨h1, h2, h3⟩ := hc
      exact h3 c s hf
  | leaf1 nc ps => exact absurd hc (by simp [nodeClean])
  | leaf4 nc ps => exact absurd hc (by simp [nodeClean])
  | leaf16 nc ps => exact absurd hc (by simp [nodeClean])
  | leaf32 nc ps => exact absurd hc (by simp [nodeClean])
  | leaf128 nc offs vals cnt => exact absurd hc (by simp [nodeClean])
  | leafMax nc bset vals cnt => exact absurd hc (by simp [nodeClean])

/-- A child reachable by the per-level search contributes its whole
entry count to the node. -/
theorem entries_ge_of_find (pk : Bool) (d : Nat) : ∀ (n s : bfmNode) (c : Nat),
    nodeClean pk (d + 1) n → bfm_find_one_level_inner n c = some s →
    nodeEntries d s ≤ nodeEntries (d + 1) n := by
  intro n s c hc hf
  cases n with
  | inner1 sh nc ps =>
      cases ps with
      | nil => simp [bfm_find_one_level_inner] at hf
      | cons p rest =>
          obtain ⟨c0, s0⟩ := p
          simp only [bfm_find_one_level_inner] at hf
          split at hf
          · simp only [Option.some_inj] at hf
            subst hf
            exact List.single_le_sum (fun x _ => Nat.zero_le x) _
              (List.mem_map_of_mem _ (List.mem_cons_self _ _))
          · cases hf
  | inner4 sh nc ps =>
      obtain ⟨p, hp, hps⟩ := findPair_some_mem c ps s hf
      rw [← hps]
      exact List.single_le_sum (fun x _ => Nat.zero_le x) _
        (List.mem_map_of_mem _ hp)
  | inner16 sh nc ps =>
      obtain ⟨p, hp, hps⟩ := findPair_some_mem c ps s hf
      rw [← hps]
      exact List.single_le_sum (fun x _ => Nat.zero_le x) _
        (List.mem_map_of_mem _ hp)
  | inner32 sh nc ps =>
      obtain ⟨p, hp, hps⟩ := findPair_some_mem c ps s hf
      rw [← hps]
      exact List.single_le_sum (fun x _ => Nat.zero_le x) _
        (List.mem_map_of_mem _ hp)
  | inner128 sh nc offs slots cnt =>
      obtain ⟨h1, h2, h3, h4, h5, h6, h7, h8⟩ := hc
      simp only [bfm_find_one_level_inner] at hf
      cases hoff : offs c with
      | none => rw [hoff] at hf; cases hf
      | some off =>
          rw [hoff] at hf
          have hlt : off < 128 := (h7 c off hoff).1
          have hf' : slots off = some s := hf
          have hle := List.single_le_sum (fun x _ => Nat.zero_le x)
            ((fun o => match slots o with | some s => nodeEntries d s | none => 0) off)
            (List.mem_map_of_mem _ (List.mem_range.2 hlt))
          simp only [hf'] at hle
          exact hle
  | innerMax sh nc slots cnt =>
      obtain ⟨h1, h2, h3⟩ := hc
      have hf' : slots c = some s := hf
      have hclt : c < 256 := by
        by_contra hge
        push_neg at hge
        rw [h2 c hge] at hf'
        cases hf'
      have hle := List.single_le_sum (fun x _ => Nat.zero_le x)
        ((fun c => match slots c with | some s => nodeEntries d s | none => 0) c)
        (List.mem_map_of_mem _ (List.mem_range.2 hclt))
      simp only [hf'] at hle
      exact hle
  | leaf1 nc ps => exact absurd hc (by simp [nodeClean])
  | leaf4 nc ps => exact absurd hc (by simp [nodeClean])
  | leaf16 nc ps => exact absurd hc (by simp [nodeClean])
  | leaf32 nc ps => exact absurd hc (by simp [nodeClean])
  | leaf128 nc offs vals cnt => exact absurd hc (by simp [nodeClean])
  | leafMax nc bset vals cnt => exact absurd hc (by simp [nodeClean])

/-- A walk hit implies the subtree holds at least one entry. -/
theorem walk_hit_entries (pk : Bool) (key : Nat) : ∀ (d : Nat) (n : bfmNode),
    nodeClean pk d n → (bfm_walk_node d n key).isSome → 1 ≤ nodeEntries d n := by
  intro d
  induction d with
  | zero =>
      intro n hc hw
      cases n with
      | leaf1 nc ps =>
          cases ps with
          | nil => simp [bfm_walk_node, bfm_find_one_level_leaf] at hw
          | cons p rest => simp [nodeEntries, leafEntries]
      | leaf4 nc ps =>
          cases ps with
          | nil => simp [bfm_walk_node, bfm_find_one_level_leaf, findPair] at hw
          | cons p rest => simp [nodeEntries, leafEntries]
      | leaf16 nc ps =>
          cases ps with
          | nil => simp [bfm_walk_node, bfm_find_one_level_leaf, findPair] at hw
          | cons p rest => simp [nodeEntries, leafEntries]
      | leaf32 nc ps =>
          cases ps with
          | nil => simp [bfm_walk_node, bfm_find_one_level_leaf, findPair] at hw
          | cons p rest => simp [nodeEntries, leafEntries]
      | leaf128 nc offs vals cnt =>
          simp only [bfm_walk_node, bfm_find_one_level_leaf] at hw
          cases hoff : offs (keyChunk key 0) with
          | none => rw [hoff] at hw; simp at hw
          | some off =>
              exact one_le_filter_of_true _ 256 (keyChunk key 0) (keyChunk_lt key 0)
                (by rw [hoff]; rfl)
      | leafMax nc bset vals cnt =>
          simp only [bfm_walk_node, bfm_find_one_level_leaf] at hw
          by_cases hb : bset (keyChunk key 0) = true
          · exact one_le_filter_of_true _ 256 (keyChunk key 0) (keyChunk_lt key 0) hb
          · simp [hb] at hw
      | inner1 sh nc ps => exact absurd hc (by simp [nodeClean])
      | inner4 sh nc ps => exact absurd hc (by simp [nodeClean])
      | inner16 sh nc ps => exact absurd hc (by simp [nodeClean])
      | inner32 sh nc ps => exact absurd hc (by simp [nodeClean])
      | inner128 sh nc offs slots cnt => exact absurd hc (by simp [nodeClean])
      | innerMax sh nc slots cnt => exact absurd hc (by simp [nodeClean])
  | succ d ih =>
      intro n hc hw
      simp only [bfm_walk_node] at hw
      cases hf : bfm_find_one_level_inner n (keyChunk key (d + 1)) with
      | none => rw [hf] at hw; simp at hw
      | some slot =>
          rw [hf] at hw
          simp only at hw
          have hclean := nodeClean_find_child pk d n slot _ hc hf
          calc 1 ≤ nodeEntries d slot := ih slot hclean.1 hw
            _ ≤ nodeEntries (d + 1) n := entries_ge_of_find pk d n slot _ hc hf

theorem length_writePair {α : Type} (m : Nat) (a : α) : ∀ ps : List (Nat × α),
    (writePair ps m a).length = ps.length := by
  intro ps
  induction ps with
  | nil => rfl
  | cons p ps ih =>
      obtain ⟨c, v⟩ := p
      by_cases hc : c = m <;> simp [writePair, hc, ih]

theorem search_eq_lt_length (m : Nat) : ∀ (l : List Nat) (i : Nat),
    search_eq l m = some i → i < l.length := by
  intro l
  induction l with
  | nil => intro i h; simp [search_eq] at h
  | cons c cs ih =>
      intro i h
      by_cases hc : c = m
      · simp [search_eq, hc] at h
        simp [List.length_cons]
        omega
      · simp only [search_eq, hc, if_false, ite_false] at h
        cases hs : search_eq cs m with
        | none => rw [hs] at h; simp at h
        | some j =>
            rw [hs] at h
            simp at h
            have := ih j hs
            simp only [List.length_cons]
            omega

theorem search_eq_get_self (m : Nat) : ∀ (l : List Nat) (i : Nat),
    search_eq l m = some i → l.get? i = some m := by
  intro l
  induction l with
  | nil => intro i h; simp [search_eq] at h
  | cons c cs ih =>
      intro i h
      by_cases hc : c = m
      · subst hc
        simp [search_eq] at h
        obtain rfl : i = 0 := by omega
        rfl
      · simp only [search_eq, hc, if_false, ite_false] at h
        cases hs : search_eq cs m with
        | none => rw [hs] at h; simp at h
        | some j =>
            rw [hs] at h
            simp at h
            obtain rfl : j + 1 = i := by omega
            simp only [List.get?_cons_succ]
            exact ih j hs

theorem offsLive_update_some (offs : Nat → Option Nat) (k x : Nat) (hk : k < 256)
    (h0 : offs k = none) :
    offsLive (fun c => if c = k then some x else offs c) = offsLive offs + 1 := by
  unfold offsLive
  have hcong : (List.range 256).filter (fun c => (if c = k then some x else offs c).isSome) =
      (List.range 256).filter (fun c => if c = k then true else (offs c).isSome) := by
    apply List.filter_congr
    intro c _
    by_cases hck : c = k <;> simp [hck]
  rw [hcong]
  exact length_filter_update_true _ k 256 hk (by rw [h0]; rfl)

theorem offsLive_update_none (offs : Nat → Option Nat) (k : Nat) (hk : k < 256)
    (h0 : (offs k).isSome = true) :
    offsLive offs = offsLive (fun c => if c = k then none else offs c) + 1 := by
  unfold offsLive
  have hcong : (List.range 256).filter (fun c => (if c = k then none else offs c).isSome) =
      (List.range 256).filter (fun c => if c = k then false else (offs c).isSome) := by
    apply List.filter_congr
    intro c _
    by_cases hck : c = k <;> simp [hck]
  rw [hcong]
  exact length_filter_update_false _ k 256 hk h0

theorem bitsLive_update_true (bset : Nat → Bool) (k : Nat) (hk : k < 256)
    (h0 : bset k = false) :
    bitsLive (fun c => if c = k then true else bset c) = bitsLive bset + 1 := by
  unfold bitsLive
  exact length_filter_update_true _ k 256 hk h0

theorem bitsLive_update_false (bset : Nat → Bool) (k : Nat) (hk : k < 256)
    (h0 : bset k = true) :
    bitsLive bset = bitsLive (fun c => if c = k then false else bset c) + 1 := by
  unfold bitsLive
  exact length_filter_update_false _ k 256 hk h0

theorem slotsLive_update_some (slots : Nat → Option bfmNode) (k : Nat) (s : bfmNode)
    (hk : k < 256) (h0 : slots k = none) :
    slotsLive (fun c => if c = k then some s else slots c) = slotsLive slots + 1 := by
  unfold slotsLive
  have hcong : (List.range 256).filter (fun c => (if c = k then some s else slots c).isSome) =
      (List.range 256).filter (fun c => if c = k then true else (slots c).isSome) := by
    apply List.filter_congr
    intro c _
    by_cases hck : c = k <;> simp [hck]
  rw [hcong]
  exact length_filter_update_true _ k 256 hk (by rw [h0]; rfl)

theorem slotsLive_update_none (slots : Nat → Option bfmNode) (k : Nat) (hk : k < 256)
    (h0 : (slots k).isSome = true) :
    slotsLive slots = slotsLive (fun c => if c = k then none else slots c) + 1 := by
  unfold slotsLive
  have hcong : (List.range 256).filter (fun c => (if c = k then none else slots c).isSome) =
      (List.range 256).filter (fun c => if c = k then false else (slots c).isSome) := by
    apply List.filter_congr
    intro c _
    by_cases hck : c = k <;> simp [hck]
  rw [hcong]
  exact length_filter_update_false _ k 256 hk h0

theorem offsLive_grow {α : Type} (ps : List (Nat × α)) (chunk x : Nat) (hchunk : chunk < 256)
    (hnd : (ps.map Prod.fst).Nodup) (hmem : chunk ∉ ps.map Prod.fst)
    (hb : ∀ p ∈ ps, p.1 < 256) :
    offsLive (fun c => if c = chunk then some x else search_eq (ps.map Prod.fst) c) =
      ps.length + 1 := by
  unfold offsLive
  have hlen : ps.length + 1 = (chunk :: ps.map Prod.fst).length := by simp
  rw [hlen]
  apply length_filter_mem_eq _ _ 256 (List.nodup_cons.2 ⟨hmem, hnd⟩)
  · intro c hcmem
    rcases List.mem_cons.1 hcmem with h | h
    · omega
    · obtain ⟨p, hp, hpc⟩ := List.mem_map.1 h
      have := hb p hp
      omega
  · intro c
    by_cases hck : c = chunk
    · subst hck
      simp
    · constructor
      · intro hs
        simp only [hck, if_false, ite_false] at hs
        have hnn : search_eq (ps.map Prod.fst) c ≠ none := by
          intro hnone
          rw [hnone] at hs
          simp at hs
        refine List.mem_cons.2 (Or.inr ?_)
        by_contra hcon
        exact hnn ((search_eq_eq_none_iff c _).2 hcon)
      · intro hmemc
        rcases List.mem_cons.1 hmemc with h | h
        · exact absurd h hck
        · simp only [hck, if_false, ite_false]
          cases hs : search_eq (ps.map Prod.fst) c with
          | none => exact absurd ((search_eq_eq_none_iff c _).1 hs) (by simp [h])
          | some i => rfl

theorem offsInj_update_fresh (offs : Nat → Option Nat) (k x : Nat)
    (hinj : offsInj offs) (hx : ∀ c o, offs c = some o → o < x) :
    offsInj (fun c => if c = k then some x else offs c) := by
  intro c1 c2 o h1 h2
  have h1' : (if c1 = k then some x else offs c1) = some o := h1
  have h2' : (if c2 = k then some x else offs c2) = some o := h2
  by_cases hc1 : c1 = k <;> by_cases hc2 : c2 = k
  · rw [hc1, hc2]
  · rw [if_pos hc1] at h1'
    rw [if_neg hc2] at h2'
    simp only [Option.some_inj] at h1'
    have := hx c2 o h2'
    omega
  · rw [if_neg hc1] at h1'
    rw [if_pos hc2] at h2'
    simp only [Option.some_inj] at h2'
    have := hx c1 o h1'
    omega
  · rw [if_neg hc1] at h1'
    rw [if_neg hc2] at h2'
    exact hinj c1 c2 o h1' h2'

/-- `bfm_set_leaf` preserves cleanliness (with packedness: only clean
insert-phase states call it in the shrink-to-empty program). -/
theorem set_leaf_clean (chunk val : Nat) (hchunk : chunk < 256) : ∀ n : bfmNode,
    nodeClean true 0 n → nodeClean true 0 (bfm_set_leaf n chunk val).2 := by
  intro n hc
  cases n with
  | leaf1 nc ps =>
      cases ps with
      | nil =>
          refine ⟨by simp, by simp, ?_⟩
          intro p hp
          simp at hp
          subst hp
          exact hchunk
      | cons p rest =>
          obtain ⟨c0, v0⟩ := p
          obtain ⟨hnd, hlen, hmem⟩ := hc
          have hrest : rest = [] := by
            cases rest with
            | nil => rfl
            | cons q qs => simp at hlen
          subst hrest
          simp only [bfm_set_leaf]
          by_cases h0 : c0 = chunk
          · rw [if_pos h0]
            refine ⟨by simp, by simp, ?_⟩
            intro p hp
            simp at hp
            subst hp
            exact hmem (c0, v0) (by simp)
          · rw [if_neg h0]
            by_cases hlt : chunk < c0
            · rw [if_pos hlt]
              refine ⟨?_, by simp, ?_⟩
              · simp
                omega
              · intro p hp
                simp at hp
                rcases hp with rfl | rfl
                · exact hchunk
                · exact hmem (c0, v0) (by simp)
            · rw [if_neg hlt]
              refine ⟨?_, by simp, ?_⟩
              · simp
                omega
              · intro p hp
                simp at hp
                rcases hp with rfl | rfl
                · exact hmem (c0, v0) (by simp)
                · exact hchunk
  | leaf4 nc ps =>
      obtain ⟨hnd, hlen, hmem⟩ := hc
      cases hs : search_eq (ps.map Prod.fst) chunk with
      | some i =>
          have heq : (bfm_set_leaf (bfmNode.leaf4 nc ps) chunk val).2 =
              bfmNode.leaf4 nc (writePair ps chunk val) := by
            simp [bfm_set_leaf, hs]
          rw [heq]
          refine ⟨?_, ?_, ?_⟩
          · rw [map_fst_writePair]
            exact hnd
          · rw [length_writePair]
            exact hlen
          · intro p hp
            rcases mem_writePair chunk val ps p hp with h | h
            · exact hmem p h
            · rw [h]
              exact hchunk
      | none =>
          have hfresh : chunk ∉ ps.map Prod.fst := (search_eq_eq_none_iff _ _).1 hs
          by_cases hlt : ps.length < 4
          · have heq : (bfm_set_leaf (bfmNode.leaf4 nc ps) chunk val).2 =
                bfmNode.leaf4 nc (insPairLe ps chunk val) := by
              simp [bfm_set_leaf, hs, hlt]
            rw [heq]
            refine ⟨nodup_insPairLe ps chunk val hfresh hnd, ?_, ?_⟩
            · rw [length_insPairLe]
              omega
            · intro p hp
              rcases mem_insPairLe ps chunk val p hp with h | h
              · rw [h]
                exact hchunk
              · exact hmem p h
          · have heq : (bfm_set_leaf (bfmNode.leaf4 nc ps) chunk val).2 =
                bfmNode.leaf16 nc (insPairLe ps chunk val) := by
              simp [bfm_set_leaf, hs, hlt]
            rw [heq]
            refine ⟨nodup_insPairLe ps chunk val hfresh hnd, ?_, ?_⟩
            · rw [length_insPairLe]
              omega
            · intro p hp
              rcases mem_insPairLe ps chunk val p hp with h | h
              · rw [h]
                exact hchunk
              · exact hmem p h
  | leaf16 nc ps =>
      obtain ⟨hnd, hlen, hmem⟩ := hc
      cases hs : search_eq (ps.map Prod.fst) chunk with
      | some i =>
          have heq : (bfm_set_leaf (bfmNode.leaf16 nc ps) chunk val).2 =
              bfmNode.leaf16 nc (writePair ps chunk val) := by
            simp [bfm_set_leaf, hs]
          rw [heq]
          refine ⟨?_, ?_, ?_⟩
          · rw [map_fst_writePair]
            exact hnd
          · rw [length_writePair]
            exact hlen
          · intro p hp
            rcases mem_writePair chunk val ps p hp with h | h
            · exact hmem p h
            · rw [h]
              exact hchunk
      | none =>
          have hfresh : chunk ∉ ps.map Prod.fst := (search_eq_eq_none_iff _ _).1 hs
          by_cases hlt : ps.length < 16
          · have heq : (bfm_set_leaf (bfmNode.leaf16 nc ps) chunk val).2 =
                bfmNode.leaf16 nc (insPairLe ps chunk val) := by
              simp [bfm_set_leaf, hs, hlt]
            rw [heq]
            refine ⟨nodup_insPairLe ps chunk val hfresh hnd, ?_, ?_⟩
            · rw [length_insPairLe]
              omega
            · intro p hp
              rcases mem_insPairLe ps chunk val p hp with h | h
              · rw [h]
                exact hchunk
              · exact hmem p h
          · have heq : (bfm_set_leaf (bfmNode.leaf16 nc ps) chunk val).2 =
                bfmNode.leaf32 nc (insPairLe ps chunk val) := by
              simp [bfm_set_leaf, hs, hlt]
            rw [heq]
            refine ⟨nodup_insPairLe ps chunk val hfresh hnd, ?_, ?_⟩
            · rw [length_insPairLe]
              omega
            · intro p hp
              rcases mem_insPairLe ps chunk val p hp with h | h
              · rw [h]
                exact hchunk
              · exact hmem p h
  | leaf32 nc ps =>
      obtain ⟨hnd, hlen, hmem⟩ := hc
      cases hs : search_eq (ps.map Prod.fst) chunk with
      | some i =>
          have heq : (bfm_set_leaf (bfmNode.leaf32 nc ps) chunk val).2 =
              bfmNode.leaf32 nc (writePair ps chunk val) := by
            simp [bfm_set_leaf, hs]
          rw [heq]
          refine ⟨?_, ?_, ?_⟩
          · rw [map_fst_writePair]
            exact hnd
          · rw [length_writePair]
            exact hlen
          · intro p hp
            rcases mem_writePair chunk val ps p hp with h | h
            · exact hmem p h
            · rw [h]
              exact hchunk
      | none =>
          have hfresh : chunk ∉ ps.map Prod.fst := (search_eq_eq_none_iff _ _).1 hs
          by_cases hlt : ps.length < 32
          · have heq : (bfm_set_leaf (bfmNode.leaf32 nc ps) chunk val).2 =
                bfmNode.leaf32 nc (insPairLe ps chunk val) := by
              simp [bfm_set_leaf, hs, hlt]
            rw [heq]
            refine ⟨nodup_insPairLe ps chunk val hfresh hnd, ?_, ?_⟩
            · rw [length_insPairLe]
              omega
            · intro p hp
              rcases mem_insPairLe ps chunk val p hp with h | h
              · rw [h]
                exact hchunk
              · exact hmem p h
          · have hlen32 : ps.length = 32 := by omega
            have heq : (bfm_set_leaf (bfmNode.leaf32 nc ps) chunk val).2 =
                bfmNode.leaf128 nc
                  (fun c => if c = chunk then some 32 else search_eq (ps.map Prod.fst) c)
                  (fun i => if i = 32 then val else ((ps.get? i).map Prod.snd).getD 0)
                  33 := by
              simp [bfm_set_leaf, hs, hlt]
            rw [heq]
            refine ⟨?_, by omega, ?_, ?_, ?_⟩
            · rw [offsLive_grow ps chunk 32 hchunk hnd hfresh hmem, hlen32]
            · intro c1 c2 o h1 h2
              have h1' : (if c1 = chunk then some 32 else
                  search_eq (ps.map Prod.fst) c1) = some o := h1
              have h2' : (if c2 = chunk then some 32 else
                  search_eq (ps.map Prod.fst) c2) = some o := h2
              by_cases hc1 : c1 = chunk <;> by_cases hc2 : c2 = chunk
              · rw [hc1, hc2]
              · rw [if_pos hc1] at h1'
                rw [if_neg hc2] at h2'
                simp only [Option.some_inj] at h1'
                have hlt2 := search_eq_lt_length c2 _ o h2'
                rw [List.length_map, hlen32] at hlt2
                omega
              · rw [if_neg hc1] at h1'
                rw [if_pos hc2] at h2'
                simp only [Option.some_inj] at h2'
                have hlt1 := search_eq_lt_length c1 _ o h1'
                rw [List.length_map, hlen32] at hlt1
                omega
              · rw [if_neg hc1] at h1'
                rw [if_neg hc2] at h2'
                have g1 := search_eq_get_self c1 _ o h1'
                have g2 := search_eq_get_self c2 _ o h2'
                rw [g1] at g2
                simp at g2
                exact g2
            · intro c hge
              show (if c = chunk then some 32 else search_eq (ps.map Prod.fst) c) = none
              rw [if_neg (by omega)]
              apply (search_eq_eq_none_iff _ _).2
              intro hmm
              obtain ⟨p, hp, hpc⟩ := List.mem_map.1 hmm
              have := hmem p hp
              omega
            · intro _ c o h
              have h' : (if c = chunk then some 32 else
                  search_eq (ps.map Prod.fst) c) = some o := h
              by_cases hck : c = chunk
              · rw [if_pos hck] at h'
                simp only [Option.some_inj] at h'
                omega
              · rw [if_neg hck] at h'
                have := search_eq_lt_length c _ o h'
                rw [List.length_map, hlen32] at this
                omega
  | leaf128 nc offs vals cnt =>
      obtain ⟨h1, h2, h3, h4, h5⟩ := hc
      cases ho : offs chunk with
      | some off =>
          have heq : (bfm_set_leaf (bfmNode.leaf128 nc offs vals cnt) chunk val).2 =
              bfmNode.leaf128 nc offs (fun i => if i = off then val else vals i) cnt := by
            simp [bfm_set_leaf, ho]
          rw [heq]
          exact ⟨h1, h2, h3, h4, h5⟩
      | none =>
          by_cases hlt : cnt < 128
          · have heq : (bfm_set_leaf (bfmNode.leaf128 nc offs vals cnt) chunk val).2 =
                bfmNode.leaf128 nc (fun c => if c = chunk then some cnt else offs c)
                  (fun i => if i = cnt then val else vals i) (cnt + 1) := by
              simp [bfm_set_leaf, ho, hlt]
            rw [heq]
            refine ⟨?_, by omega, ?_, ?_, ?_⟩
            · rw [offsLive_update_some offs chunk cnt hchunk ho]
              omega
            · exact offsInj_update_fresh offs chunk cnt h3
                (fun c o hco => h5 rfl c o hco)
            · intro c hge
              show (if c = chunk then some cnt else offs c) = none
              rw [if_neg (by omega)]
              exact h4 c hge
            · intro _ c o h
              have h' : (if c = chunk then some cnt else offs c) = some o := h
              by_cases hck : c = chunk
              · rw [if_pos hck] at h'
                simp only [Option.some_inj] at h'
                omega
              · rw [if_neg hck] at h'
                have := h5 rfl c o h'
                omega
          · have heq : (bfm_set_leaf (bfmNode.leaf128 nc offs vals cnt) chunk val).2 =
                bfmNode.leafMax nc (fun c => if c = chunk then true else (offs c).isSome)
                  (fun c => if c = chunk then val else
                    match offs c with
                    | some off => vals off
                    | none => 0)
                  (cnt + 1) := by
              simp [bfm_set_leaf, ho, hlt]
            rw [heq]
            constructor
            · have h6 : bitsLive (fun c => if c = chunk then true else (offs c).isSome) =
                  offsLive offs + 1 :=
                bitsLive_update_true (fun c => (offs c).isSome) chunk hchunk
                  (show (offs chunk).isSome = false by rw [ho]; rfl)
              rw [h6]
              omega
            · intro c hge
              show (if c = chunk then true else (offs c).isSome) = false
              rw [if_neg (by omega), h4 c hge]
              rfl
  | leafMax nc bset vals cnt =>
      obtain ⟨h1, h2⟩ := hc
      by_cases hb : bset chunk = true
      · have heq : (bfm_set_leaf (bfmNode.leafMax nc bset vals cnt) chunk val).2 =
            bfmNode.leafMax nc bset (fun c => if c = chunk then val else vals c) cnt := by
          simp [bfm_set_leaf, hb]
        rw [heq]
        exact ⟨h1, h2⟩
      · have hb' : bset chunk = false := by
          revert hb
          cases bset chunk <;> simp
        have heq : (bfm_set_leaf (bfmNode.leafMax nc bset vals cnt) chunk val).2 =
            bfmNode.leafMax nc (fun c => if c = chunk then true else bset c)
              (fun c => if c = chunk then val else vals c) (cnt + 1) := by
          simp [bfm_set_leaf, hb]
        rw [heq]
        constructor
        · rw [bitsLive_update_true bset chunk hchunk hb']
          omega
        · intro c hge
          show (if c = chunk then true else bset c) = false
          rw [if_neg (by omega)]
          exact h2 c hge
  | inner1 sh nc ps => exact absurd hc (by simp [nodeClean])
  | inner4 sh nc ps => exact absurd hc (by simp [nodeClean])
  | inner16 sh nc ps => exact absurd hc (by simp [nodeClean])
  | inner32 sh nc ps => exact absurd hc (by simp [nodeClean])
  | inner128 sh nc offs slots cnt => exact absurd hc (by simp [nodeClean])
  | innerMax sh nc slots cnt => exact absurd hc (by simp [nodeClean])

/-- Writing one chunk of a clean leaf leaves every other chunk's search
result unchanged. -/
theorem set_leaf_frame (chunk val c : Nat) (hne : c ≠ chunk) : ∀ n : bfmNode,
    nodeClean true 0 n →
    bfm_find_one_level_leaf (bfm_set_leaf n chunk val).2 c =
      bfm_find_one_level_leaf n c := by
  intro n hc
  cases n with
  | leaf1 nc ps =>
      cases ps with
      | nil => simp [bfm_set_leaf, bfm_find_one_level_leaf, Ne.symm hne]
      | cons p rest =>
          obtain ⟨c0, v0⟩ := p
          have hrest : rest = [] := by
            have hlen := hc.2.1
            cases rest with
            | nil => rfl
            | cons q qs => simp at hlen
          subst hrest
          by_cases h0 : c0 = chunk
          · subst h0
            simp [bfm_set_leaf, bfm_find_one_level_leaf, Ne.symm hne]
          · by_cases hlt : chunk < c0 <;>
              simp [bfm_set_leaf, h0, hlt, bfm_find_one_level_leaf, findPair, Ne.symm hne]
  | leaf4 nc ps =>
      cases hs : search_eq (ps.map Prod.fst) chunk with
      | some i =>
          simp [bfm_set_leaf, hs, bfm_find_one_level_leaf,
            findPair_writePair_other chunk c val hne]
      | none =>
          by_cases hlt : ps.length < 4 <;>
            simp [bfm_set_leaf, hs, hlt, bfm_find_one_level_leaf,
              findPair_insPairLe_other ps chunk c val hne]
  | leaf16 nc ps =>
      cases hs : search_eq (ps.map Prod.fst) chunk with
      | some i =>
          simp [bfm_set_leaf, hs, bfm_find_one_level_leaf,
            findPair_writePair_other chunk c val hne]
      | none =>
          by_cases hlt : ps.length < 16 <;>
            simp [bfm_set_leaf, hs, hlt, bfm_find_one_level_leaf,
              findPair_insPairLe_other ps chunk c val hne]
  | leaf32 nc ps =>
      obtain ⟨hnd, hlen, hmem⟩ := hc
      cases hs : search_eq (ps.map Prod.fst) chunk with
      | some i =>
          simp [bfm_set_leaf, hs, bfm_find_one_level_leaf,
            findPair_writePair_other chunk c val hne]
      | none =>
          by_cases hlt : ps.length < 32
          · simp [bfm_set_leaf, hs, hlt, bfm_find_one_level_leaf,
              findPair_insPairLe_other ps chunk c val hne]
          · have hlen32 : ps.length = 32 := by omega
            have heq : (bfm_set_leaf (bfmNode.leaf32 nc ps) chunk val).2 =
                bfmNode.leaf128 nc
                  (fun c => if c = chunk then some 32 else search_eq (ps.map Prod.fst) c)
                  (fun i => if i = 32 then val else ((ps.get? i).map Prod.snd).getD 0)
                  33 := by
              simp [bfm_set_leaf, hs, hlt]
            rw [heq]
            simp only [bfm_find_one_level_leaf]
            rw [if_neg hne]
            cases hsc : search_eq (ps.map Prod.fst) c with
            | none =>
                rw [(search_eq_none_iff_findPair c ps).1 hsc]
            | some i =>
                have hi : i < 32 := by
                  have := search_eq_lt_length c _ i hsc
                  rw [List.length_map, hlen32] at this
                  exact this
                have hget := search_eq_get c ps i hsc
                cases hv : findPair ps c with
                | none =>
                    have : c ∉ ps.map Prod.fst := (findPair_eq_none_iff c ps).1 hv
                    rw [← search_eq_eq_none_iff c (ps.map Prod.fst)] at this
                    rw [hsc] at this
                    cases this
                | some v =>
                    rw [hv] at hget
                    simp only
                    rw [if_neg (by omega)]
                    rw [hget]
                    rfl
  | leaf128 nc offs vals cnt =>
      obtain ⟨h1, h2, h3, h4, h5⟩ := hc
      cases ho : offs chunk with
      | some off =>
          have heq : (bfm_set_leaf (bfmNode.leaf128 nc offs vals cnt) chunk val).2 =
              bfmNode.leaf128 nc offs (fun i => if i = off then val else vals i) cnt := by
            simp [bfm_set_leaf, ho]
          rw [heq]
          simp only [bfm_find_one_level_leaf]
          cases hoc : offs c with
          | none => rfl
          | some o =>
              have hno : o ≠ off := by
                intro he
                subst he
                exact hne (h3 c chunk o hoc ho)
              simp [hno]
      | none =>
          by_cases hlt : cnt < 128
          · have heq : (bfm_set_leaf (bfmNode.leaf128 nc offs vals cnt) chunk val).2 =
                bfmNode.leaf128 nc (fun c => if c = chunk then some cnt else offs c)
                  (fun i => if i = cnt then val else vals i) (cnt + 1) := by
              simp [bfm_set_leaf, ho, hlt]
            rw [heq]
            simp only [bfm_find_one_level_leaf]
            rw [if_neg hne]
            cases hoc : offs c with
            | none => rfl
            | some o =>
                have hlt2 : o < cnt := h5 rfl c o hoc
                simp [show o ≠ cnt by omega]
          · have heq : (bfm_set_leaf (bfmNode.leaf128 nc offs vals cnt) chunk val).2 =
                bfmNode.leafMax nc (fun c => if c = chunk then true else (offs c).isSome)
                  (fun c => if c = chunk then val else
                    match offs c with
                    | some off => vals off
                    | none => 0)
                  (cnt + 1) := by
              simp [bfm_set_leaf, ho, hlt]
            rw [heq]
            simp only [bfm_find_one_level_leaf]
            cases hoc : offs c with
            | none => simp [hne, hoc]
            | some o => simp [hne, hoc]
  | leafMax nc bset vals cnt =>
      by_cases hb : bset chunk = true
      · simp [bfm_set_leaf, hb, bfm_find_one_level_leaf, hne]
      · simp [bfm_set_leaf, hb, bfm_find_one_level_leaf, hne]
  | inner1 sh nc ps => rfl
  | inner4 sh nc ps => rfl
  | inner16 sh nc ps => rfl
  | inner32 sh nc ps => rfl
  | inner128 sh nc offs slots cnt => rfl
  | innerMax sh nc slots cnt => rfl

theorem search_eq_of_get_nodup : ∀ (l : List Nat), l.Nodup → ∀ (i c : Nat),
    l.get? i = some c → search_eq l c = some i := by
  intro l
  induction l with
  | nil => intro _ i c h; simp at h
  | cons a l ih =>
      intro hnd i c h
      cases i with
      | zero =>
          simp at h
          subst h
          simp [search_eq]
      | succ i =>
          simp only [List.get?_cons_succ] at h
          have hc : c ∈ l := List.get?_mem h
          have hane : a ≠ c := by
            intro he
            subst he
            exact (List.nodup_cons.1 hnd).1 hc
          simp only [search_eq, hane, if_false, ite_false]
          rw [ih (List.nodup_cons.1 hnd).2 i c h]
          rfl

/-- `bfm_insert_inner` of a fresh chunk keeps the node clean. -/
theorem insert_inner_clean (d chunk : Nat) (hchunk : chunk < 256) : ∀ (n child : bfmNode),
    nodeClean true (d + 1) n → bfm_find_one_level_inner n chunk = none →
    nodeClean true d child → 1 ≤ nodeEntries d child →
    nodeClean true (d + 1) (bfm_insert_inner n child chunk) := by
  intro n child hc hfind hcs hes
  have hcs' : nodeClean true d (setNodeChunk child chunk) :=
    (nodeClean_setNodeChunk true chunk d child).2 hcs
  have hes' : 1 ≤ nodeEntries d (setNodeChunk child chunk) := by
    rw [nodeEntries_setNodeChunk]
    exact hes
  cases n with
  | inner1 sh nc ps =>
      cases ps with
      | nil =>
          refine ⟨by simp, by simp, ?_⟩
          intro p hp
          simp at hp
          subst hp
          exact ⟨hchunk, hcs', hes'⟩
      | cons p rest =>
          obtain ⟨c0, s0⟩ := p
          obtain ⟨hnd, hlen, hmem⟩ := hc
          have hrest : rest = [] := by
            cases rest with
            | nil => rfl
            | cons q qs => simp at hlen
          subst hrest
          have hne0 : c0 ≠ chunk := by
            intro he
            simp [bfm_find_one_level_inner, he] at hfind
          show nodeClean true (d + 1)
            (bfmNode.inner4 sh nc (insPairLe [(c0, s0)] chunk (setNodeChunk child chunk)))
          refine ⟨nodup_insPairLe _ _ _ (by simp [Ne.symm hne0]) (by simp), ?_, ?_⟩
          · rw [length_insPairLe]
            simp
          · intro p hp
            rcases mem_insPairLe _ _ _ p hp with h | h
            · rw [h]
              exact ⟨hchunk, hcs', hes'⟩
            · simp at h
              subst h
              exact hmem (c0, s0) (by simp)
  | inner4 sh nc ps =>
      obtain ⟨hnd, hlen, hmem⟩ := hc
      have hfresh : chunk ∉ ps.map Prod.fst := by
        rw [← findPair_eq_none_iff]
        exact hfind
      by_cases hlt : ps.length < 4
      · have heq : bfm_insert_inner (bfmNode.inner4 sh nc ps) child chunk =
            bfmNode.inner4 sh nc (insPairLe ps chunk (setNodeChunk child chunk)) := by
          simp [bfm_insert_inner, hlt]
        rw [heq]
        refine ⟨nodup_insPairLe _ _ _ hfresh hnd, by rw [length_insPairLe]; omega, ?_⟩
        intro p hp
        rcases mem_insPairLe _ _ _ p hp with h | h
        · rw [h]
          exact ⟨hchunk, hcs', hes'⟩
        · exact hmem p h
      · have heq : bfm_insert_inner (bfmNode.inner4 sh nc ps) child chunk =
            bfmNode.inner16 sh nc (insPairLe ps chunk (setNodeChunk child chunk)) := by
          simp [bfm_insert_inner, hlt]
        rw [heq]
        refine ⟨nodup_insPairLe _ _ _ hfresh hnd, by rw [length_insPairLe]; omega, ?_⟩
        intro p hp
        rcases mem_insPairLe _ _ _ p hp with h | h
        · rw [h]
          exact ⟨hchunk, hcs', hes'⟩
        · exact hmem p h
  | inner16 sh nc ps =>
      obtain ⟨hnd, hlen, hmem⟩ := hc
      have hfresh : chunk ∉ ps.map Prod.fst := by
        rw [← findPair_eq_none_iff]
        exact hfind
      by_cases hlt : ps.length < 16
      · have heq : bfm_insert_inner (bfmNode.inner16 sh nc ps) child chunk =
            bfmNode.inner16 sh nc (insPairLe ps chunk (setNodeChunk child chunk)) := by
          simp [bfm_insert_inner, hlt]
        rw [heq]
        refine ⟨nodup_insPairLe _ _ _ hfresh hnd, by rw [length_insPairLe]; omega, ?_⟩
        intro p hp
        rcases mem_insPairLe _ _ _ p hp with h | h
        · rw [h]
          exact ⟨hchunk, hcs', hes'⟩
        · exact hmem p h
      · have heq : bfm_insert_inner (bfmNode.inner16 sh nc ps) child chunk =
            bfmNode.inner32 sh nc (insPairLe ps chunk (setNodeChunk child chunk)) := by
          simp [bfm_insert_inner, hlt]
        rw [heq]
        refine ⟨nodup_insPairLe _ _ _ hfresh hnd, by rw [length_insPairLe]; omega, ?_⟩
        intro p hp
        rcases mem_insPairLe _ _ _ p hp with h | h
        · rw [h]
          exact ⟨hchunk, hcs', hes'⟩
        · exact hmem p h
  | inner32 sh nc ps =>
      obtain ⟨hnd, hlen, hmem⟩ := hc
      have hfresh : chunk ∉ ps.map Prod.fst := by
        rw [← findPair_eq_none_iff]
        exact hfind
      by_cases hlt : ps.length < 32
      · have heq : bfm_insert_inner (bfmNode.inner32 sh nc ps) child chunk =
            bfmNode.inner32 sh nc (insPairLe ps chunk (setNodeChunk child chunk)) := by
          simp [bfm_insert_inner, hlt]
        rw [heq]
        refine ⟨nodup_insPairLe _ _ _ hfresh hnd, by rw [length_insPairLe]; omega, ?_⟩
        intro p hp
        rcases mem_insPairLe _ _ _ p hp with h | h
        · rw [h]
          exact ⟨hchunk, hcs', hes'⟩
        · exact hmem p h
      · have hlen32 : ps.length = 32 := by omega
        have heq : bfm_insert_inner (bfmNode.inner32 sh nc ps) child chunk =
            bfmNode.inner128 sh nc
              (fun c => if c = chunk then some 32 else search_eq (ps.map Prod.fst) c)
              (fun off => if off = 32 then some (setNodeChunk child chunk)
                else (ps.get? off).map Prod.snd)
              33 := by
          simp [bfm_insert_inner, hlt]
        rw [heq]
        refine ⟨?_, by omega, ?_, ?_, ?_, ?_, ?_, ?_⟩
        · rw [offsLive_grow ps chunk 32 hchunk hnd hfresh (fun p hp => (hmem p hp).1), hlen32]
        · intro c1 c2 o h1 h2
          have h1' : (if c1 = chunk then some 32 else
              search_eq (ps.map Prod.fst) c1) = some o := h1
          have h2' : (if c2 = chunk then some 32 else
              search_eq (ps.map Prod.fst) c2) = some o := h2
          by_cases hc1 : c1 = chunk <;> by_cases hc2 : c2 = chunk
          · rw [hc1, hc2]
          · rw [if_pos hc1] at h1'
            rw [if_neg hc2] at h2'
            simp only [Option.some_inj] at h1'
            have hlt2 := search_eq_lt_length c2 _ o h2'
            rw [List.length_map, hlen32] at hlt2
            omega
          · rw [if_neg hc1] at h1'
            rw [if_pos hc2] at h2'
            simp only [Option.some_inj] at h2'
            have hlt1 := search_eq_lt_length c1 _ o h1'
            rw [List.length_map, hlen32] at hlt1
            omega
          · rw [if_neg hc1] at h1'
            rw [if_neg hc2] at h2'
            have g1 := search_eq_get_self c1 _ o h1'
            have g2 := search_eq_get_self c2 _ o h2'
            rw [g1] at g2
            simp at g2
            exact g2
        · intro c hge
          show (if c = chunk then some 32 else search_eq (ps.map Prod.fst) c) = none
          rw [if_neg (by omega)]
          apply (search_eq_eq_none_iff _ _).2
          intro hmm
          obtain ⟨p, hp, hpc⟩ := List.mem_map.1 hmm
          have := (hmem p hp).1
          omega
        · intro _ c o h
          have h' : (if c = chunk then some 32 else
              search_eq (ps.map Prod.fst) c) = some o := h
          by_cases hck : c = chunk
          · rw [if_pos hck] at h'
            simp only [Option.some_inj] at h'
            omega
          · rw [if_neg hck] at h'
            have := search_eq_lt_length c _ o h'
            rw [List.length_map, hlen32] at this
            omega
        · intro o hso
          have hso' : (if o = 32 then some (setNodeChunk child chunk)
              else (ps.get? o).map Prod.snd).isSome := hso
          by_cases ho32 : o = 32
          · subst ho32
            refine ⟨chunk, hchunk, ?_⟩
            show (if chunk = chunk then some 32 else
              search_eq (ps.map Prod.fst) chunk) = some 32
            rw [if_pos rfl]
          · rw [if_neg ho32] at hso'
            cases hg : ps.get? o with
            | none => rw [hg] at hso'; simp at hso'
            | some p =>
                have hpmem : p ∈ ps := List.get?_mem hg
                refine ⟨p.1, (hmem p hpmem).1, ?_⟩
                show (if p.1 = chunk then some 32 else
                  search_eq (ps.map Prod.fst) p.1) = some o
                have hp1 : p.1 ≠ chunk := by
                  intro he
                  exact hfresh (he ▸ List.mem_map_of_mem Prod.fst hpmem)
                rw [if_neg hp1]
                apply search_eq_of_get_nodup _ hnd
                rw [List.get?_map, hg]
                rfl
        · intro c o h
          have h' : (if c = chunk then some 32 else
              search_eq (ps.map Prod.fst) c) = some o := h
          by_cases hck : c = chunk
          · rw [if_pos hck] at h'
            simp only [Option.some_inj] at h'
            subst h'
            exact ⟨by omega, by simp⟩
          · rw [if_neg hck] at h'
            have hob := search_eq_lt_length c _ o h'
            rw [List.length_map, hlen32] at hob
            refine ⟨by omega, ?_⟩
            show (if o = 32 then some (setNodeChunk child chunk)
              else (ps.get? o).map Prod.snd).isSome
            rw [if_neg (by omega)]
            have hg : o < ps.length := by omega
            rw [List.get?_eq_get hg]
            rfl
        · intro o s hs
          have hs' : (if o = 32 then some (setNodeChunk child chunk)
              else (ps.get? o).map Prod.snd) = some s := hs
          by_cases ho32 : o = 32
          · rw [if_pos ho32] at hs'
            simp only [Option.some_inj] at hs'
            subst hs'
            exact ⟨hcs', hes'⟩
          · rw [if_neg ho32] at hs'
            cases hg : ps.get? o with
            | none => rw [hg] at hs'; simp at hs'
            | some p =>
                rw [hg] at hs'
                simp only [Option.map_some', Option.some_inj] at hs'
                have hpmem : p ∈ ps := List.get?_mem hg
                have := hmem p hpmem
                exact hs' ▸ ⟨this.2.1, this.2.2⟩
  | inner128 sh nc offs slots cnt =>
      obtain ⟨h1, h2, h3, h4, h5, h6, h7, h8⟩ := hc
      have hoc : offs chunk = none := by
        cases hoc : offs chunk with
        | none => rfl
        | some off =>
            have hiss := (h7 chunk off hoc).2
            simp only [bfm_find_one_level_inner] at hfind
            rw [hoc] at hfind
            have hfind' : slots off = none := hfind
            rw [hfind'] at hiss
            simp at hiss
      by_cases hlt : cnt < 128
      · have heq : bfm_insert_inner (bfmNode.inner128 sh nc offs slots cnt) child chunk =
            bfmNode.inner128 sh nc
              (fun c => if c = chunk then some cnt else offs c)
              (fun off => if off = cnt then some (setNodeChunk child chunk) else slots off)
              (cnt + 1) := by
          simp [bfm_insert_inner, hlt]
        rw [heq]
        refine ⟨?_, by omega, ?_, ?_, ?_, ?_, ?_, ?_⟩
        · rw [offsLive_update_some offs chunk cnt hchunk hoc]
          omega
        · exact offsInj_update_fresh offs chunk cnt h3 (fun c o hco => h5 rfl c o hco)
        · intro c hge
          show (if c = chunk then some cnt else offs c) = none
          rw [if_neg (by omega)]
          exact h4 c hge
        · intro _ c o h
          have h' : (if c = chunk then some cnt else offs c) = some o := h
          by_cases hck : c = chunk
          · rw [if_pos hck] at h'
            simp only [Option.some_inj] at h'
            omega
          · rw [if_neg hck] at h'
            have := h5 rfl c o h'
            omega
        · intro o hso
          have hso' : (if o = cnt then some (setNodeChunk child chunk)
              else slots o).isSome := hso
          by_cases hocnt : o = cnt
          · refine ⟨chunk, hchunk, ?_⟩
            show (if chunk = chunk then some cnt else offs chunk) = some o
            rw [if_pos rfl, hocnt]
          · rw [if_neg hocnt] at hso'
            obtain ⟨c, hclt, hco⟩ := h6 o hso'
            refine ⟨c, hclt, ?_⟩
            have hcne : c ≠ chunk := by
              intro he
              rw [he, hoc] at hco
              cases hco
            show (if c = chunk then some cnt else offs c) = some o
            rw [if_neg hcne]
            exact hco
        · intro c o h
          have h' : (if c = chunk then some cnt else offs c) = some o := h
          by_cases hck : c = chunk
          · rw [if_pos hck] at h'
            simp only [Option.some_inj] at h'
            refine ⟨by omega, ?_⟩
            show (if o = cnt then some (setNodeChunk child chunk) else slots o).isSome
            rw [if_pos (by omega : o = cnt)]
            rfl
          · rw [if_neg hck] at h'
            have hpk := h5 rfl c o h'
            have hold := h7 c o h'
            refine ⟨hold.1, ?_⟩
            show (if o = cnt then some (setNodeChunk child chunk) else slots o).isSome
            rw [if_neg (by omega)]
            exact hold.2
        · intro o s hs
          have hs' : (if o = cnt then some (setNodeChunk child chunk)
              else slots o) = some s := hs
          by_cases hocnt : o = cnt
          · rw [if_pos hocnt] at hs'
            simp only [Option.some_inj] at hs'
            subst hs'
            exact ⟨hcs', hes'⟩
          · rw [if_neg hocnt] at hs'
            exact h8 o s hs'
      · have heq : bfm_insert_inner (bfmNode.inner128 sh nc offs slots cnt) child chunk =
            bfmNode.innerMax sh nc
              (fun c => if c = chunk then some (setNodeChunk child chunk)
                else (offs c).bind slots)
              (cnt + 1) := by
          simp [bfm_insert_inner, hlt]
        rw [heq]
        refine ⟨?_, ?_, ?_⟩
        · have hcong : (List.range 256).filter
              (fun c => ((if c = chunk then some (setNodeChunk child chunk)
                else (offs c).bind slots)).isSome) =
              (List.range 256).filter (fun c => if c = chunk then true else (offs c).isSome) := by
            apply List.filter_congr
            intro c _
            by_cases hck : c = chunk
            · simp [hck]
            · simp only [hck, if_false, ite_false]
              cases hco : offs c with
              | none => rfl
              | some o =>
                  have hsom := (h7 c o hco).2
                  cases hso : slots o with
                  | none => rw [hso] at hsom; simp at hsom
                  | some s => simp [hso]
          show cnt + 1 = slotsLive _
          unfold slotsLive
          rw [hcong]
          rw [length_filter_update_true (fun c => (offs c).isSome) chunk 256 hchunk
            (show (offs chunk).isSome = false by rw [hoc]; rfl)]
          have : ((List.range 256).filter (fun c => (offs c).isSome)).length = offsLive offs :=
            rfl
          omega
        · intro c hge
          show (if c = chunk then some (setNodeChunk child chunk)
            else (offs c).bind slots) = none
          rw [if_neg (by omega), h4 c hge]
          rfl
        · intro c s hs
          have hs' : (if c = chunk then some (setNodeChunk child chunk)
              else (offs c).bind slots) = some s := hs
          by_cases hck : c = chunk
          · rw [if_pos hck] at hs'
            simp only [Option.some_inj] at hs'
            subst hs'
            exact ⟨hcs', hes'⟩
          · rw [if_neg hck] at hs'
            cases hco : offs c with
            | none => rw [hco] at hs'; cases hs'
            | some o =>
                rw [hco] at hs'
                exact h8 o s hs'
  | innerMax sh nc slots cnt =>
      obtain ⟨h1, h2, h3⟩ := hc
      have hsc : slots chunk = none := hfind
      refine ⟨?_, ?_, ?_⟩
      · show cnt + 1 = slotsLive _
        rw [slotsLive_update_some slots chunk _ hchunk hsc]
        omega
      · intro c hge
        show (if c = chunk then some (setNodeChunk child chunk) else slots c) = none
        rw [if_neg (by omega)]
        exact h2 c hge
      · intro c s hs
        have hs' : (if c = chunk then some (setNodeChunk child chunk)
            else slots c) = some s := hs
        by_cases hck : c = chunk
        · rw [if_pos hck] at hs'
          simp only [Option.some_inj] at hs'
          subst hs'
          exact ⟨hcs', hes'⟩
        · rw [if_neg hck] at hs'
          exact h3 c s hs'
  | leaf1 nc ps => exact absurd hc (by simp [nodeClean])
  | leaf4 nc ps => exact absurd hc (by simp [nodeClean])
  | leaf16 nc ps => exact absurd hc (by simp [nodeClean])
  | leaf32 nc ps => exact absurd hc (by simp [nodeClean])
  | leaf128 nc offs vals cnt => exact absurd hc (by simp [nodeClean])
  | leafMax nc bset vals cnt => exact absurd hc (by simp [nodeClean])

/-- Attaching a fresh chunk leaves every other chunk's search result
unchanged. -/
theorem insert_inner_frame (d chunk c : Nat) (hne : c ≠ chunk) : ∀ (n child : bfmNode),
    nodeClean true (d + 1) n → bfm_find_one_level_inner n chunk = none →
    bfm_find_one_level_inner (bfm_insert_inner n child chunk) c =
      bfm_find_one_level_inner n c := by
  intro n child hc hfind
  cases n with
  | inner1 sh nc ps =>
      cases ps with
      | nil =>
          show (if chunk = c then some (setNodeChunk child chunk) else none) =
            bfm_find_one_level_inner (bfmNode.inner1 sh nc []) c
          rw [if_neg (Ne.symm hne)]
          rfl
      | cons p rest =>
          obtain ⟨c0, s0⟩ := p
          have hrest : rest = [] := by
            have hlen := hc.2.1
            cases rest with
            | nil => rfl
            | cons q qs => simp at hlen
          subst hrest
          show findPair (insPairLe [(c0, s0)] chunk (setNodeChunk child chunk)) c =
            bfm_find_one_level_inner (bfmNode.inner1 sh nc [(c0, s0)]) c
          rw [findPair_insPairLe_other _ _ _ _ hne]
          simp [findPair, bfm_find_one_level_inner]
  | inner4 sh nc ps =>
      by_cases hlt : ps.length < 4 <;>
        simp [bfm_insert_inner, hlt, bfm_find_one_level_inner,
          findPair_insPairLe_other ps chunk c _ hne]
  | inner16 sh nc ps =>
      by_cases hlt : ps.length < 16 <;>
        simp [bfm_insert_inner, hlt, bfm_find_one_level_inner,
          findPair_insPairLe_other ps chunk c _ hne]
  | inner32 sh nc ps =>
      by_cases hlt : ps.length < 32
      · simp [bfm_insert_inner, hlt, bfm_find_one_level_inner,
          findPair_insPairLe_other ps chunk c _ hne]
      · have heq : bfm_insert_inner (bfmNode.inner32 sh nc ps) child chunk =
            bfmNode.inner128 sh nc
              (fun c => if c = chunk then some 32 else search_eq (ps.map Prod.fst) c)
              (fun off => if off = 32 then some (setNodeChunk child chunk)
                else (ps.get? off).map Prod.snd)
              33 := by
          simp [bfm_insert_inner, hlt]
        rw [heq]
        simp only [bfm_find_one_level_inner]
        rw [if_neg hne]
        cases hsc : search_eq (ps.map Prod.fst) c with
        | none =>
            rw [(search_eq_none_iff_findPair c ps).1 hsc]
        | some i =>
            have hi : i < ps.length := by
              have := search_eq_lt_length c _ i hsc
              rwa [List.length_map] at this
            have hlen32 : ps.length = 32 := by
              have := hc.2.1
              omega
            have hget := search_eq_get c ps i hsc
            simp only
            rw [if_neg (by omega)]
            exact hget
  | inner128 sh nc offs slots cnt =>
      obtain ⟨h1, h2, h3, h4, h5, h6, h7, h8⟩ := hc
      have hoc : offs chunk = none := by
        cases hoc : offs chunk with
        | none => rfl
        | some off =>
            have hiss := (h7 chunk off hoc).2
            simp only [bfm_find_one_level_inner] at hfind
            rw [hoc] at hfind
            have hfind' : slots off = none := hfind
            rw [hfind'] at hiss
            simp at hiss
      by_cases hlt : cnt < 128
      · have heq : bfm_insert_inner (bfmNode.inner128 sh nc offs slots cnt) child chunk =
            bfmNode.inner128 sh nc
              (fun c => if c = chunk then some cnt else offs c)
              (fun off => if off = cnt then some (setNodeChunk child chunk) else slots off)
              (cnt + 1) := by
          simp [bfm_insert_inner, hlt]
        rw [heq]
        simp only [bfm_find_one_level_inner]
        rw [if_neg hne]
        cases hco : offs c with
        | none => rfl
        | some o =>
            have := h5 rfl c o hco
            simp only
            rw [if_neg (by omega)]
      · have heq : bfm_insert_inner (bfmNode.inner128 sh nc offs slots cnt) child chunk =
            bfmNode.innerMax sh nc
              (fun c => if c = chunk then some (setNodeChunk child chunk)
                else (offs c).bind slots)
              (cnt + 1) := by
          simp [bfm_insert_inner, hlt]
        rw [heq]
        show (if c = chunk then some (setNodeChunk child chunk) else (offs c).bind slots) =
          bfm_find_one_level_inner (bfmNode.inner128 sh nc offs slots cnt) c
        rw [if_neg hne]
        cases hco : offs c with
        | none =>
            show Option.bind none slots = _
            simp [bfm_find_one_level_inner, hco]
        | some o =>
            show Option.bind (some o) slots = _
            simp [bfm_find_one_level_inner, hco]
  | innerMax sh nc slots cnt =>
      show (if c = chunk then some (setNodeChunk child chunk) else slots c) =
        bfm_find_one_level_inner (bfmNode.innerMax sh nc slots cnt) c
      rw [if_neg hne]
      rfl
  | leaf1 nc ps => rfl
  | leaf4 nc ps => rfl
  | leaf16 nc ps => rfl
  | leaf32 nc ps => rfl
  | leaf128 nc offs vals cnt => rfl
  | leafMax nc bset vals cnt => rfl

/-- Replacing an existing child keeps the node clean. -/
theorem replaceChild_clean (pk : Bool) (d chunk : Nat) (hchunk : chunk < 256) :
    ∀ (n s s' : bfmNode),
    nodeClean pk (d + 1) n → bfm_find_one_level_inner n chunk = some s →
    nodeClean pk d s' → 1 ≤ nodeEntries d s' →
    nodeClean pk (d + 1) (replaceChild n chunk s') := by
  intro n s s' hc hfind hcs hes
  cases n with
  | inner1 sh nc ps =>
      cases ps with
      | nil => simp [bfm_find_one_level_inner] at hfind
      | cons p rest =>
          obtain ⟨c0, s0⟩ := p
          obtain ⟨hnd, hlen, hmem⟩ := hc
          simp only [replaceChild]
          by_cases h0 : c0 = chunk
          · rw [if_pos h0]
            refine ⟨by simpa using hnd, by simpa using hlen, ?_⟩
            intro p hp
            rcases List.mem_cons.1 hp with rfl | hp'
            · exact ⟨(hmem (c0, s0) (by simp)).1, hcs, hes⟩
            · exact hmem p (List.mem_cons.2 (Or.inr hp'))
          · rw [if_neg h0]
            exact ⟨hnd, hlen, hmem⟩
  | inner4 sh nc ps =>
      obtain ⟨hnd, hlen, hmem⟩ := hc
      refine ⟨?_, ?_, ?_⟩
      · rw [map_fst_writePair]
        exact hnd
      · rw [length_writePair]
        exact hlen
      · intro p hp
        rcases mem_writePair chunk s' ps p hp with h | h
        · exact hmem p h
        · rw [h]
          exact ⟨hchunk, hcs, hes⟩
  | inner16 sh nc ps =>
      obtain ⟨hnd, hlen, hmem⟩ := hc
      refine ⟨?_, ?_, ?_⟩
      · rw [map_fst_writePair]
        exact hnd
      · rw [length_writePair]
        exact hlen
      · intro p hp
        rcases mem_writePair chunk s' ps p hp with h | h
        · exact hmem p h
        · rw [h]
          exact ⟨hchunk, hcs, hes⟩
  | inner32 sh nc ps =>
      obtain ⟨hnd, hlen, hmem⟩ := hc
      refine ⟨?_, ?_, ?_⟩
      · rw [map_fst_writePair]
        exact hnd
      · rw [length_writePair]
        exact hlen
      · intro p hp
        rcases mem_writePair chunk s' ps p hp with h | h
        · exact hmem p h
        · rw [h]
          exact ⟨hchunk, hcs, hes⟩
  | inner128 sh nc offs slots cnt =>
      obtain ⟨h1, h2, h3, h4, h5, h6, h7, h8⟩ := hc
      simp only [replaceChild]
      cases hoc : offs chunk with
      | none => exact ⟨h1, h2, h3, h4, h5, h6, h7, h8⟩
      | some off =>
          refine ⟨h1, h2, h3, h4, h5, ?_, ?_, ?_⟩
          · intro o hso
            have hso' : (if o = off then some s' else slots o).isSome := hso
            by_cases hoo : o = off
            · subst hoo
              exact ⟨chunk, hchunk, hoc⟩
            · rw [if_neg hoo] at hso'
              exact h6 o hso'
          · intro c o h
            have hold := h7 c o h
            refine ⟨hold.1, ?_⟩
            show (if o = off then some s' else slots o).isSome
            by_cases hoo : o = off
            · rw [if_pos hoo]
              rfl
            · rw [if_neg hoo]
              exact hold.2
          · intro o t ht
            have ht' : (if o = off then some s' else slots o) = some t := ht
            by_cases hoo : o = off
            · rw [if_pos hoo] at ht'
              simp only [Option.some_inj] at ht'
              subst ht'
              exact ⟨hcs, hes⟩
            · rw [if_neg hoo] at ht'
              exact h8 o t ht'
  | innerMax sh nc slots cnt =>
      obtain ⟨h1, h2, h3⟩ := hc
      have hsome : slots chunk = some s := hfind
      refine ⟨?_, ?_, ?_⟩
      · show cnt = slotsLive _
        unfold slotsLive
        have hcong : (List.range 256).filter
            (fun c => ((if c = chunk then some s' else slots c)).isSome) =
            (List.range 256).filter (fun c => (slots c).isSome) := by
          apply List.filter_congr
          intro c _
          by_cases hck : c = chunk
          · subst hck
            simp [hsome]
          · simp [hck]
        rw [hcong]
        exact h1
      · intro c hge
        show (if c = chunk then some s' else slots c) = none
        rw [if_neg (by omega)]
        exact h2 c hge
      · intro c t ht
        have ht' : (if c = chunk then some s' else slots c) = some t := ht
        by_cases hck : c = chunk
        · rw [if_pos hck] at ht'
          simp only [Option.some_inj] at ht'
          subst ht'
          exact ⟨hcs, hes⟩
        · rw [if_neg hck] at ht'
          exact h3 c t ht'
  | leaf1 nc ps => exact absurd hc (by simp [nodeClean])
  | leaf4 nc ps => exact absurd hc (by simp [nodeClean])
  | leaf16 nc ps => exact absurd hc (by simp [nodeClean])
  | leaf32 nc ps => exact absurd hc (by simp [nodeClean])
  | leaf128 nc offs vals cnt => exact absurd hc (by simp [nodeClean])
  | leafMax nc bset vals cnt => exact absurd hc (by simp [nodeClean])

/-- Replacing the child under one chunk leaves other chunks unchanged. -/
theorem replaceChild_frame (pk : Bool) (d chunk c : Nat) (hne : c ≠ chunk) :
    ∀ (n s s' : bfmNode),
    nodeClean pk (d + 1) n → bfm_find_one_level_inner n chunk = some s →
    bfm_find_one_level_inner (replaceChild n chunk s') c =
      bfm_find_one_level_inner n c := by
  intro n s s' hc hfind
  cases n with
  | inner1 sh nc ps =>
      cases ps with
      | nil => rfl
      | cons p rest =>
          obtain ⟨c0, s0⟩ := p
          simp only [replaceChild]
          by_cases h0 : c0 = chunk
          · rw [if_pos h0]
            show (if c0 = c then some s' else none) =
              bfm_find_one_level_inner (bfmNode.inner1 sh nc ((c0, s0) :: rest)) c
            rw [if_neg (by omega)]
            show _ = (if c0 = c then some s0 else none)
            rw [if_neg (by omega)]
          · rw [if_neg h0]
  | inner4 sh nc ps =>
      show findPair (writePair ps chunk s') c = findPair ps c
      exact findPair_writePair_other chunk c s' hne ps
  | inner16 sh nc ps =>
      show findPair (writePair ps chunk s') c = findPair ps c
      exact findPair_writePair_other chunk c s' hne ps
  | inner32 sh nc ps =>
      show findPair (writePair ps chunk s') c = findPair ps c
      exact findPair_writePair_other chunk c s' hne ps
  | inner128 sh nc offs slots cnt =>
      obtain ⟨h1, h2, h3, h4, h5, h6, h7, h8⟩ := hc
      simp only [replaceChild]
      cases hoc : offs chunk with
      | none => rfl
      | some off =>
          simp only [bfm_find_one_level_inner]
          cases hco : offs c with
          | none => rfl
          | some o =>
              have hno : o ≠ off := by
                intro he
                subst he
                exact hne (h3 c chunk o hco hoc)
              simp only
              rw [if_neg hno]
  | innerMax sh nc slots cnt =>
      show (if c = chunk then some s' else slots c) =
        bfm_find_one_level_inner (bfmNode.innerMax sh nc slots cnt) c
      rw [if_neg hne]
      rfl
  | leaf1 nc ps => rfl
  | leaf4 nc ps => rfl
  | leaf16 nc ps => rfl
  | leaf32 nc ps => rfl
  | leaf128 nc offs vals cnt => rfl
  | leafMax nc bset vals cnt => rfl

/-- The descent of `bfm_set`: flag = prior presence, cleanliness is
preserved, and the new subtree reads as the old one with the stored
key's chunk path remapped to `val`. -/
theorem set_node_main (key val : Nat) : ∀ (d : Nat) (n : bfmNode), nodeClean true d n →
    (bfm_set_node d n key val).1 = (bfm_walk_node d n key).isSome ∧
    nodeClean true d (bfm_set_node d n key val).2 ∧
    ∀ key', bfm_walk_node d (bfm_set_node d n key val).2 key' =
      (if key' % 2 ^ (8 * (d + 1)) = key % 2 ^ (8 * (d + 1)) then some val
       else bfm_walk_node d n key') := by
  intro d
  induction d with
  | zero =>
      intro n hc
      have hok := nodeClean_nodeOk true 0 n hc
      have h0 : ∀ x : Nat, keyChunk x 0 = x % 2 ^ (8 * (0 + 1)) := by
        intro x
        unfold keyChunk
        norm_num
      refine ⟨set_leaf_flag (keyChunk key 0) val n, set_leaf_clean (keyChunk key 0) val
        (keyChunk_lt key 0) n hc, ?_⟩
      intro key'
      simp only [bfm_walk_node]
      by_cases hm : key' % 2 ^ (8 * (0 + 1)) = key % 2 ^ (8 * (0 + 1))
      · rw [if_pos hm]
        have hck : keyChunk key' 0 = keyChunk key 0 := by
          rw [h0, h0, hm]
        rw [hck]
        exact set_leaf_find_self (keyChunk key 0) val n hok
      · rw [if_neg hm]
        have hck : keyChunk key' 0 ≠ keyChunk key 0 := by
          rw [h0, h0]
          exact hm
        exact set_leaf_frame (keyChunk key 0) val (keyChunk key' 0) hck n hc
  | succ d ih =>
      intro n hc
      have hok := nodeClean_nodeOk true (d + 1) n hc
      cases hf : bfm_find_one_level_inner n (keyChunk key (d + 1)) with
      | none =>
          have heq : bfm_set_node (d + 1) n key val =
              (false, bfm_insert_inner n (bfm_chain key val d) (keyChunk key (d + 1))) := by
            simp [bfm_set_node, hf]
          rw [heq]
          refine ⟨?_, ?_, ?_⟩
          · simp [bfm_walk_node, hf]
          · exact insert_inner_clean d (keyChunk key (d + 1)) (keyChunk_lt key (d + 1))
              n (bfm_chain key val d) hc hf (chain_clean true key val d)
              (by rw [chain_entries])
          · intro key'
            by_cases hck : keyChunk key' (d + 1) = keyChunk key (d + 1)
            · have hself := find_insert_self (bfm_chain key val d) (keyChunk key (d + 1)) n
                (nodeOk_isInner d n hok) hf
              simp only [bfm_walk_node]
              rw [hck, hself]
              simp only
              rw [walk_setNodeChunk, walk_chain_eq]
              by_cases hm : key' % 2 ^ (8 * (d + 1)) = key % 2 ^ (8 * (d + 1))
              · rw [if_pos hm, if_pos ((mod_succ_eq_iff key key' (d + 1)).2 ⟨hck, hm⟩)]
              · rw [if_neg hm,
                  if_neg (fun hcon => hm ((mod_succ_eq_iff key key' (d + 1)).1 hcon).2)]
                rw [hf]
            · simp only [bfm_walk_node]
              rw [insert_inner_frame d (keyChunk key (d + 1)) (keyChunk key' (d + 1)) hck
                n (bfm_chain key val d) hc hf]
              rw [if_neg (fun hcon => hck ((mod_succ_eq_iff key key' (d + 1)).1 hcon).1)]
      | some slot =>
          have hsclean := nodeClean_find_child true d n slot _ hc hf
          have hrec := ih slot hsclean.1
          have heq : bfm_set_node (d + 1) n key val =
              ((bfm_set_node d slot key val).1,
                replaceChild n (keyChunk key (d + 1)) (bfm_set_node d slot key val).2) := by
            simp [bfm_set_node, hf]
          rw [heq]
          refine ⟨?_, ?_, ?_⟩
          · rw [show ((bfm_set_node d slot key val).1,
                replaceChild n (keyChunk key (d + 1)) (bfm_set_node d slot key val).2).1 =
                (bfm_set_node d slot key val).1 from rfl]
            rw [hrec.1]
            simp only [bfm_walk_node]
            rw [hf]
          · have hentries : 1 ≤ nodeEntries d (bfm_set_node d slot key val).2 := by
              apply walk_hit_entries true key d _ hrec.2.1
              rw [hrec.2.2 key, if_pos rfl]
              rfl
            exact replaceChild_clean true d _ (keyChunk_lt key (d + 1)) n slot _ hc hf
              hrec.2.1 hentries
          · intro key'
            by_cases hck : keyChunk key' (d + 1) = keyChunk key (d + 1)
            · have hfr : bfm_find_one_level_inner
                  (replaceChild n (keyChunk key (d + 1)) (bfm_set_node d slot key val).2)
                  (keyChunk key' (d + 1)) = some (bfm_set_node d slot key val).2 := by
                rw [hck]
                exact find_replace_self _ _ n slot hf
              simp only [bfm_walk_node]
              rw [hfr]
              simp only
              rw [hrec.2.2 key']
              by_cases hm : key' % 2 ^ (8 * (d + 1)) = key % 2 ^ (8 * (d + 1))
              · rw [if_pos hm, if_pos ((mod_succ_eq_iff key key' (d + 1)).2 ⟨hck, hm⟩)]
              · rw [if_neg hm,
                  if_neg (fun hcon => hm ((mod_succ_eq_iff key key' (d + 1)).1 hcon).2)]
                rw [hck, hf]
            · have hfr := replaceChild_frame true d (keyChunk key (d + 1))
                (keyChunk key' (d + 1)) hck n slot (bfm_set_node d slot key val).2 hc hf
              simp only [bfm_walk_node]
              rw [hfr]
              rw [if_neg (fun hcon => hck ((mod_succ_eq_iff key key' (d + 1)).1 hcon).1)]

theorem wrapRootN_succ : ∀ (k : Nat) (r : bfmNode),
    wrapRootN (k + 1) r =
      bfmNode.inner1 (nodeShift r + 8 * (k + 1)) 0 [(0, wrapRootN k r)] := by
  intro k
  induction k with
  | zero =>
      intro r
      show wrapRootN 0 (bfmNode.inner1 (nodeShift r + 8) 0 [(0, r)]) = _
      simp [wrapRootN]
  | succ k ih =>
      intro r
      show wrapRootN (k + 1) (bfmNode.inner1 (nodeShift r + 8) 0 [(0, r)]) = _
      rw [ih]
      simp only [nodeShift]
      rw [show wrapRootN (k + 1) r =
        wrapRootN k (bfmNode.inner1 (nodeShift r + 8) 0 [(0, r)]) from rfl]
      congr 1
      omega

theorem highZero_split (key' d k : Nat) :
    key' / 2 ^ (8 * (d + 1)) % 2 ^ (8 * (k + 1)) = 0 ↔
      (keyChunk key' (d + k + 1) = 0 ∧ key' / 2 ^ (8 * (d + 1)) % 2 ^ (8 * k) = 0) := by
  have hpow : (2 : Nat) ^ (8 * (k + 1)) = 2 ^ (8 * k) * 256 := by
    rw [show 8 * (k + 1) = 8 * k + 8 by ring, pow_add]
    norm_num
  rw [hpow, mod_mul_eq_zero_iff _ _ _ (Nat.pos_pow_of_pos _ (by omega))]
  have hch : keyChunk key' (d + k + 1) = key' / 2 ^ (8 * (d + 1)) / 2 ^ (8 * k) % 256 := by
    unfold keyChunk
    rw [Nat.div_div_eq_div_mul, ← pow_add]
    rw [show 8 * (d + 1) + 8 * k = 8 * (d + k + 1) by ring]
  rw [hch]
  exact and_comm

/-- The walk through the wrapping levels succeeds exactly when all the
key chunks above the old root's levels are zero, and then continues in
the old root. -/
theorem walk_wrap (key' : Nat) : ∀ (k d : Nat) (r : bfmNode),
    bfm_walk_node (d + k) (wrapRootN k r) key' =
      if key' / 2 ^ (8 * (d + 1)) % 2 ^ (8 * k) = 0 then bfm_walk_node d r key'
      else none := by
  intro k
  induction k with
  | zero =>
      intro d r
      simp [wrapRootN, Nat.mod_one]
  | succ k ihk =>
      intro d r
      rw [wrapRootN_succ]
      have hwalk : bfm_walk_node (d + (k + 1))
          (bfmNode.inner1 (nodeShift r + 8 * (k + 1)) 0 [(0, wrapRootN k r)]) key' =
          if keyChunk key' (d + k + 1) = 0 then bfm_walk_node (d + k) (wrapRootN k r) key'
          else none := by
        show bfm_walk_node ((d + k) + 1) _ key' = _
        simp only [bfm_walk_node, bfm_find_one_level_inner]
        by_cases h0 : keyChunk key' (d + k + 1) = 0
        · rw [if_pos h0]
          rw [if_pos h0.symm]
        · rw [if_neg h0]
          rw [if_neg (fun h => h0 h.symm)]
      rw [hwalk, ihk d r]
      by_cases hz : key' / 2 ^ (8 * (d + 1)) % 2 ^ (8 * (k + 1)) = 0
      · obtain ⟨hc0, hlow⟩ := (highZero_split key' d k).1 hz
        rw [if_pos hc0, if_pos hlow, if_pos hz]
      · by_cases hc0 : keyChunk key' (d + k + 1) = 0
        · have hlow : ¬key' / 2 ^ (8 * (d + 1)) % 2 ^ (8 * k) = 0 :=
            fun hl => hz ((highZero_split key' d k).2 ⟨hc0, hl⟩)
          rw [if_pos hc0, if_neg hlow, if_neg hz]
        · rw [if_neg hc0, if_neg hz]

theorem wrapRootN_clean (pk : Bool) : ∀ (k d : Nat) (r : bfmNode), nodeClean pk d r →
    1 ≤ nodeEntries d r →
    nodeClean pk (d + k) (wrapRootN k r) ∧
      nodeEntries (d + k) (wrapRootN k r) = nodeEntries d r := by
  intro k
  induction k with
  | zero => intro d r h he; exact ⟨h, rfl⟩
  | succ k ihk =>
      intro d r h he
      obtain ⟨hcl, hent⟩ := ihk d r h he
      rw [wrapRootN_succ]
      constructor
      · show nodeClean pk ((d + k) + 1) _
        refine ⟨by simp, by simp, ?_⟩
        intro p hp
        simp at hp
        subst hp
        exact ⟨by omega, hcl, by rw [hent]; exact he⟩
      · show innerEntriesWith (nodeEntries (d + k)) _ = _
        simp only [innerEntriesWith, List.map_cons, List.map_nil, List.sum_cons,
          List.sum_nil]
        omega

/-- `bfm_set_empty` builds a clean one-entry tree that reads back
exactly the stored key. -/
theorem set_empty_main (key val : Nat) (hk : key < 2 ^ 64) :
    treeClean true (bfm_set_empty key val).2 ∧
    (bfm_set_empty key val).1 = false ∧
    ∀ key', key' < 2 ^ 64 →
      bfm_lookup (bfm_set_empty key val).2 key' =
        if key' = key then (true, val) else (false, 0) := by
  have hleaf : key < 256 →
      treeClean true (⟨some (bfmNode.leaf1 0 [(keyChunk key 0, val)]),
        bfm_maxval_shift 0⟩ : bfmTree) ∧
      ∀ key', key' < 2 ^ 64 →
        bfm_lookup (⟨some (bfmNode.leaf1 0 [(keyChunk key 0, val)]),
          bfm_maxval_shift 0⟩ : bfmTree) key' =
          if key' = key then (true, val) else (false, 0) := by
    intro hkey
    have hkc : keyChunk key 0 = key := by
      unfold keyChunk
      simp [Nat.mod_eq_of_lt hkey]
    constructor
    · intro r hr
      simp only [Option.some_inj] at hr
      subst hr
      simp only [nodeShift, Nat.zero_div, Nat.zero_mod]
      refine ⟨⟨by simp, by simp, ?_⟩, trivial, by omega, trivial, by simp [nodeEntries, leafEntries]⟩
      intro p hp
      simp at hp
      subst hp
      exact keyChunk_lt key 0
    · intro key' hk64
      simp only [bfm_lookup]
      by_cases hgt : bfm_maxval_shift 0 < key'
      · rw [if_pos hgt]
        rw [bfm_maxval_shift_eq 0 (by omega)] at hgt
        rw [if_neg (by omega : ¬key' = key)]
      · rw [if_neg hgt]
        rw [bfm_maxval_shift_eq 0 (by omega)] at hgt
        have hk256 : key' < 256 := by
          simp only [pow_succ, pow_zero] at hgt
          omega
        have hkc' : keyChunk key' 0 = key' := by
          unfold keyChunk
          simp [Nat.mod_eq_of_lt hk256]
        simp only [nodeShift, Nat.zero_div, bfm_walk_node, bfm_find_one_level_leaf]
        by_cases he : key' = key
        · subst he
          rw [if_pos rfl, if_pos rfl]
        · have hcc : ¬keyChunk key 0 = keyChunk key' 0 := by
            rw [hkc, hkc']
            exact fun h => he h.symm
          rw [if_neg hcc, if_neg he]
  by_cases hz : key = 0
  · subst hz
    have h := hleaf (by omega)
    exact ⟨h.1, rfl, h.2⟩
  · obtain ⟨hm8, h56, hhi, hlo⟩ := shift_facts key (by omega) hk
    by_cases hs0 : pg_leftmost_one_pos64 key / 8 * 8 = 0
    · have hkey : key < 256 := by
        rw [hs0] at hhi
        simpa using hhi
      have heq2 : bfm_set_empty key val =
          ((false : Bool), ⟨some (bfmNode.leaf1 0 [(keyChunk key 0, val)]),
            bfm_maxval_shift 0⟩) := by
        simp [bfm_set_empty, hz, hs0, bfm_set_leaf]
      rw [heq2]
      have h := hleaf hkey
      exact ⟨h.1, rfl, h.2⟩
    · simp only [bfm_set_empty, hz, if_false, ite_false]
      generalize hSdef : pg_leftmost_one_pos64 key / 8 * 8 = S at hm8 h56 hhi hlo hs0
      obtain ⟨d, hd⟩ : ∃ d, S / 8 = d + 1 := ⟨S / 8 - 1, by omega⟩
      have hS8 : S = 8 * (d + 1) := by omega
      have hS8plus : 8 * (d + 1 + 1) = S + 8 := by omega
      simp only [hs0, if_false, ite_false]
      rw [insert_into_empty_inner1]
      refine ⟨?_, trivial, ?_⟩
      · intro r hr
        simp only [Option.some_inj] at hr
        subst hr
        simp only [nodeShift]
        refine ⟨?_, hm8, h56, trivial, ?_⟩
        · rw [hd]
          simp only [Nat.add_sub_cancel]
          refine ⟨by simp, by simp, ?_⟩
          intro p hp
          simp at hp
          subst hp
          refine ⟨keyChunk_lt key (d + 1), ?_, ?_⟩
          · exact (nodeClean_setNodeChunk true _ d _).2 (chain_clean true key val d)
          · rw [nodeEntries_setNodeChunk, chain_entries]
        · rw [hd]
          simp only [Nat.add_sub_cancel]
          show 1 ≤ innerEntriesWith (nodeEntries d) _
          simp only [innerEntriesWith, List.map_cons, List.map_nil, List.sum_cons,
            List.sum_nil]
          rw [nodeEntries_setNodeChunk, chain_entries]
          omega
      · intro key' hk64'
        simp only [bfm_lookup]
        have hmax_eq := bfm_maxval_shift_eq S h56
        by_cases hgt : bfm_maxval_shift S < key'
        · rw [if_pos hgt]
          have hkey_le : key ≤ bfm_maxval_shift S := le_maxval_shift key S h56 hhi
          rw [if_neg (by omega : ¬key' = key)]
        · rw [if_neg hgt]
          have hk'lt : key' < 2 ^ (S + 8) := by
            rw [hmax_eq] at hgt
            have hone : (1 : Nat) ≤ 2 ^ (S + 8) := Nat.one_le_two_pow
            omega
          simp only [nodeShift]
          rw [hd]
          simp only [Nat.add_sub_cancel, bfm_walk_node, bfm_find_one_level_inner]
          by_cases hck : keyChunk key (d + 1) = keyChunk key' (d + 1)
          · rw [if_pos hck]
            simp only
            rw [walk_setNodeChunk, walk_chain_eq]
            by_cases hm : key' % 2 ^ (8 * (d + 1)) = key % 2 ^ (8 * (d + 1))
            · rw [if_pos hm]
              have heqk : key' = key := by
                have h2 := (mod_succ_eq_iff key key' (d + 1)).2 ⟨hck.symm, hm⟩
                have hb1 : key' % 2 ^ (8 * (d + 1 + 1)) = key' :=
                  Nat.mod_eq_of_lt (by rw [hS8plus]; exact hk'lt)
                have hb2 : key % 2 ^ (8 * (d + 1 + 1)) = key :=
                  Nat.mod_eq_of_lt (by rw [hS8plus]; exact hhi)
                rw [hb1, hb2] at h2
                exact h2
              rw [if_pos heqk]
            · rw [if_neg hm]
              have hne : key' ≠ key := by
                intro he
                subst he
                exact hm rfl
              rw [if_neg hne]
          · rw [if_neg hck]
            have hne : key' ≠ key := by
              intro he
              subst he
              exact hck rfl
            rw [if_neg hne]

theorem nodeShift_inner4 (sh nc : Nat) (ps : List (Nat × bfmNode)) :
    nodeShift (bfmNode.inner4 sh nc ps) = sh := rfl

theorem keyChunk_pos_ge (key' m : Nat) (h : 1 ≤ keyChunk key' m) : 2 ^ (8 * m) ≤ key' := by
  unfold keyChunk at h
  by_contra hcon
  push_neg at hcon
  rw [Nat.div_eq_of_lt hcon] at h
  simp at h

/-- `bfm_set_shallow` extends the height cleanly; the new tree reads
the inserted key and behaves as before on every other key. -/
theorem set_shallow_main (r : bfmNode) (key val : Nat)
    (hc : nodeClean true (nodeShift r / 8) r) (hm8 : nodeShift r % 8 = 0)
    (hns : nodeShift r ≤ 56) (hent : 1 ≤ nodeEntries (nodeShift r / 8) r)
    (hgt : bfm_maxval_shift (nodeShift r) < key) (hk : key < 2 ^ 64) :
    treeClean true (bfm_set_shallow r key val).2 ∧
    (bfm_set_shallow r key val).1 = false ∧
    ∀ key', key' < 2 ^ 64 →
      bfm_lookup (bfm_set_shallow r key val).2 key' =
        if key' = key then (true, val)
        else bfm_lookup ⟨some r, bfm_maxval_shift (nodeShift r)⟩ key' := by
  have hz : key ≠ 0 := by
    intro h
    subst h
    omega
  obtain ⟨hm8', h56', hhi, hlo⟩ := shift_facts key (by omega) hk
  simp only [bfm_set_shallow, hz, if_false, ite_false]
  generalize hSdef : pg_leftmost_one_pos64 key / 8 * 8 = S at hm8' h56' hhi hlo ⊢
  have hkey_ge : 2 ^ (nodeShift r + 8) ≤ key := by
    rw [bfm_maxval_shift_eq _ hns] at hgt
    omega
  have hpow : nodeShift r + 8 < S + 8 := by
    by_contra hcon
    push_neg at hcon
    have : (2 : Nat) ^ (S + 8) ≤ 2 ^ (nodeShift r + 8) := Nat.pow_le_pow_right (by omega) hcon
    omega
  have hSge : nodeShift r + 8 ≤ S := by omega
  obtain ⟨k1, hk1⟩ : ∃ k1, (S - nodeShift r) / 8 = k1 + 1 :=
    ⟨(S - nodeShift r) / 8 - 1, by omega⟩
  obtain ⟨d, hdS⟩ : ∃ d, S / 8 = d + 1 := ⟨S / 8 - 1, by omega⟩
  have hdr : nodeShift r / 8 + k1 = d := by omega
  have hS8 : S = 8 * (d + 1) := by omega
  have hS8plus : 8 * (d + 1 + 1) = S + 8 := by omega
  have hct1 : 1 ≤ keyChunk key (S / 8) := (keyChunk_top_pos key S hm8' hlo hhi).1
  have hctd : 1 ≤ keyChunk key (d + 1) := by
    rw [hdS] at hct1
    exact hct1
  have hwrap_eq : wrapRootN ((S - nodeShift r) / 8) r =
      bfmNode.inner1 (nodeShift r + 8 * (k1 + 1)) 0 [(0, wrapRootN k1 r)] := by
    rw [hk1, wrapRootN_succ]
  have hshiftS : nodeShift r + 8 * (k1 + 1) = S := by omega
  have hins_eq : bfm_insert_inner (wrapRootN ((S - nodeShift r) / 8) r)
      (bfm_chain key val (S / 8 - 1)) (keyChunk key (S / 8)) =
      bfmNode.inner4 S 0
        (insPairLe [((0 : Nat), wrapRootN k1 r)] (keyChunk key (S / 8))
          (setNodeChunk (bfm_chain key val (S / 8 - 1)) (keyChunk key (S / 8)))) := by
    rw [hwrap_eq]
    show bfmNode.inner4 (nodeShift r + 8 * (k1 + 1)) 0 _ = _
    rw [hshiftS]
  have hse : search_le [0] (keyChunk key (S / 8)) = 1 := by
    show (if keyChunk key (S / 8) ≤ 0 then 0 else search_le [] (keyChunk key (S / 8)) + 1) = 1
    rw [if_neg (by omega)]
    rfl
  have hlist : insPairLe [((0 : Nat), wrapRootN k1 r)] (keyChunk key (S / 8))
      (setNodeChunk (bfm_chain key val (S / 8 - 1)) (keyChunk key (S / 8))) =
      [((0 : Nat), wrapRootN k1 r),
       (keyChunk key (S / 8),
        setNodeChunk (bfm_chain key val (S / 8 - 1)) (keyChunk key (S / 8)))] := by
    unfold insPairLe
    simp only [List.map_cons, List.map_nil]
    rw [hse]
    rfl
  obtain ⟨hW1clean, hW1ent⟩ := wrapRootN_clean true k1 (nodeShift r / 8) r hc hent
  rw [hdr] at hW1clean hW1ent
  refine ⟨?_, trivial, ?_⟩
  · intro r0 hr0
    simp only [Option.some_inj] at hr0
    subst hr0
    rw [hins_eq, hlist]
    rw [nodeShift_inner4]
    rw [hdS]
    simp only [Nat.add_sub_cancel]
    refine ⟨?_, hm8', h56', trivial, ?_⟩
    · refine ⟨?_, by simp, ?_⟩
      · simp only [List.map_cons, List.map_nil]
        rw [hdS] at hct1
        simp [List.nodup_cons]
        omega
      · intro p hp
        simp only [List.mem_cons, List.mem_singleton] at hp
        rcases hp with rfl | hp2
        · exact ⟨by omega, hW1clean, by rw [hW1ent]; exact hent⟩
        · simp at hp2
          subst hp2
          refine ⟨keyChunk_lt key (d + 1), ?_, ?_⟩
          · exact (nodeClean_setNodeChunk true _ d _).2 (chain_clean true key val d)
          · rw [nodeEntries_setNodeChunk, chain_entries]
    · show 1 ≤ innerEntriesWith (nodeEntries d) _
      simp only [innerEntriesWith, List.map_cons, List.map_nil, List.sum_cons, List.sum_nil]
      rw [nodeEntries_setNodeChunk, chain_entries]
      omega
  · intro key' hk64'
    simp only [bfm_lookup]
    by_cases hgt' : bfm_maxval_shift S < key'
    · rw [if_pos hgt']
      have hkle : key ≤ bfm_maxval_shift S := le_maxval_shift key S h56' hhi
      rw [if_neg (by omega : ¬key' = key)]
      have hold : bfm_maxval_shift (nodeShift r) < key' := by
        have hp2 : (2 : Nat) ^ (nodeShift r + 8) ≤ 2 ^ (S + 8) :=
          Nat.pow_le_pow_right (by omega) (by omega)
        rw [bfm_maxval_shift_eq _ hns]
        rw [bfm_maxval_shift_eq _ h56'] at hgt'
        omega
      rw [if_pos hold]
    · rw [if_neg hgt']
      have hk'lt : key' < 2 ^ (S + 8) := by
        rw [bfm_maxval_shift_eq _ h56'] at hgt'
        have hone : (1 : Nat) ≤ 2 ^ (S + 8) := Nat.one_le_two_pow
        omega
      rw [hins_eq, hlist]
      rw [nodeShift_inner4]
      rw [hdS]
      simp only [Nat.add_sub_cancel]
      simp only [bfm_walk_node, bfm_find_one_level_inner, findPair]
      by_cases hck0 : keyChunk key' (d + 1) = 0
      · rw [if_pos hck0.symm]
        simp only
        have hwd : bfm_walk_node d (wrapRootN k1 r) key' =
            bfm_walk_node (nodeShift r / 8 + k1) (wrapRootN k1 r) key' := by
          rw [hdr]
        rw [hwd, walk_wrap]
        have hexp : 8 * (nodeShift r / 8 + 1) = nodeShift r + 8 := by omega
        rw [hexp]
        by_cases holdlt : key' < 2 ^ (nodeShift r + 8)
        · rw [if_pos (by rw [Nat.div_eq_of_lt holdlt]; simp)]
          have hkne : key' ≠ key := by omega
          rw [if_neg hkne]
          have hng : ¬bfm_maxval_shift (nodeShift r) < key' := by
            rw [bfm_maxval_shift_eq _ hns]
            omega
          rw [if_neg hng]
        · push_neg at holdlt
          have hy : key' / 2 ^ (nodeShift r + 8) < 2 ^ (8 * (k1 + 1)) := by
            rw [Nat.div_lt_iff_lt_mul (Nat.pos_pow_of_pos _ (by omega))]
            calc key' < 2 ^ (S + 8) := hk'lt
              _ = 2 ^ (8 * (k1 + 1)) * 2 ^ (nodeShift r + 8) := by
                  rw [← pow_add]
                  congr 1
                  omega
          have hcond : ¬key' / 2 ^ (nodeShift r + 8) % 2 ^ (8 * k1) = 0 := by
            intro hcz
            have hcomb : key' / 2 ^ (8 * (nodeShift r / 8 + 1)) % 2 ^ (8 * (k1 + 1)) = 0 := by
              apply (highZero_split key' (nodeShift r / 8) k1).2
              constructor
              · rw [show nodeShift r / 8 + k1 + 1 = d + 1 from by omega]
                exact hck0
              · rw [hexp]
                exact hcz
            rw [hexp, Nat.mod_eq_of_lt hy] at hcomb
            have hge1 : 1 ≤ key' / 2 ^ (nodeShift r + 8) :=
              (Nat.one_le_div_iff (Nat.pos_pow_of_pos _ (by omega))).2 holdlt
            omega
          rw [if_neg hcond]
          have hkne : key' ≠ key := by
            intro he
            subst he
            omega
          rw [if_neg hkne]
          have hog : bfm_maxval_shift (nodeShift r) < key' := by
            rw [bfm_maxval_shift_eq _ hns]
            have hone : (1 : Nat) ≤ 2 ^ (nodeShift r + 8) := Nat.one_le_two_pow
            omega
          rw [if_pos hog]
      · rw [if_neg (fun h => hck0 h.symm)]
        by_cases hckt : keyChunk key (d + 1) = keyChunk key' (d + 1)
        · rw [if_pos hckt]
          simp only
          rw [walk_setNodeChunk, walk_chain_eq]
          by_cases hm : key' % 2 ^ (8 * (d + 1)) = key % 2 ^ (8 * (d + 1))
          · rw [if_pos hm]
            have heqk : key' = key := by
              have h2 := (mod_succ_eq_iff key key' (d + 1)).2 ⟨hckt.symm, hm⟩
              have hb1 : key' % 2 ^ (8 * (d + 1 + 1)) = key' :=
                Nat.mod_eq_of_lt (by rw [hS8plus]; exact hk'lt)
              have hb2 : key % 2 ^ (8 * (d + 1 + 1)) = key :=
                Nat.mod_eq_of_lt (by rw [hS8plus]; exact hhi)
              rw [hb1, hb2] at h2
              exact h2
            rw [if_pos heqk]
          · rw [if_neg hm]
            have hkne : key' ≠ key := fun he => hm (he ▸ rfl)
            rw [if_neg hkne]
            have hbig : 2 ^ (8 * (d + 1)) ≤ key' := by
              apply keyChunk_pos_ge
              rw [← hckt]
              exact hctd
            have hog : bfm_maxval_shift (nodeShift r) < key' := by
              rw [bfm_maxval_shift_eq _ hns]
              have hp2 : (2 : Nat) ^ (nodeShift r + 8) ≤ 2 ^ (8 * (d + 1)) :=
                Nat.pow_le_pow_right (by omega) (by omega)
              have hone : (1 : Nat) ≤ 2 ^ (nodeShift r + 8) := Nat.one_le_two_pow
              omega
            rw [if_pos hog]
        · rw [if_neg hckt]
          have hbig : 2 ^ (8 * (d + 1)) ≤ key' := by
            apply keyChunk_pos_ge
            omega
          have hkne : key' ≠ key := by
            intro he
            subst he
            exact hckt rfl
          rw [if_neg hkne]
          have hog : bfm_maxval_shift (nodeShift r) < key' := by
            rw [bfm_maxval_shift_eq _ hns]
            have hp2 : (2 : Nat) ^ (nodeShift r + 8) ≤ 2 ^ (8 * (d + 1)) :=
              Nat.pow_le_pow_right (by omega) (by omega)
            have hone : (1 : Nat) ≤ 2 ^ (nodeShift r + 8) := Nat.one_le_two_pow
            omega
          rw [if_pos hog]

/-- `bfm_set` on a clean tree: stays clean, reports prior presence, and
the lookup function is updated exactly at the written key. -/
theorem bfm_set_main (t : bfmTree) (key val : Nat) (hct : treeClean true t)
    (hk : key < 2 ^ 64) :
    treeClean true (bfm_set t key val).2 ∧
    (bfm_set t key val).1 = (bfm_lookup t key).1 ∧
    ∀ key', key' < 2 ^ 64 →
      bfm_lookup (bfm_set t key val).2 key' =
        if key' = key then (true, val) else bfm_lookup t key' := by
  cases hr : t.rnode with
  | none =>
      have heq : bfm_set t key val = bfm_set_empty key val := by
        unfold bfm_set
        rw [hr]
      have hlk : ∀ key', bfm_lookup t key' = (false, 0) := by
        intro key'
        unfold bfm_lookup
        rw [hr]
      obtain ⟨h1, h2, h3⟩ := set_empty_main key val hk
      rw [heq]
      refine ⟨h1, ?_, ?_⟩
      · rw [h2, hlk key]
      · intro key' hk'
        rw [h3 key' hk', hlk key']
  | some r =>
      obtain ⟨hcl, hm8, hns, hmax, hent⟩ := hct r hr
      by_cases hgt : t.maxval < key
      · have heq : bfm_set t key val = bfm_set_shallow r key val := by
          unfold bfm_set
          rw [hr]
          simp [hgt]
        rw [heq]
        obtain ⟨h1, h2, h3⟩ := set_shallow_main r key val hcl hm8 hns hent (hmax ▸ hgt) hk
        refine ⟨h1, ?_, ?_⟩
        · rw [h2]
          have hmiss : bfm_lookup t key = (false, 0) := by
            unfold bfm_lookup
            rw [hr]
            simp [hgt]
          rw [hmiss]
        · intro key' hk'
          rw [h3 key' hk']
          have htt : (⟨some r, bfm_maxval_shift (nodeShift r)⟩ : bfmTree) = t := by
            rw [← hmax, ← hr]
          rw [htt]
      · have hres := set_node_main key val (nodeShift r / 8) r hcl
        have heq : bfm_set t key val =
            ((bfm_set_node (nodeShift r / 8) r key val).1,
              ⟨some (bfm_set_node (nodeShift r / 8) r key val).2, t.maxval⟩) := by
          unfold bfm_set
          rw [hr]
          simp [hgt]
        rw [heq]
        have hsh : nodeShift (bfm_set_node (nodeShift r / 8) r key val).2 = nodeShift r :=
          nodeShift_set_node key val (nodeShift r / 8) r
        have hkey_lt : key < 2 ^ (nodeShift r + 8) := by
          rw [hmax, bfm_maxval_shift_eq _ hns] at hgt
          have hone : (1 : Nat) ≤ 2 ^ (nodeShift r + 8) := Nat.one_le_two_pow
          omega
        refine ⟨?_, ?_, ?_⟩
        · intro r0 hr0
          simp only [Option.some_inj] at hr0
          subst hr0
          rw [hsh]
          refine ⟨hres.2.1, hm8, hns, hmax, ?_⟩
          apply walk_hit_entries true key _ _ hres.2.1
          rw [hres.2.2 key, if_pos rfl]
          rfl
        · have hRf : (bfm_lookup t key).1 =
              (bfm_walk_node (nodeShift r / 8) r key).isSome := by
            have hR : bfm_lookup t key =
                (if t.maxval < key then ((false : Bool), 0)
                 else match bfm_walk_node (nodeShift r / 8) r key with
                   | some v => (true, v)
                   | none => ((false : Bool), 0)) := by
              unfold bfm_lookup
              rw [hr]
            rw [hR, if_neg hgt]
            cases bfm_walk_node (nodeShift r / 8) r key <;> rfl
          rw [hRf]
          exact hres.1
        · intro key' hk'
          by_cases hgt' : t.maxval < key'
          · have hL : bfm_lookup (⟨some (bfm_set_node (nodeShift r / 8) r key val).2,
                t.maxval⟩ : bfmTree) key' = (false, 0) := by
              unfold bfm_lookup
              simp [hgt']
            have hR : bfm_lookup t key' = (false, 0) := by
              unfold bfm_lookup
              rw [hr]
              simp [hgt']
            rw [hL, if_neg (by omega : ¬key' = key), hR]
          · have hexp8 : 8 * (nodeShift r / 8 + 1) = nodeShift r + 8 := by omega
            have hky'lt : key' < 2 ^ (nodeShift r + 8) := by
              rw [hmax, bfm_maxval_shift_eq _ hns] at hgt'
              have hone : (1 : Nat) ≤ 2 ^ (nodeShift r + 8) := Nat.one_le_two_pow
              omega
            have hwalk := hres.2.2 key'
            rw [hexp8, Nat.mod_eq_of_lt hky'lt, Nat.mod_eq_of_lt hkey_lt] at hwalk
            have hL : bfm_lookup (⟨some (bfm_set_node (nodeShift r / 8) r key val).2,
                t.maxval⟩ : bfmTree) key' =
                (match bfm_walk_node (nodeShift r / 8)
                    (bfm_set_node (nodeShift r / 8) r key val).2 key' with
                  | some v => (true, v)
                  | none => ((false : Bool), 0)) := by
              show (if t.maxval < key' then ((false : Bool), 0)
                else match bfm_walk_node
                    (nodeShift (bfm_set_node (nodeShift r / 8) r key val).2 / 8)
                    (bfm_set_node (nodeShift r / 8) r key val).2 key' with
                  | some v => (true, v)
                  | none => ((false : Bool), 0)) = _
              rw [hsh, if_neg hgt']
            rw [hL, hwalk]
            by_cases he : key' = key
            · rw [if_pos he, if_pos he]
            · rw [if_neg he, if_neg he]
              have hR : bfm_lookup t key' =
                  (if t.maxval < key' then ((false : Bool), 0)
                   else match bfm_walk_node (nodeShift r / 8) r key' with
                     | some v => (true, v)
                     | none => ((false : Bool), 0)) := by
                unfold bfm_lookup
                rw [hr]
              rw [hR, if_neg hgt']

theorem keyChunk0 (x : Nat) : keyChunk x 0 = x % 2 ^ (8 * (0 + 1)) := by
  unfold keyChunk
  norm_num

/-- Removing a present chunk from a clean leaf: either the leaf is
freed and it held only that chunk, or it survives clean with one entry
fewer, that chunk missing, and every other chunk unchanged. -/
theorem delete_leaf_node_main (chunk : Nat) : ∀ (n : bfmNode),
    nodeClean false 0 n → (bfm_find_one_level_leaf n chunk).isSome →
    ((bfm_delete_leaf_node n chunk = none →
        ∀ c, (bfm_find_one_level_leaf n c).isSome → c = chunk) ∧
     (∀ n', bfm_delete_leaf_node n chunk = some n' →
        nodeClean false 0 n' ∧ 1 ≤ nodeEntries 0 n' ∧
        bfm_find_one_level_leaf n' chunk = none ∧
        ∀ c, c ≠ chunk → bfm_find_one_level_leaf n' c = bfm_find_one_level_leaf n c)) := by
  intro n hc hhit
  cases n with
  | leaf1 nc ps =>
      obtain ⟨hnd, hlen, hmem⟩ := hc
      cases ps with
      | nil => simp [bfm_find_one_level_leaf] at hhit
      | cons p rest =>
          obtain ⟨c0, v0⟩ := p
          have hrest : rest = [] := by
            cases rest with
            | nil => rfl
            | cons q qs => simp at hlen
          subst hrest
          have hc0 : c0 = chunk := by
            by_contra hcon
            simp only [bfm_find_one_level_leaf] at hhit
            rw [if_neg hcon] at hhit
            simp at hhit
          subst hc0
          constructor
          · intro _ c hcs
            simp only [bfm_find_one_level_leaf] at hcs
            by_cases he : c0 = c
            · omega
            · rw [if_neg he] at hcs
              simp at hcs
          · intro n' hdel
            simp only [bfm_delete_leaf_node, erasePair, if_pos rfl, ite_true,
              List.length_nil] at hdel
            cases hdel
  | leaf4 nc ps =>
      obtain ⟨hnd, hlen, hmem⟩ := hc
      have hfp : findPair ps chunk ≠ none := by
        intro hnone
        simp only [bfm_find_one_level_leaf] at hhit
        rw [hnone] at hhit
        simp at hhit
      have hlen' : (erasePair ps chunk).length + 1 = ps.length :=
        length_erasePair_of_found chunk ps hfp
      have hlen1 : 1 ≤ ps.length := by
        cases hps : ps with
        | nil => rw [hps] at hfp; simp [findPair] at hfp
        | cons p l => simp [hps]
      constructor
      · intro hdel c hcs
        simp only [bfm_delete_leaf_node] at hdel
        split at hdel
        · rename_i hz
          have hone : ps.length = 1 := by omega
          cases hps : ps with
          | nil => rw [hps] at hone; simp at hone
          | cons p l =>
              obtain ⟨c0, v0⟩ := p
              have hl : l = [] := by
                rw [hps] at hone
                simpa using hone
              subst hl
              rw [hps] at hfp hcs
              simp only [bfm_find_one_level_leaf, findPair] at hfp hcs
              by_cases h0 : c0 = chunk
              · by_cases h1 : c0 = c
                · omega
                · rw [if_neg h1] at hcs
                  simp [findPair] at hcs
              · rw [if_neg h0] at hfp
                simp [findPair] at hfp
        · cases hdel
      · intro n' hdel
        simp only [bfm_delete_leaf_node] at hdel
        split at hdel
        · cases hdel
        · rename_i hz
          simp only [Option.some_inj] at hdel
          subst hdel
          refine ⟨⟨map_fst_erasePair_nodup _ _ hnd, ?_, ?_⟩, ?_, ?_, ?_⟩
          · have := List.Sublist.length_le (erasePair_sublist chunk ps)
            omega
          · intro p hp
            exact hmem p (mem_erasePair _ _ _ hp)
          · show 1 ≤ (erasePair ps chunk).length
            omega
          · exact findPair_erasePair_self chunk ps hnd
          · intro c hcne
            exact findPair_erasePair_other chunk c (fun h => hcne h) ps
  | leaf16 nc ps =>
      obtain ⟨hnd, hlen, hmem⟩ := hc
      have hfp : findPair ps chunk ≠ none := by
        intro hnone
        simp only [bfm_find_one_level_leaf] at hhit
        rw [hnone] at hhit
        simp at hhit
      have hlen' : (erasePair ps chunk).length + 1 = ps.length :=
        length_erasePair_of_found chunk ps hfp
      have hlen1 : 1 ≤ ps.length := by
        cases hps : ps with
        | nil => rw [hps] at hfp; simp [findPair] at hfp
        | cons p l => simp [hps]
      constructor
      · intro hdel c hcs
        simp only [bfm_delete_leaf_node] at hdel
        split at hdel
        · rename_i hz
          have hone : ps.length = 1 := by omega
          cases hps : ps with
          | nil => rw [hps] at hone; simp at hone
          | cons p l =>
              obtain ⟨c0, v0⟩ := p
              have hl : l = [] := by
                rw [hps] at hone
                simpa using hone
              subst hl
              rw [hps] at hfp hcs
              simp only [bfm_find_one_level_leaf, findPair] at hfp hcs
              by_cases h0 : c0 = chunk
              · by_cases h1 : c0 = c
                · omega
                · rw [if_neg h1] at hcs
                  simp [findPair] at hcs
              · rw [if_neg h0] at hfp
                simp [findPair] at hfp
        · cases hdel
      · intro n' hdel
        simp only [bfm_delete_leaf_node] at hdel
        split at hdel
        · cases hdel
        · simp only [Option.some_inj] at hdel
          subst hdel
          refine ⟨⟨map_fst_erasePair_nodup _ _ hnd, ?_, ?_⟩, ?_, ?_, ?_⟩
          · have := List.Sublist.length_le (erasePair_sublist chunk ps)
            omega
          · intro p hp
            exact hmem p (mem_erasePair _ _ _ hp)
          · show 1 ≤ (erasePair ps chunk).length
            omega
          · exact findPair_erasePair_self chunk ps hnd
          · intro c hcne
            exact findPair_erasePair_other chunk c (fun h => hcne h) ps
  | leaf32 nc ps =>
      obtain ⟨hnd, hlen, hmem⟩ := hc
      have hfp : findPair ps chunk ≠ none := by
        intro hnone
        simp only [bfm_find_one_level_leaf] at hhit
        rw [hnone] at hhit
        simp at hhit
      have hlen' : (erasePair ps chunk).length + 1 = ps.length :=
        length_erasePair_of_found chunk ps hfp
      have hlen1 : 1 ≤ ps.length := by
        cases hps : ps with
        | nil => rw [hps] at hfp; simp [findPair] at hfp
        | cons p l => simp [hps]
      constructor
      · intro hdel c hcs
        simp only [bfm_delete_leaf_node] at hdel
        split at hdel
        · rename_i hz
          have hone : ps.length = 1 := by omega
          cases hps : ps with
          | nil => rw [hps] at hone; simp at hone
          | cons p l =>
              obtain ⟨c0, v0⟩ := p
              have hl : l = [] := by
                rw [hps] at hone
                simpa using hone
              subst hl
              rw [hps] at hfp hcs
              simp only [bfm_find_one_level_leaf, findPair] at hfp hcs
              by_cases h0 : c0 = chunk
              · by_cases h1 : c0 = c
                · omega
                · rw [if_neg h1] at hcs
                  simp [findPair] at hcs
              · rw [if_neg h0] at hfp
                simp [findPair] at hfp
        · cases hdel
      · intro n' hdel
        simp only [bfm_delete_leaf_node] at hdel
        split at hdel
        · cases hdel
        · simp only [Option.some_inj] at hdel
          subst hdel
          refine ⟨⟨map_fst_erasePair_nodup _ _ hnd, ?_, ?_⟩, ?_, ?_, ?_⟩
          · have := List.Sublist.length_le (erasePair_sublist chunk ps)
            omega
          · intro p hp
            exact hmem p (mem_erasePair _ _ _ hp)
          · show 1 ≤ (erasePair ps chunk).length
            omega
          · exact findPair_erasePair_self chunk ps hnd
          · intro c hcne
            exact findPair_erasePair_other chunk c (fun h => hcne h) ps
  | leaf128 nc offs vals cnt =>
      obtain ⟨h1, h2, h3, h4, h5⟩ := hc
      have hoc : (offs chunk).isSome := by
        simp only [bfm_find_one_level_leaf] at hhit
        cases ho : offs chunk with
        | none => rw [ho] at hhit; simp at hhit
        | some off => rfl
      have hchunk : chunk < 256 := by
        by_contra hge
        push_neg at hge
        rw [h4 chunk hge] at hoc
        simp at hoc
      have hcnt1 : 1 ≤ cnt := by
        rw [h1]
        exact one_le_filter_of_true _ 256 chunk hchunk hoc
      constructor
      · intro hdel c hcs
        simp only [bfm_delete_leaf_node] at hdel
        split at hdel
        · rename_i hz
          have hone : offsLive offs = 1 := by omega
          simp only [bfm_find_one_level_leaf] at hcs
          have hocs : (offs c).isSome := by
            cases ho : offs c with
            | none => rw [ho] at hcs; simp at hcs
            | some off => rfl
          have hclt : c < 256 := by
            by_contra hge
            push_neg at hge
            rw [h4 c hge] at hocs
            simp at hocs
          exact filter_length_one_unique _ 256 c chunk hone hclt hocs hchunk hoc
        · cases hdel
      · intro n' hdel
        simp only [bfm_delete_leaf_node] at hdel
        split at hdel
        · cases hdel
        · rename_i hz
          simp only [Option.some_inj] at hdel
          subst hdel
          have hcount := offsLive_update_none offs chunk hchunk hoc
          refine ⟨⟨?_, by omega, ?_, ?_, fun hcon => absurd hcon (by simp)⟩, ?_, ?_, ?_⟩
          · omega
          · intro c1 c2 o hx1 hx2
            have hx1' : (if c1 = chunk then none else offs c1) = some o := hx1
            have hx2' : (if c2 = chunk then none else offs c2) = some o := hx2
            by_cases hc1 : c1 = chunk
            · rw [if_pos hc1] at hx1'
              cases hx1'
            · by_cases hc2 : c2 = chunk
              · rw [if_pos hc2] at hx2'
                cases hx2'
              · rw [if_neg hc1] at hx1'
                rw [if_neg hc2] at hx2'
                exact h3 c1 c2 o hx1' hx2'
          · intro c hge
            show (if c = chunk then none else offs c) = none
            by_cases hck : c = chunk
            · rw [if_pos hck]
            · rw [if_neg hck]
              exact h4 c hge
          · show 1 ≤ offsLive _
            omega
          · simp [bfm_find_one_level_leaf]
          · intro c hcne
            simp [bfm_find_one_level_leaf, hcne]
  | leafMax nc bset vals cnt =>
      obtain ⟨h1, h2⟩ := hc
      have hbc : bset chunk = true := by
        simp only [bfm_find_one_level_leaf] at hhit
        by_cases hb : bset chunk = true
        · exact hb
        · rw [if_neg hb] at hhit
          simp at hhit
      have hchunk : chunk < 256 := by
        by_contra hge
        push_neg at hge
        rw [h2 chunk hge] at hbc
        cases hbc
      have hcnt1 : 1 ≤ cnt := by
        rw [h1]
        exact one_le_filter_of_true _ 256 chunk hchunk hbc
      constructor
      · intro hdel c hcs
        simp only [bfm_delete_leaf_node] at hdel
        split at hdel
        · rename_i hz
          have hone : bitsLive bset = 1 := by omega
          simp only [bfm_find_one_level_leaf] at hcs
          have hbcs : bset c = true := by
            by_cases hb : bset c = true
            · exact hb
            · rw [if_neg hb] at hcs
              simp at hcs
          have hclt : c < 256 := by
            by_contra hge
            push_neg at hge
            rw [h2 c hge] at hbcs
            cases hbcs
          exact filter_length_one_unique _ 256 c chunk hone hclt hbcs hchunk hbc
        · cases hdel
      · intro n' hdel
        simp only [bfm_delete_leaf_node] at hdel
        split at hdel
        · cases hdel
        · rename_i hz
          simp only [Option.some_inj] at hdel
          subst hdel
          have hcount := bitsLive_update_false bset chunk hchunk hbc
          refine ⟨⟨?_, ?_⟩, ?_, ?_, ?_⟩
          · omega
          · intro c hge
            show (if c = chunk then false else bset c) = false
            by_cases hck : c = chunk
            · rw [if_pos hck]
            · rw [if_neg hck]
              exact h2 c hge
          · show 1 ≤ bitsLive _
            omega
          · simp [bfm_find_one_level_leaf]
          · intro c hcne
            simp [bfm_find_one_level_leaf, hcne]
  | inner1 sh nc ps => exact absurd hc (by simp [nodeClean])
  | inner4 sh nc ps => exact absurd hc (by simp [nodeClean])
  | inner16 sh nc ps => exact absurd hc (by simp [nodeClean])
  | inner32 sh nc ps => exact absurd hc (by simp [nodeClean])
  | inner128 sh nc offs slots cnt => exact absurd hc (by simp [nodeClean])
  | innerMax sh nc slots cnt => exact absurd hc (by simp [nodeClean])

/-- Removing a present chunk from a clean inner node: either the node
is freed and it held only that chunk, or it survives clean with the
chunk missing, other chunks unchanged, and at least one child left. -/
theorem delete_inner_node_main (d : Nat) (chunk : Nat) : ∀ (n s : bfmNode),
    nodeClean false (d + 1) n → bfm_find_one_level_inner n chunk = some s →
    ((bfm_delete_inner_node n chunk = none →
        ∀ c s', bfm_find_one_level_inner n c = some s' → c = chunk) ∧
     (∀ n', bfm_delete_inner_node n chunk = some n' →
        nodeClean false (d + 1) n' ∧ 1 ≤ nodeEntries (d + 1) n' ∧
        bfm_find_one_level_inner n' chunk = none ∧
        ∀ c, c ≠ chunk → bfm_find_one_level_inner n' c = bfm_find_one_level_inner n c)) := by
  intro n s hc hhit
  cases n with
  | inner1 sh nc ps =>
      obtain ⟨hnd, hlen, hmem⟩ := hc
      cases ps with
      | nil => simp [bfm_find_one_level_inner] at hhit
      | cons p rest =>
          obtain ⟨c0, s0⟩ := p
          have hrest : rest = [] := by
            cases rest with
            | nil => rfl
            | cons q qs => simp at hlen
          subst hrest
          have hc0 : c0 = chunk := by
            by_contra hcon
            simp only [bfm_find_one_level_inner] at hhit
            rw [if_neg hcon] at hhit
            cases hhit
          subst hc0
          constructor
          · intro _ c s' hcs
            simp only [bfm_find_one_level_inner] at hcs
            by_cases he : c0 = c
            · omega
            · rw [if_neg he] at hcs
              cases hcs
          · intro n' hdel
            simp only [bfm_delete_inner_node, erasePair, if_pos rfl, ite_true,
              List.length_nil] at hdel
            cases hdel
  | inner4 sh nc ps =>
      obtain ⟨hnd, hlen, hmem⟩ := hc
      have hfp : findPair ps chunk ≠ none := by
        intro hnone
        simp only [bfm_find_one_level_inner] at hhit
        rw [hnone] at hhit
        cases hhit
      have hlen' : (erasePair ps chunk).length + 1 = ps.length :=
        length_erasePair_of_found chunk ps hfp
      constructor
      · intro hdel c s' hcs
        simp only [bfm_delete_inner_node] at hdel
        split at hdel
        · rename_i hz
          have hone : ps.length = 1 := by omega
          cases hps : ps with
          | nil => rw [hps] at hone; simp at hone
          | cons p l =>
              obtain ⟨c0, s0⟩ := p
              have hl : l = [] := by
                rw [hps] at hone
                simpa using hone
              subst hl
              rw [hps] at hfp hcs
              simp only [bfm_find_one_level_inner, findPair] at hfp hcs
              by_cases h0 : c0 = chunk
              · by_cases h1 : c0 = c
                · omega
                · rw [if_neg h1] at hcs
                  simp [findPair] at hcs
              · rw [if_neg h0] at hfp
                simp [findPair] at hfp
        · cases hdel
      · intro n' hdel
        simp only [bfm_delete_inner_node] at hdel
        split at hdel
        · cases hdel
        · rename_i hz
          simp only [Option.some_inj] at hdel
          subst hdel
          refine ⟨⟨map_fst_erasePair_nodup _ _ hnd, ?_, ?_⟩, ?_, ?_, ?_⟩
          · have := List.Sublist.length_le (erasePair_sublist chunk ps)
            omega
          · intro p hp
            exact hmem p (mem_erasePair _ _ _ hp)
          · cases herase : erasePair ps chunk with
            | nil => rw [herase] at hz; simp at hz
            | cons q l =>
                have hq : q ∈ erasePair ps chunk := by
                  rw [herase]
                  exact List.mem_cons_self q l
                show 1 ≤ ((q :: l).map (fun p => nodeEntries d p.2)).sum
                exact one_le_sum_map (fun p => nodeEntries d p.2) (q :: l) q
                  (List.mem_cons_self q l) (hmem q (mem_erasePair _ _ _ hq)).2.2
          · exact findPair_erasePair_self chunk ps hnd
          · intro c hcne
            exact findPair_erasePair_other chunk c (fun h => hcne h) ps
  | inner16 sh nc ps =>
      obtain ⟨hnd, hlen, hmem⟩ := hc
      have hfp : findPair ps chunk ≠ none := by
        intro hnone
        simp only [bfm_find_one_level_inner] at hhit
        rw [hnone] at hhit
        cases hhit
      have hlen' : (erasePair ps chunk).length + 1 = ps.length :=
        length_erasePair_of_found chunk ps hfp
      constructor
      · intro hdel c s' hcs
        simp only [bfm_delete_inner_node] at hdel
        split at hdel
        · rename_i hz
          have hone : ps.length = 1 := by omega
          cases hps : ps with
          | nil => rw [hps] at hone; simp at hone
          | cons p l =>
              obtain ⟨c0, s0⟩ := p
              have hl : l = [] := by
                rw [hps] at hone
                simpa using hone
              subst hl
              rw [hps] at hfp hcs
              simp only [bfm_find_one_level_inner, findPair] at hfp hcs
              by_cases h0 : c0 = chunk
              · by_cases h1 : c0 = c
                · omega
                · rw [if_neg h1] at hcs
                  simp [findPair] at hcs
              · rw [if_neg h0] at hfp
                simp [findPair] at hfp
        · cases hdel
      · intro n' hdel
        simp only [bfm_delete_inner_node] at hdel
        split at hdel
        · cases hdel
        · rename_i hz
          simp only [Option.some_inj] at hdel
          subst hdel
          refine ⟨⟨map_fst_erasePair_nodup _ _ hnd, ?_, ?_⟩, ?_, ?_, ?_⟩
          · have := List.Sublist.length_le (erasePair_sublist chunk ps)
            omega
          · intro p hp
            exact hmem p (mem_erasePair _ _ _ hp)
          · cases herase : erasePair ps chunk with
            | nil => rw [herase] at hz; simp at hz
            | cons q l =>
                have hq : q ∈ erasePair ps chunk := by
                  rw [herase]
                  exact List.mem_cons_self q l
                show 1 ≤ ((q :: l).map (fun p => nodeEntries d p.2)).sum
                exact one_le_sum_map (fun p => nodeEntries d p.2) (q :: l) q
                  (List.mem_cons_self q l) (hmem q (mem_erasePair _ _ _ hq)).2.2
          · exact findPair_erasePair_self chunk ps hnd
          · intro c hcne
            exact findPair_erasePair_other chunk c (fun h => hcne h) ps
  | inner32 sh nc ps =>
      obtain ⟨hnd, hlen, hmem⟩ := hc
      have hfp : findPair ps chunk ≠ none := by
        intro hnone
        simp only [bfm_find_one_level_inner] at hhit
        rw [hnone] at hhit
        cases hhit
      have hlen' : (erasePair ps chunk).length + 1 = ps.length :=
        length_erasePair_of_found chunk ps hfp
      constructor
      · intro hdel c s' hcs
        simp only [bfm_delete_inner_node] at hdel
        split at hdel
        · rename_i hz
          have hone : ps.length = 1 := by omega
          cases hps : ps with
          | nil => rw [hps] at hone; simp at hone
          | cons p l =>
              obtain ⟨c0, s0⟩ := p
              have hl : l = [] := by
                rw [hps] at hone
                simpa using hone
              subst hl
              rw [hps] at hfp hcs
              simp only [bfm_find_one_level_inner, findPair] at hfp hcs
              by_cases h0 : c0 = chunk
              · by_cases h1 : c0 = c
                · omega
                · rw [if_neg h1] at hcs
                  simp [findPair] at hcs
              · rw [if_neg h0] at hfp
                simp [findPair] at hfp
        · cases hdel
      · intro n' hdel
        simp only [bfm_delete_inner_node] at hdel
        split at hdel
        · cases hdel
        · rename_i hz
          simp only [Option.some_inj] at hdel
          subst hdel
          refine ⟨⟨map_fst_erasePair_nodup _ _ hnd, ?_, ?_⟩, ?_, ?_, ?_⟩
          · have := List.Sublist.length_le (erasePair_sublist chunk ps)
            omega
          · intro p hp
            exact hmem p (mem_erasePair _ _ _ hp)
          · cases herase : erasePair ps chunk with
            | nil => rw [herase] at hz; simp at hz
            | cons q l =>
                have hq : q ∈ erasePair ps chunk := by
                  rw [herase]
                  exact List.mem_cons_self q l
                show 1 ≤ ((q :: l).map (fun p => nodeEntries d p.2)).sum
                exact one_le_sum_map (fun p => nodeEntries d p.2) (q :: l) q
                  (List.mem_cons_self q l) (hmem q (mem_erasePair _ _ _ hq)).2.2
          · exact findPair_erasePair_self chunk ps hnd
          · intro c hcne
            exact findPair_erasePair_other chunk c (fun h => hcne h) ps
  | inner128 sh nc offs slots cnt =>
      obtain ⟨h1, h2, h3, h4, h5, h6, h7, h8⟩ := hc
      have hoff : ∃ off, offs chunk = some off ∧ slots off = some s := by
        simp only [bfm_find_one_level_inner] at hhit
        cases ho : offs chunk with
        | none => rw [ho] at hhit; cases hhit
        | some off =>
            rw [ho] at hhit
            exact ⟨off, rfl, hhit⟩
      obtain ⟨off, hoc, hsoff⟩ := hoff
      have hchunk : chunk < 256 := by
        by_contra hge
        push_neg at hge
        rw [h4 chunk hge] at hoc
        cases hoc
      have hcnt1 : 1 ≤ cnt := by
        rw [h1]
        exact one_le_filter_of_true _ 256 chunk hchunk (by rw [hoc]; rfl)
      have heq : bfm_delete_inner_node (bfmNode.inner128 sh nc offs slots cnt) chunk =
          if cnt - 1 = 0 then none
          else some (bfmNode.inner128 sh nc (fun c => if c = chunk then none else offs c)
            (fun o => if o = off then none else slots o) (cnt - 1)) := by
        simp [bfm_delete_inner_node, hoc]
      rw [heq]
      constructor
      · intro hdel c s' hcs
        split at hdel
        · rename_i hz
          have hone : offsLive offs = 1 := by omega
          simp only [bfm_find_one_level_inner] at hcs
          have hocs : (offs c).isSome := by
            cases ho : offs c with
            | none => rw [ho] at hcs; cases hcs
            | some o => rfl
          have hclt : c < 256 := by
            by_contra hge
            push_neg at hge
            rw [h4 c hge] at hocs
            simp at hocs
          exact filter_length_one_unique _ 256 c chunk hone hclt hocs hchunk
            (by rw [hoc]; rfl)
        · cases hdel
      · intro n' hdel
        split at hdel
        · cases hdel
        · rename_i hz
          simp only [Option.some_inj] at hdel
          subst hdel
          have hcount := offsLive_update_none offs chunk hchunk (by rw [hoc]; rfl)
          have hinj' : offsInj (fun c => if c = chunk then none else offs c) := by
            intro c1 c2 o hx1 hx2
            have hx1' : (if c1 = chunk then none else offs c1) = some o := hx1
            have hx2' : (if c2 = chunk then none else offs c2) = some o := hx2
            by_cases hc1 : c1 = chunk
            · rw [if_pos hc1] at hx1'
              cases hx1'
            · by_cases hc2 : c2 = chunk
              · rw [if_pos hc2] at hx2'
                cases hx2'
              · rw [if_neg hc1] at hx1'
                rw [if_neg hc2] at hx2'
                exact h3 c1 c2 o hx1' hx2'
          have hget : ∀ c o, (if c = chunk then none else offs c) = some o →
              c ≠ chunk ∧ offs c = some o ∧ o ≠ off := by
            intro c o hx
            by_cases hck : c = chunk
            · rw [if_pos hck] at hx
              cases hx
            · rw [if_neg hck] at hx
              refine ⟨hck, hx, ?_⟩
              intro hoo
              subst hoo
              exact hck (h3 c chunk o hx hoc)
          refine ⟨⟨?_, by omega, hinj', ?_, fun hcon => absurd hcon (by simp), ?_, ?_, ?_⟩,
            ?_, ?_, ?_⟩
          · omega
          · intro c hge
            show (if c = chunk then none else offs c) = none
            by_cases hck : c = chunk
            · rw [if_pos hck]
            · rw [if_neg hck]
              exact h4 c hge
          · intro o hs
            have hs' : (if o = off then none else slots o).isSome := hs
            by_cases hoo : o = off
            · rw [if_pos hoo] at hs'
              simp at hs'
            · rw [if_neg hoo] at hs'
              obtain ⟨c, hclt, hco⟩ := h6 o hs'
              have hcne : c ≠ chunk := by
                intro hck
                subst hck
                rw [hoc] at hco
                exact hoo (Option.some_inj.1 hco).symm
              refine ⟨c, hclt, ?_⟩
              show (if c = chunk then none else offs c) = some o
              rw [if_neg hcne]
              exact hco
          · intro c o hx
            obtain ⟨hck, hco, hone⟩ := hget c o hx
            obtain ⟨holt, hsome⟩ := h7 c o hco
            refine ⟨holt, ?_⟩
            show (if o = off then none else slots o).isSome = true
            rw [if_neg hone]
            exact hsome
          · intro o t hx
            have hx' : (if o = off then none else slots o) = some t := hx
            by_cases hoo : o = off
            · rw [if_pos hoo] at hx'
              cases hx'
            · rw [if_neg hoo] at hx'
              exact h8 o t hx'
          · have hlive : 1 ≤ offsLive (fun c => if c = chunk then none else offs c) := by
              omega
            obtain ⟨c, hclt, hsome⟩ := exists_true_of_filter_pos _ 256 hlive
            have hsome' : (if c = chunk then none else offs c : Option Nat).isSome = true :=
              hsome
            obtain ⟨o, hxo⟩ := Option.isSome_iff_exists.1 hsome'
            obtain ⟨hck, hco, hone⟩ := hget c o hxo
            obtain ⟨holt, _⟩ := h7 c o hco
            have hslot : ∃ t, slots o = some t := by
              obtain ⟨_, hsm⟩ := h7 c o hco
              cases hst : slots o with
              | none => rw [hst] at hsm; simp at hsm
              | some t => exact ⟨t, rfl⟩
            obtain ⟨t, hst⟩ := hslot
            have hst' : (if o = off then none else slots o) = some t := by
              rw [if_neg hone]
              exact hst
            exact one_le_sum_range
              (fun o2 => match (if o2 = off then none else slots o2 : Option bfmNode) with
                | some s2 => nodeEntries d s2
                | none => 0) 128 o holt (by
                  show 1 ≤ (match (if o = off then none else slots o : Option bfmNode) with
                    | some s2 => nodeEntries d s2
                    | none => 0)
                  rw [hst']
                  exact (h8 o t hst).2)
          · show (match (if chunk = chunk then none else offs chunk : Option Nat) with
              | some o => if o = off then none else slots o
              | none => none) = none
            rw [if_pos rfl]
          · intro c hcne
            show (match (if c = chunk then none else offs c : Option Nat) with
              | some o => if o = off then none else slots o
              | none => none) = bfm_find_one_level_inner
                (bfmNode.inner128 sh nc offs slots cnt) c
            rw [if_neg hcne]
            cases hco : offs c with
            | none => simp [bfm_find_one_level_inner, hco]
            | some o =>
                have hone : o ≠ off := by
                  intro hoo
                  subst hoo
                  exact hcne (h3 c chunk o hco hoc)
                simp [bfm_find_one_level_inner, hco, hone]
  | innerMax sh nc slots cnt =>
      obtain ⟨h1, h2, h3⟩ := hc
      have hsc : slots chunk = some s := hhit
      have hchunk : chunk < 256 := by
        by_contra hge
        push_neg at hge
        rw [h2 chunk hge] at hsc
        cases hsc
      have hcnt1 : 1 ≤ cnt := by
        rw [h1]
        exact one_le_filter_of_true _ 256 chunk hchunk (by rw [hsc]; rfl)
      constructor
      · intro hdel c s' hcs
        simp only [bfm_delete_inner_node] at hdel
        split at hdel
        · rename_i hz
          have hone : slotsLive slots = 1 := by omega
          have hscs : slots c = some s' := hcs
          have hclt : c < 256 := by
            by_contra hge
            push_neg at hge
            rw [h2 c hge] at hscs
            cases hscs
          exact filter_length_one_unique _ 256 c chunk hone hclt (by rw [hscs]; rfl)
            hchunk (by rw [hsc]; rfl)
        · cases hdel
      · intro n' hdel
        simp only [bfm_delete_inner_node] at hdel
        split at hdel
        · cases hdel
        · rename_i hz
          simp only [Option.some_inj] at hdel
          subst hdel
          have hcount := slotsLive_update_none slots chunk hchunk (by rw [hsc]; rfl)
          refine ⟨⟨?_, ?_, ?_⟩, ?_, ?_, ?_⟩
          · omega
          · intro c hge
            show (if c = chunk then none else slots c) = none
            by_cases hck : c = chunk
            · rw [if_pos hck]
            · rw [if_neg hck]
              exact h2 c hge
          · intro c t hx
            have hx' : (if c = chunk then none else slots c) = some t := hx
            by_cases hck : c = chunk
            · rw [if_pos hck] at hx'
              cases hx'
            · rw [if_neg hck] at hx'
              exact h3 c t hx'
          · have hlive : 1 ≤ slotsLive (fun c => if c = chunk then none else slots c) := by
              omega
            obtain ⟨c, hclt, hsome⟩ := exists_true_of_filter_pos _ 256 hlive
            have hsome' : (if c = chunk then none else slots c : Option bfmNode).isSome = true :=
              hsome
            obtain ⟨t, hxt⟩ := Option.isSome_iff_exists.1 hsome'
            have hck : c ≠ chunk := by
              intro hcc
              rw [if_pos hcc] at hxt
              cases hxt
            have hst : slots c = some t := by
              rw [if_neg hck] at hxt
              exact hxt
            exact one_le_sum_range
              (fun c2 => match (if c2 = chunk then none else slots c2 : Option bfmNode) with
                | some s2 => nodeEntries d s2
                | none => 0) 256 c hclt (by
                  show 1 ≤ (match (if c = chunk then none else slots c : Option bfmNode) with
                    | some s2 => nodeEntries d s2
                    | none => 0)
                  rw [hxt]
                  exact (h3 c t hst).2)
          · show (if chunk = chunk then none else slots chunk) = none
            rw [if_pos rfl]
          · intro c hcne
            show (if c = chunk then none else slots c) =
              bfm_find_one_level_inner (bfmNode.innerMax sh nc slots cnt) c
            rw [if_neg hcne]
            rfl
  | leaf1 nc ps => exact absurd hc (by simp [nodeClean])
  | leaf4 nc ps => exact absurd hc (by simp [nodeClean])
  | leaf16 nc ps => exact absurd hc (by simp [nodeClean])
  | leaf32 nc ps => exact absurd hc (by simp [nodeClean])
  | leaf128 nc offs vals cnt => exact absurd hc (by simp [nodeClean])
  | leafMax nc bset vals cnt => exact absurd hc (by simp [nodeClean])

/-- The delete recursion on a clean subtree: a miss leaves the node
untouched; a hit either frees the whole subtree (in which case `key`
was the only key stored, up to the bits this subtree distinguishes) or
returns a clean non-empty node holding exactly the old keys except
`key`'s equivalence class. -/
theorem delete_node_main (key : Nat) : ∀ (d : Nat) (n : bfmNode), nodeClean false d n →
    (((bfm_delete_node d n key).1 = false → (bfm_delete_node d n key).2 = some n) ∧
     ((bfm_delete_node d n key).1 = true →
       (((bfm_delete_node d n key).2 = none →
          ∀ key', (bfm_walk_node d n key').isSome →
            key' % 2 ^ (8 * (d + 1)) = key % 2 ^ (8 * (d + 1))) ∧
        (∀ n', (bfm_delete_node d n key).2 = some n' →
          nodeClean false d n' ∧ 1 ≤ nodeEntries d n' ∧
          ∀ key', bfm_walk_node d n' key' =
            if key' % 2 ^ (8 * (d + 1)) = key % 2 ^ (8 * (d + 1)) then none
            else bfm_walk_node d n key')))) := by
  intro d
  induction d with
  | zero =>
      intro n hc
      cases hf : bfm_find_one_level_leaf n (keyChunk key 0) with
      | none =>
          have heq : bfm_delete_node 0 n key = (false, some n) := by
            simp [bfm_delete_node, hf]
          rw [heq]
          exact ⟨fun _ => rfl, fun hyp => absurd hyp (by simp)⟩
      | some v =>
          have hhit : (bfm_find_one_level_leaf n (keyChunk key 0)).isSome := by
            rw [hf]
            rfl
          obtain ⟨hfr, hsur⟩ := delete_leaf_node_main (keyChunk key 0) n hc hhit
          have heq : bfm_delete_node 0 n key =
              (true, bfm_delete_leaf_node n (keyChunk key 0)) := by
            simp [bfm_delete_node, hf]
          rw [heq]
          refine ⟨fun hyp => absurd hyp (by simp), fun _ => ⟨?_, ?_⟩⟩
          · intro hnone key' hw
            have hck := hfr hnone (keyChunk key' 0) hw
            rw [← keyChunk0 key', ← keyChunk0 key]
            exact hck
          · intro n' hs
            obtain ⟨hclean, hent, hmiss, hframe⟩ := hsur n' hs
            refine ⟨hclean, hent, ?_⟩
            intro key'
            by_cases hck : keyChunk key' 0 = keyChunk key 0
            · have hmod : key' % 2 ^ (8 * (0 + 1)) = key % 2 ^ (8 * (0 + 1)) := by
                rw [← keyChunk0 key', ← keyChunk0 key]
                exact hck
              rw [if_pos hmod]
              show bfm_find_one_level_leaf n' (keyChunk key' 0) = none
              rw [hck]
              exact hmiss
            · have hmod : ¬(key' % 2 ^ (8 * (0 + 1)) = key % 2 ^ (8 * (0 + 1))) := by
                intro h
                apply hck
                rw [keyChunk0 key', keyChunk0 key]
                exact h
              rw [if_neg hmod]
              exact hframe (keyChunk key' 0) hck
  | succ d ih =>
      intro n hc
      cases hf : bfm_find_one_level_inner n (keyChunk key (d + 1)) with
      | none =>
          have heq : bfm_delete_node (d + 1) n key = (false, some n) := by
            simp [bfm_delete_node, hf]
          rw [heq]
          exact ⟨fun _ => rfl, fun hyp => absurd hyp (by simp)⟩
      | some slot =>
          obtain ⟨hcs, hes⟩ := nodeClean_find_child false d n slot _ hc hf
          have ihslot := ih slot hcs
          cases hrec : bfm_delete_node d slot key with
          | mk flag res =>
              rw [hrec] at ihslot
              cases flag with
              | false =>
                  have heq : bfm_delete_node (d + 1) n key = (false, some n) := by
                    simp [bfm_delete_node, hf, hrec]
                  rw [heq]
                  exact ⟨fun _ => rfl, fun hyp => absurd hyp (by simp)⟩
              | true =>
                  cases res with
                  | some slot' =>
                      have heq : bfm_delete_node (d + 1) n key =
                          (true, some (replaceChild n (keyChunk key (d + 1)) slot')) := by
                        simp [bfm_delete_node, hf, hrec]
                      rw [heq]
                      refine ⟨fun hyp => absurd hyp (by simp), fun _ => ⟨?_, ?_⟩⟩
                      · intro hnone
                        cases hnone
                      · intro n' hn'
                        simp only [Option.some_inj] at hn'
                        subst hn'
                        obtain ⟨hcl', hen', hchar⟩ := (ihslot.2 rfl).2 slot' rfl
                        have hclean' := replaceChild_clean false d (keyChunk key (d + 1))
                          (keyChunk_lt key (d + 1)) n slot slot' hc hf hcl' hen'
                        have hfrs := find_replace_self slot' (keyChunk key (d + 1)) n slot hf
                        refine ⟨hclean', le_trans hen'
                          (entries_ge_of_find false d _ slot' (keyChunk key (d + 1))
                            hclean' hfrs), ?_⟩
                        intro key'
                        by_cases hck : keyChunk key' (d + 1) = keyChunk key (d + 1)
                        · simp only [bfm_walk_node, hck, hfrs, hf]
                          rw [hchar key']
                          by_cases hmod :
                              key' % 2 ^ (8 * (d + 1)) = key % 2 ^ (8 * (d + 1))
                          · rw [if_pos hmod,
                              if_pos ((mod_succ_eq_iff key key' (d + 1)).2 ⟨hck, hmod⟩)]
                          · rw [if_neg hmod, if_neg (fun h =>
                              hmod ((mod_succ_eq_iff key key' (d + 1)).1 h).2)]
                        · have hbig : ¬(key' % 2 ^ (8 * (d + 1 + 1)) =
                              key % 2 ^ (8 * (d + 1 + 1))) := fun h =>
                            hck ((mod_succ_eq_iff key key' (d + 1)).1 h).1
                          have hfrm := replaceChild_frame false d (keyChunk key (d + 1))
                            (keyChunk key' (d + 1)) hck n slot slot' hc hf
                          simp only [bfm_walk_node]
                          rw [hfrm, if_neg hbig]
                  | none =>
                      have heq : bfm_delete_node (d + 1) n key =
                          (true, bfm_delete_inner_node n (keyChunk key (d + 1))) := by
                        simp [bfm_delete_node, hf, hrec]
                      rw [heq]
                      have hfreed := (ihslot.2 rfl).1 rfl
                      obtain ⟨hfr, hsur⟩ :=
                        delete_inner_node_main d (keyChunk key (d + 1)) n slot hc hf
                      refine ⟨fun hyp => absurd hyp (by simp), fun _ => ⟨?_, ?_⟩⟩
                      · intro hnone key' hw
                        have hw' : (match bfm_find_one_level_inner n (keyChunk key' (d + 1))
                            with
                            | some s => bfm_walk_node d s key'
                            | none => none).isSome := hw
                        cases hfind : bfm_find_one_level_inner n (keyChunk key' (d + 1)) with
                        | none =>
                            rw [hfind] at hw'
                            simp at hw'
                        | some s2 =>
                            rw [hfind] at hw'
                            have hceq := hfr hnone (keyChunk key' (d + 1)) s2 hfind
                            have hs2 : s2 = slot := by
                              rw [hceq, hf] at hfind
                              exact (Option.some_inj.1 hfind).symm
                            subst hs2
                            exact (mod_succ_eq_iff key key' (d + 1)).2
                              ⟨hceq, hfreed key' hw'⟩
                      · intro n' hdel
                        obtain ⟨hcl', hen', hmiss, hframe⟩ := hsur n' hdel
                        refine ⟨hcl', hen', ?_⟩
                        intro key'
                        by_cases hck : keyChunk key' (d + 1) = keyChunk key (d + 1)
                        · simp only [bfm_walk_node, hck, hmiss, hf]
                          by_cases hbig : key' % 2 ^ (8 * (d + 1 + 1)) =
                              key % 2 ^ (8 * (d + 1 + 1))
                          · rw [if_pos hbig]
                          · rw [if_neg hbig]
                            have hsmall : ¬(key' % 2 ^ (8 * (d + 1)) =
                                key % 2 ^ (8 * (d + 1))) := fun h =>
                              hbig ((mod_succ_eq_iff key key' (d + 1)).2 ⟨hck, h⟩)
                            cases hwn : bfm_walk_node d slot key' with
                            | none => rfl
                            | some v =>
                                exact absurd (hfreed key' (by rw [hwn]; rfl)) hsmall
                        · have hbig : ¬(key' % 2 ^ (8 * (d + 1 + 1)) =
                              key % 2 ^ (8 * (d + 1 + 1))) := fun h =>
                            hck ((mod_succ_eq_iff key key' (d + 1)).1 h).1
                          simp only [bfm_walk_node]
                          rw [hframe (keyChunk key' (d + 1)) hck, if_neg hbig]

theorem treeClean_weaken (t : bfmTree) (h : treeClean true t) : treeClean false t := by
  intro r hr
  obtain ⟨h1, h2, h3, h4, h5⟩ := h r hr
  exact ⟨nodeClean_weaken _ r h1, h2, h3, h4, h5⟩

/-- Top-level delete on a clean tree: the result is clean, the deleted
key misses afterwards, and every other key reads exactly as before. -/
theorem bfm_delete_main (t : bfmTree) (key : Nat) (hct : treeClean false t) :
    treeClean false (bfm_delete t key).2 ∧
    ∀ key', bfm_lookup (bfm_delete t key).2 key' =
      if key' = key then (false, 0) else bfm_lookup t key' := by
  cases hr : t.rnode with
  | none =>
      have heq : bfm_delete t key = (false, t) := by
        simp [bfm_delete, hr]
      rw [heq]
      refine ⟨hct, ?_⟩
      intro key'
      by_cases hk : key' = key
      · rw [if_pos hk]
        simp [bfm_lookup, hr]
      · rw [if_neg hk]
  | some r =>
      obtain ⟨hcr, hm8, hsle, hmax, hent⟩ := hct r hr
      by_cases hguard : t.maxval < key
      · have heq : bfm_delete t key = (false, t) := by
          simp [bfm_delete, hr, hguard]
        rw [heq]
        refine ⟨hct, ?_⟩
        intro key'
        by_cases hk : key' = key
        · rw [if_pos hk]
          subst hk
          simp [bfm_lookup, hr, hguard]
        · rw [if_neg hk]
      · obtain ⟨hm1, hm2⟩ := delete_node_main key (nodeShift r / 8) r hcr
        have hSmod : 8 * (nodeShift r / 8 + 1) = nodeShift r + 8 := by omega
        have hE1 : (1 : Nat) ≤ 2 ^ (nodeShift r + 8) := Nat.one_le_two_pow
        have hElt : 2 ^ (nodeShift r + 8) - 1 < 2 ^ 64 := by
          have hle : 2 ^ (nodeShift r + 8) ≤ 2 ^ 64 :=
            Nat.pow_le_pow_right (by omega) (by omega)
          omega
        have hmaxval : t.maxval = 2 ^ (nodeShift r + 8) - 1 := by
          rw [hmax]
          unfold bfm_maxval_shift
          exact Nat.mod_eq_of_lt hElt
        cases hdel : bfm_delete_node (nodeShift r / 8) r key with
        | mk flag res =>
            rw [hdel] at hm1 hm2
            have hflag := delete_node_flag key (nodeShift r / 8) r
            rw [hdel] at hflag
            cases flag with
            | false =>
                have heq : bfm_delete t key = (false, t) := by
                  simp [bfm_delete, hr, hguard, hdel]
                rw [heq]
                refine ⟨hct, ?_⟩
                intro key'
                by_cases hk : key' = key
                · rw [if_pos hk]
                  subst hk
                  have hwnone : bfm_walk_node (nodeShift r / 8) r key' = none := by
                    cases hw : bfm_walk_node (nodeShift r / 8) r key' with
                    | none => rfl
                    | some v =>
                        rw [hw] at hflag
                        cases hflag
                  simp [bfm_lookup, hr, hwnone]
                · rw [if_neg hk]
            | true =>
                have hfreedsome := hm2 rfl
                cases res with
                | none =>
                    have hfreed := hfreedsome.1 rfl
                    have heq : bfm_delete t key =
                        (true, (⟨none, t.maxval⟩ : bfmTree)) := by
                      simp [bfm_delete, hr, hguard, hdel]
                    rw [heq]
                    constructor
                    · intro r0 h0
                      simp at h0
                    · intro key'
                      have heqL :
                          bfm_lookup (⟨none, t.maxval⟩ : bfmTree) key' = (false, 0) := rfl
                      rw [heqL]
                      by_cases hk : key' = key
                      · rw [if_pos hk]
                      · rw [if_neg hk]
                        by_cases hg2 : t.maxval < key'
                        · simp [bfm_lookup, hr, hg2]
                        · have hwnone : bfm_walk_node (nodeShift r / 8) r key' = none := by
                            cases hw : bfm_walk_node (nodeShift r / 8) r key' with
                            | none => rfl
                            | some v =>
                                exfalso
                                have hmod := hfreed key' (by rw [hw]; rfl)
                                rw [hSmod] at hmod
                                have hkey' : key' < 2 ^ (nodeShift r + 8) := by omega
                                have hkey : key < 2 ^ (nodeShift r + 8) := by omega
                                rw [Nat.mod_eq_of_lt hkey', Nat.mod_eq_of_lt hkey] at hmod
                                exact hk hmod
                          simp [bfm_lookup, hr, hg2, hwnone]
                | some n' =>
                    obtain ⟨hcl', hen', hchar⟩ := hfreedsome.2 n' rfl
                    have hshift : nodeShift n' = nodeShift r := by
                      have hok := nodeClean_nodeOk false (nodeShift r / 8) r hcr
                      exact (delete_node_nodeOk key (nodeShift r / 8) r hok n'
                        (by rw [hdel])).2
                    have heq : bfm_delete t key =
                        (true, (⟨some n', t.maxval⟩ : bfmTree)) := by
                      simp [bfm_delete, hr, hguard, hdel]
                    rw [heq]
                    constructor
                    · intro r0 h0
                      have h0' : some n' = some r0 := h0
                      have hn : n' = r0 := Option.some_inj.1 h0'
                      subst hn
                      refine ⟨by rw [hshift]; exact hcl', by rw [hshift]; exact hm8,
                        by rw [hshift]; exact hsle, ?_, by rw [hshift]; exact hen'⟩
                      show t.maxval = bfm_maxval_shift (nodeShift n')
                      rw [hshift]
                      exact hmax
                    · intro key'
                      have heqL : bfm_lookup (⟨some n', t.maxval⟩ : bfmTree) key' =
                          if t.maxval < key' then (false, 0)
                          else match bfm_walk_node (nodeShift n' / 8) n' key' with
                            | some v => (true, v)
                            | none => (false, 0) := rfl
                      have hsh8 : nodeShift n' / 8 = nodeShift r / 8 := by rw [hshift]
                      rw [heqL, hsh8]
                      by_cases hg2 : t.maxval < key'
                      · rw [if_pos hg2]
                        by_cases hk : key' = key
                        · rw [if_pos hk]
                        · have heqR : bfm_lookup t key' = (false, 0) := by
                            simp [bfm_lookup, hr, hg2]
                          rw [if_neg hk, heqR]
                      · rw [if_neg hg2]
                        by_cases hmod : key' % 2 ^ (8 * (nodeShift r / 8 + 1)) =
                            key % 2 ^ (8 * (nodeShift r / 8 + 1))
                        · have hkey' : key' < 2 ^ (nodeShift r + 8) := by omega
                          have hkey : key < 2 ^ (nodeShift r + 8) := by omega
                          have hk : key' = key := by
                            rw [hSmod, Nat.mod_eq_of_lt hkey',
                              Nat.mod_eq_of_lt hkey] at hmod
                            exact hmod
                          rw [if_pos hk, hchar key', if_pos hmod]
                        · have hk : key' ≠ key := by
                            intro h
                            subst h
                            exact hmod rfl
                          rw [if_neg hk, hchar key', if_neg hmod]
                          have heqR : bfm_lookup t key' =
                              match bfm_walk_node (nodeShift r / 8) r key' with
                              | some v => (true, v)
                              | none => (false, 0) := by
                            simp [bfm_lookup, hr, hg2]
                          rw [heqR]

/-- A clean subtree holding at least one entry answers some key within
its address range. -/
theorem exists_walk_hit : ∀ (d : Nat) (n : bfmNode), nodeClean false d n →
    1 ≤ nodeEntries d n →
    ∃ key, key < 2 ^ (8 * (d + 1)) ∧ (bfm_walk_node d n key).isSome = true := by
  intro d
  induction d with
  | zero =>
      intro n hc he
      have h256 : (2 : Nat) ^ (8 * (0 + 1)) = 256 := by norm_num
      cases n with
      | leaf1 nc ps =>
          cases ps with
          | nil => simp [nodeEntries, leafEntries] at he
          | cons p rest =>
              obtain ⟨c0, v0⟩ := p
              obtain ⟨hnd, hlen, hmem⟩ := hc
              have hc0 : c0 < 256 := (hmem (c0, v0) (by simp))
              have hkc : keyChunk c0 0 = c0 := by
                unfold keyChunk
                simp [Nat.mod_eq_of_lt hc0]
              exact ⟨c0, by omega, by simp [bfm_walk_node, hkc, bfm_find_one_level_leaf]⟩
      | leaf4 nc ps =>
          cases ps with
          | nil => simp [nodeEntries, leafEntries] at he
          | cons p rest =>
              obtain ⟨c0, v0⟩ := p
              obtain ⟨hnd, hlen, hmem⟩ := hc
              have hc0 : c0 < 256 := (hmem (c0, v0) (by simp))
              have hkc : keyChunk c0 0 = c0 := by
                unfold keyChunk
                simp [Nat.mod_eq_of_lt hc0]
              exact ⟨c0, by omega,
                by simp [bfm_walk_node, hkc, bfm_find_one_level_leaf, findPair]⟩
      | leaf16 nc ps =>
          cases ps with
          | nil => simp [nodeEntries, leafEntries] at he
          | cons p rest =>
              obtain ⟨c0, v0⟩ := p
              obtain ⟨hnd, hlen, hmem⟩ := hc
              have hc0 : c0 < 256 := (hmem (c0, v0) (by simp))
              have hkc : keyChunk c0 0 = c0 := by
                unfold keyChunk
                simp [Nat.mod_eq_of_lt hc0]
              exact ⟨c0, by omega,
                by simp [bfm_walk_node, hkc, bfm_find_one_level_leaf, findPair]⟩
      | leaf32 nc ps =>
          cases ps with
          | nil => simp [nodeEntries, leafEntries] at he
          | cons p rest =>
              obtain ⟨c0, v0⟩ := p
              obtain ⟨hnd, hlen, hmem⟩ := hc
              have hc0 : c0 < 256 := (hmem (c0, v0) (by simp))
              have hkc : keyChunk c0 0 = c0 := by
                unfold keyChunk
                simp [Nat.mod_eq_of_lt hc0]
              exact ⟨c0, by omega,
                by simp [bfm_walk_node, hkc, bfm_find_one_level_leaf, findPair]⟩
      | leaf128 nc offs vals cnt =>
          have he' : 1 ≤ ((List.range 256).filter (fun c => (offs c).isSome)).length := he
          obtain ⟨c, hclt, hsome⟩ := exists_true_of_filter_pos _ 256 he'
          obtain ⟨o, ho⟩ := Option.isSome_iff_exists.1 hsome
          have hkc : keyChunk c 0 = c := by
            unfold keyChunk
            simp [Nat.mod_eq_of_lt hclt]
          exact ⟨c, by omega, by simp [bfm_walk_node, hkc, bfm_find_one_level_leaf, ho]⟩
      | leafMax nc bset vals cnt =>
          have he' : 1 ≤ ((List.range 256).filter (fun c => bset c)).length := he
          obtain ⟨c, hclt, hb⟩ := exists_true_of_filter_pos _ 256 he'
          have hkc : keyChunk c 0 = c := by
            unfold keyChunk
            simp [Nat.mod_eq_of_lt hclt]
          exact ⟨c, by omega, by simp [bfm_walk_node, hkc, bfm_find_one_level_leaf, hb]⟩
      | inner1 sh nc ps => exact absurd hc (by simp [nodeClean])
      | inner4 sh nc ps => exact absurd hc (by simp [nodeClean])
      | inner16 sh nc ps => exact absurd hc (by simp [nodeClean])
      | inner32 sh nc ps => exact absurd hc (by simp [nodeClean])
      | inner128 sh nc offs slots cnt => exact absurd hc (by simp [nodeClean])
      | innerMax sh nc slots cnt => exact absurd hc (by simp [nodeClean])
  | succ d ih =>
      intro n hc he
      have hB : 0 < 2 ^ (8 * (d + 1)) := Nat.pos_pow_of_pos _ (by omega)
      have h2B : 256 * 2 ^ (8 * (d + 1)) = 2 ^ (8 * (d + 1 + 1)) := by
        have h8 : 8 * (d + 1 + 1) = 8 + 8 * (d + 1) := by omega
        rw [h8, pow_add]
        norm_num
      cases n with
      | inner1 sh nc ps =>
          cases ps with
          | nil => simp [nodeEntries, innerEntriesWith] at he
          | cons p rest =>
              obtain ⟨c0, s0⟩ := p
              obtain ⟨hnd, hlen, hmem⟩ := hc
              obtain ⟨hc0, hcs, hes⟩ := hmem (c0, s0) (by simp)
              obtain ⟨key0, hk0, hw0⟩ := ih s0 hcs hes
              have hmul : c0 * 2 ^ (8 * (d + 1)) ≤ 255 * 2 ^ (8 * (d + 1)) :=
                Nat.mul_le_mul_right _ (by omega)
              refine ⟨key0 + c0 * 2 ^ (8 * (d + 1)), by omega, ?_⟩
              have hkc : keyChunk (key0 + c0 * 2 ^ (8 * (d + 1))) (d + 1) = c0 := by
                unfold keyChunk
                rw [Nat.add_mul_div_right _ _ hB, Nat.div_eq_of_lt hk0]
                simp [Nat.mod_eq_of_lt hc0]
              have hmod : (key0 + c0 * 2 ^ (8 * (d + 1))) % 2 ^ (8 * (d + 1)) = key0 := by
                rw [Nat.add_mul_mod_self_right]
                exact Nat.mod_eq_of_lt hk0
              have hfind : bfm_find_one_level_inner
                  (bfmNode.inner1 sh nc ((c0, s0) :: rest)) c0 = some s0 := by
                simp [bfm_find_one_level_inner]
              have hw : bfm_walk_node (d + 1) (bfmNode.inner1 sh nc ((c0, s0) :: rest))
                  (key0 + c0 * 2 ^ (8 * (d + 1))) =
                  bfm_walk_node d s0 (key0 + c0 * 2 ^ (8 * (d + 1))) := by
                show (match bfm_find_one_level_inner (bfmNode.inner1 sh nc ((c0, s0) :: rest))
                    (keyChunk (key0 + c0 * 2 ^ (8 * (d + 1))) (d + 1)) with
                  | some slot => bfm_walk_node d slot (key0 + c0 * 2 ^ (8 * (d + 1)))
                  | none => none) = _
                rw [hkc, hfind]
              rw [hw]
              have hwm := walk_mod d s0 (key0 + c0 * 2 ^ (8 * (d + 1)))
              rw [hmod] at hwm
              rw [← hwm]
              exact hw0
      | inner4 sh nc ps =>
          cases ps with
          | nil => simp [nodeEntries, innerEntriesWith] at he
          | cons p rest =>
              obtain ⟨c0, s0⟩ := p
              obtain ⟨hnd, hlen, hmem⟩ := hc
              obtain ⟨hc0, hcs, hes⟩ := hmem (c0, s0) (by simp)
              obtain ⟨key0, hk0, hw0⟩ := ih s0 hcs hes
              have hmul : c0 * 2 ^ (8 * (d + 1)) ≤ 255 * 2 ^ (8 * (d + 1)) :=
                Nat.mul_le_mul_right _ (by omega)
              refine ⟨key0 + c0 * 2 ^ (8 * (d + 1)), by omega, ?_⟩
              have hkc : keyChunk (key0 + c0 * 2 ^ (8 * (d + 1))) (d + 1) = c0 := by
                unfold keyChunk
                rw [Nat.add_mul_div_right _ _ hB, Nat.div_eq_of_lt hk0]
                simp [Nat.mod_eq_of_lt hc0]
              have hmod : (key0 + c0 * 2 ^ (8 * (d + 1))) % 2 ^ (8 * (d + 1)) = key0 := by
                rw [Nat.add_mul_mod_self_right]
                exact Nat.mod_eq_of_lt hk0
              have hfind : bfm_find_one_level_inner
                  (bfmNode.inner4 sh nc ((c0, s0) :: rest)) c0 = some s0 := by
                simp [bfm_find_one_level_inner, findPair]
              have hw : bfm_walk_node (d + 1) (bfmNode.inner4 sh nc ((c0, s0) :: rest))
                  (key0 + c0 * 2 ^ (8 * (d + 1))) =
                  bfm_walk_node d s0 (key0 + c0 * 2 ^ (8 * (d + 1))) := by
                show (match bfm_find_one_level_inner (bfmNode.inner4 sh nc ((c0, s0) :: rest))
                    (keyChunk (key0 + c0 * 2 ^ (8 * (d + 1))) (d + 1)) with
                  | some slot => bfm_walk_node d slot (key0 + c0 * 2 ^ (8 * (d + 1)))
                  | none => none) = _
                rw [hkc, hfind]
              rw [hw]
              have hwm := walk_mod d s0 (key0 + c0 * 2 ^ (8 * (d + 1)))
              rw [hmod] at hwm
              rw [← hwm]
              exact hw0
      | inner16 sh nc ps =>
          cases ps with
          | nil => simp [nodeEntries, innerEntriesWith] at he
          | cons p rest =>
              obtain ⟨c0, s0⟩ := p
              obtain ⟨hnd, hlen, hmem⟩ := hc
              obtain ⟨hc0, hcs, hes⟩ := hmem (c0, s0) (by simp)
              obtain ⟨key0, hk0, hw0⟩ := ih s0 hcs hes
              have hmul : c0 * 2 ^ (8 * (d + 1)) ≤ 255 * 2 ^ (8 * (d + 1)) :=
                Nat.mul_le_mul_right _ (by omega)
              refine ⟨key0 + c0 * 2 ^ (8 * (d + 1)), by omega, ?_⟩
              have hkc : keyChunk (key0 + c0 * 2 ^ (8 * (d + 1))) (d + 1) = c0 := by
                unfold keyChunk
                rw [Nat.add_mul_div_right _ _ hB, Nat.div_eq_of_lt hk0]
                simp [Nat.mod_eq_of_lt hc0]
              have hmod : (key0 + c0 * 2 ^ (8 * (d + 1))) % 2 ^ (8 * (d + 1)) = key0 := by
                rw [Nat.add_mul_mod_self_right]
                exact Nat.mod_eq_of_lt hk0
              have hfind : bfm_find_one_level_inner
                  (bfmNode.inner16 sh nc ((c0, s0) :: rest)) c0 = some s0 := by
                simp [bfm_find_one_level_inner, findPair]
              have hw : bfm_walk_node (d + 1) (bfmNode.inner16 sh nc ((c0, s0) :: rest))
                  (key0 + c0 * 2 ^ (8 * (d + 1))) =
                  bfm_walk_node d s0 (key0 + c0 * 2 ^ (8 * (d + 1))) := by
                show (match bfm_find_one_level_inner
                    (bfmNode.inner16 sh nc ((c0, s0) :: rest))
                    (keyChunk (key0 + c0 * 2 ^ (8 * (d + 1))) (d + 1)) with
                  | some slot => bfm_walk_node d slot (key0 + c0 * 2 ^ (8 * (d + 1)))
                  | none => none) = _
                rw [hkc, hfind]
              rw [hw]
              have hwm := walk_mod d s0 (key0 + c0 * 2 ^ (8 * (d + 1)))
              rw [hmod] at hwm
              rw [← hwm]
              exact hw0
      | inner32 sh nc ps =>
          cases ps with
          | nil => simp [nodeEntries, innerEntriesWith] at he
          | cons p rest =>
              obtain ⟨c0, s0⟩ := p
              obtain ⟨hnd, hlen, hmem⟩ := hc
              obtain ⟨hc0, hcs, hes⟩ := hmem (c0, s0) (by simp)
              obtain ⟨key0, hk0, hw0⟩ := ih s0 hcs hes
              have hmul : c0 * 2 ^ (8 * (d + 1)) ≤ 255 * 2 ^ (8 * (d + 1)) :=
                Nat.mul_le_mul_right _ (by omega)
              refine ⟨key0 + c0 * 2 ^ (8 * (d + 1)), by omega, ?_⟩
              have hkc : keyChunk (key0 + c0 * 2 ^ (8 * (d + 1))) (d + 1) = c0 := by
                unfold keyChunk
                rw [Nat.add_mul_div_right _ _ hB, Nat.div_eq_of_lt hk0]
                simp [Nat.mod_eq_of_lt hc0]
              have hmod : (key0 + c0 * 2 ^ (8 * (d + 1))) % 2 ^ (8 * (d + 1)) = key0 := by
                rw [Nat.add_mul_mod_self_right]
                exact Nat.mod_eq_of_lt hk0
              have hfind : bfm_find_one_level_inner
                  (bfmNode.inner32 sh nc ((c0, s0) :: rest)) c0 = some s0 := by
                simp [bfm_find_one_level_inner, findPair]
              have hw : bfm_walk_node (d + 1) (bfmNode.inner32 sh nc ((c0, s0) :: rest))
                  (key0 + c0 * 2 ^ (8 * (d + 1))) =
                  bfm_walk_node d s0 (key0 + c0 * 2 ^ (8 * (d + 1))) := by
                show (match bfm_find_one_level_inner
                    (bfmNode.inner32 sh nc ((c0, s0) :: rest))
                    (keyChunk (key0 + c0 * 2 ^ (8 * (d + 1))) (d + 1)) with
                  | some slot => bfm_walk_node d slot (key0 + c0 * 2 ^ (8 * (d + 1)))
                  | none => none) = _
                rw [hkc, hfind]
              rw [hw]
              have hwm := walk_mod d s0 (key0 + c0 * 2 ^ (8 * (d + 1)))
              rw [hmod] at hwm
              rw [← hwm]
              exact hw0
      | inner128 sh nc offs slots cnt =>
          obtain ⟨h1, h2, h3, h4, h5, h6, h7, h8⟩ := hc
          by_cases hlive : 1 ≤ offsLive offs
          · obtain ⟨c, hclt, hsome⟩ := exists_true_of_filter_pos _ 256 hlive
            obtain ⟨o, ho⟩ := Option.isSome_iff_exists.1 hsome
            obtain ⟨holt, hsm⟩ := h7 c o ho
            obtain ⟨s, hs⟩ := Option.isSome_iff_exists.1 hsm
            obtain ⟨hcs, hes⟩ := h8 o s hs
            obtain ⟨key0, hk0, hw0⟩ := ih s hcs hes
            have hmul : c * 2 ^ (8 * (d + 1)) ≤ 255 * 2 ^ (8 * (d + 1)) :=
              Nat.mul_le_mul_right _ (by omega)
            refine ⟨key0 + c * 2 ^ (8 * (d + 1)), by omega, ?_⟩
            have hkc : keyChunk (key0 + c * 2 ^ (8 * (d + 1))) (d + 1) = c := by
              unfold keyChunk
              rw [Nat.add_mul_div_right _ _ hB, Nat.div_eq_of_lt hk0]
              simp [Nat.mod_eq_of_lt hclt]
            have hmod : (key0 + c * 2 ^ (8 * (d + 1))) % 2 ^ (8 * (d + 1)) = key0 := by
              rw [Nat.add_mul_mod_self_right]
              exact Nat.mod_eq_of_lt hk0
            have hfind : bfm_find_one_level_inner
                (bfmNode.inner128 sh nc offs slots cnt) c = some s := by
              simp [bfm_find_one_level_inner, ho, hs]
            have hw : bfm_walk_node (d + 1) (bfmNode.inner128 sh nc offs slots cnt)
                (key0 + c * 2 ^ (8 * (d + 1))) =
                bfm_walk_node d s (key0 + c * 2 ^ (8 * (d + 1))) := by
              show (match bfm_find_one_level_inner (bfmNode.inner128 sh nc offs slots cnt)
                  (keyChunk (key0 + c * 2 ^ (8 * (d + 1))) (d + 1)) with
                | some slot => bfm_walk_node d slot (key0 + c * 2 ^ (8 * (d + 1)))
                | none => none) = _
              rw [hkc, hfind]
            rw [hw]
            have hwm := walk_mod d s (key0 + c * 2 ^ (8 * (d + 1)))
            rw [hmod] at hwm
            rw [← hwm]
            exact hw0
          · exfalso
            have hznone : ∀ o, slots o = none := by
              intro o
              cases hso : slots o with
              | none => rfl
              | some s =>
                  exfalso
                  obtain ⟨c, hclt, hco⟩ := h6 o (by rw [hso]; rfl)
                  exact hlive (one_le_filter_of_true (fun c => (offs c).isSome) 256 c hclt
                    (by show (offs c).isSome = true; rw [hco]; rfl))
            have hg : ∀ o, (match slots o with
                | some s => nodeEntries d s
                | none => 0) = 0 := by
              intro o
              rw [hznone o]
            have hsum : nodeEntries (d + 1) (bfmNode.inner128 sh nc offs slots cnt) = 0 := by
              simp only [nodeEntries, innerEntriesWith]
              refine List.sum_eq_zero ?_
              intro x hx
              obtain ⟨o, _, hxo⟩ := List.mem_map.1 hx
              rw [← hxo]
              exact hg o
            omega
      | innerMax sh nc slots cnt =>
          obtain ⟨h1, h2, h3⟩ := hc
          by_cases hlive : 1 ≤ slotsLive slots
          · obtain ⟨c, hclt, hsome⟩ := exists_true_of_filter_pos _ 256 hlive
            obtain ⟨s, hs⟩ := Option.isSome_iff_exists.1 hsome
            obtain ⟨hcs, hes⟩ := h3 c s hs
            obtain ⟨key0, hk0, hw0⟩ := ih s hcs hes
            have hmul : c * 2 ^ (8 * (d + 1)) ≤ 255 * 2 ^ (8 * (d + 1)) :=
              Nat.mul_le_mul_right _ (by omega)
            refine ⟨key0 + c * 2 ^ (8 * (d + 1)), by omega, ?_⟩
            have hkc : keyChunk (key0 + c * 2 ^ (8 * (d + 1))) (d + 1) = c := by
              unfold keyChunk
              rw [Nat.add_mul_div_right _ _ hB, Nat.div_eq_of_lt hk0]
              simp [Nat.mod_eq_of_lt hclt]
            have hmod : (key0 + c * 2 ^ (8 * (d + 1))) % 2 ^ (8 * (d + 1)) = key0 := by
              rw [Nat.add_mul_mod_self_right]
              exact Nat.mod_eq_of_lt hk0
            have hfind : bfm_find_one_level_inner
                (bfmNode.innerMax sh nc slots cnt) c = some s := hs
            have hw : bfm_walk_node (d + 1) (bfmNode.innerMax sh nc slots cnt)
                (key0 + c * 2 ^ (8 * (d + 1))) =
                bfm_walk_node d s (key0 + c * 2 ^ (8 * (d + 1))) := by
              show (match bfm_find_one_level_inner (bfmNode.innerMax sh nc slots cnt)
                  (keyChunk (key0 + c * 2 ^ (8 * (d + 1))) (d + 1)) with
                | some slot => bfm_walk_node d slot (key0 + c * 2 ^ (8 * (d + 1)))
                | none => none) = _
              rw [hkc, hfind]
            rw [hw]
            have hwm := walk_mod d s (key0 + c * 2 ^ (8 * (d + 1)))
            rw [hmod] at hwm
            rw [← hwm]
            exact hw0
          · exfalso
            have hznone : ∀ c, slots c = none := by
              intro c
              cases hso : slots c with
              | none => rfl
              | some s =>
                  exfalso
                  by_cases hclt : c < 256
                  · exact hlive (one_le_filter_of_true (fun c => (slots c).isSome) 256 c
                      hclt (by show (slots c).isSome = true; rw [hso]; rfl))
                  · rw [h2 c (by omega)] at hso
                    cases hso
            have hg : ∀ c, (match slots c with
                | some s => nodeEntries d s
                | none => 0) = 0 := by
              intro c
              rw [hznone c]
            have hsum : nodeEntries (d + 1) (bfmNode.innerMax sh nc slots cnt) = 0 := by
              simp only [nodeEntries, innerEntriesWith]
              refine List.sum_eq_zero ?_
              intro x hx
              obtain ⟨c, _, hxc⟩ := List.mem_map.1 hx
              rw [← hxc]
              exact hg c
            omega
      | leaf1 nc ps => exact absurd hc (by simp [nodeClean])
      | leaf4 nc ps => exact absurd hc (by simp [nodeClean])
      | leaf16 nc ps => exact absurd hc (by simp [nodeClean])
      | leaf32 nc ps => exact absurd hc (by simp [nodeClean])
      | leaf128 nc offs vals cnt => exact absurd hc (by simp [nodeClean])
      | leafMax nc bset vals cnt => exact absurd hc (by simp [nodeClean])

theorem treeClean_init : treeClean true bfm_init := by
  intro r hr
  simp [bfm_init] at hr

/-- Through a list of sets, the tree stays clean and a key can only
read as present if it was one of the keys written (or already hit). -/
theorem setList_inv : ∀ (kvs : List (Nat × Nat)) (t : bfmTree),
    treeClean true t → (∀ p ∈ kvs, p.1 < 2 ^ 64) →
    treeClean true (setList t kvs) ∧
    ∀ key', key' < 2 ^ 64 → (bfm_lookup (setList t kvs) key').1 = true →
      key' ∈ kvs.map Prod.fst ∨ (bfm_lookup t key').1 = true := by
  intro kvs
  induction kvs with
  | nil =>
      intro t hct _
      exact ⟨hct, fun key' _ h => Or.inr h⟩
  | cons p rest ih =>
      intro t hct hk
      obtain ⟨k, v⟩ := p
      have hk64 : k < 2 ^ 64 := hk (k, v) (by simp)
      obtain ⟨hct', _, hchar⟩ := bfm_set_main t k v hct hk64
      have hfold : setList t ((k, v) :: rest) = setList (bfm_set t k v).2 rest := rfl
      rw [hfold]
      obtain ⟨hcf, hhit⟩ := ih (bfm_set t k v).2 hct' (fun q hq => hk q (by simp [hq]))
      refine ⟨hcf, ?_⟩
      intro key' hklt hh
      rcases hhit key' hklt hh with hmem | hhit2
      · exact Or.inl (List.mem_cons.2 (Or.inr hmem))
      · have hc := hchar key' hklt
        by_cases hek : key' = k
        · refine Or.inl ?_
          rw [hek]
          exact List.mem_cons.2 (Or.inl rfl)
        · rw [hc, if_neg hek] at hhit2
          exact Or.inr hhit2

/-- Through a list of deletes, the tree stays clean and a key can only
read as present afterwards if it hit before and was not deleted. -/
theorem delList_inv : ∀ (ks : List Nat) (t : bfmTree), treeClean false t →
    treeClean false (delList t ks) ∧
    ∀ key', (bfm_lookup (delList t ks) key').1 = true →
      (bfm_lookup t key').1 = true ∧ key' ∉ ks := by
  intro ks
  induction ks with
  | nil =>
      intro t hct
      exact ⟨hct, fun key' h => ⟨h, by simp⟩⟩
  | cons k rest ih =>
      intro t hct
      obtain ⟨hct', hchar⟩ := bfm_delete_main t k hct
      have hfold : delList t (k :: rest) = delList (bfm_delete t k).2 rest := rfl
      rw [hfold]
      obtain ⟨hcf, hhit⟩ := ih (bfm_delete t k).2 hct'
      refine ⟨hcf, ?_⟩
      intro key' hh
      obtain ⟨hh2, hnr⟩ := hhit key' hh
      have hc := hchar key'
      by_cases hek : key' = k
      · rw [hc, if_pos hek] at hh2
        simp at hh2
      · rw [hc, if_neg hek] at hh2
        refine ⟨hh2, ?_⟩
        intro hmem
        rcases List.mem_cons.1 hmem with h | h
        · exact hek h
        · exact hnr h

/-- C7: from the empty tree, setting any finite list of uint64 keys
(in any order, values arbitrary) and then deleting a list of keys that
covers all of them (in any order, extra deletes allowed) returns the
tree to the empty state — the cascade of emptiness checks modelled in
`bfm_delete_node` frees every node up to and including the root, so
`rnode = none` — and afterwards every key misses on lookup. -/
theorem claim_C7_shrink_to_empty (kvs : List (Nat × Nat)) (ds : List Nat)
    (hkeys : ∀ p ∈ kvs, p.1 < 2 ^ 64)
    (hcover : ∀ p ∈ kvs, p.1 ∈ ds) :
    (delList (setList bfm_init kvs) ds).rnode = none ∧
    ∀ key, bfm_lookup (delList (setList bfm_init kvs) ds) key = (false, 0) := by
  obtain ⟨hcset, hhitset⟩ := setList_inv kvs bfm_init treeClean_init hkeys
  obtain ⟨hcdel, hhitdel⟩ := delList_inv ds (setList bfm_init kvs)
    (treeClean_weaken _ hcset)
  have hnone : (delList (setList bfm_init kvs) ds).rnode = none := by
    cases hr : (delList (setList bfm_init kvs) ds).rnode with
    | none => rfl
    | some r =>
        exfalso
        obtain ⟨hcr, hm8, hsle, hmax, hent⟩ := hcdel r hr
        obtain ⟨key0, hk0, hw0⟩ := exists_walk_hit (nodeShift r / 8) r hcr hent
        have hS : 8 * (nodeShift r / 8 + 1) = nodeShift r + 8 := by omega
        have hk0' : key0 < 2 ^ (nodeShift r + 8) := by
          rw [← hS]
          exact hk0
        have hone : (1 : Nat) ≤ 2 ^ (nodeShift r + 8) := Nat.one_le_two_pow
        have hle64 : 2 ^ (nodeShift r + 8) ≤ 2 ^ 64 :=
          Nat.pow_le_pow_right (by omega) (by omega)
        have hmaxval : (delList (setList bfm_init kvs) ds).maxval =
            2 ^ (nodeShift r + 8) - 1 := by
          rw [hmax]
          unfold bfm_maxval_shift
          exact Nat.mod_eq_of_lt (by omega)
        have hguard : ¬((delList (setList bfm_init kvs) ds).maxval < key0) := by
          rw [hmaxval]
          omega
        obtain ⟨v, hv⟩ := Option.isSome_iff_exists.1 hw0
        have hlk : (bfm_lookup (delList (setList bfm_init kvs) ds) key0).1 = true := by
          simp [bfm_lookup, hr, hguard, hv]
        obtain ⟨hsethit, hnotds⟩ := hhitdel key0 hlk
        have hk64 : key0 < 2 ^ 64 := by omega
        rcases hhitset key0 hk64 hsethit with hmem | hinit
        · obtain ⟨p, hp, hpk⟩ := List.mem_map.1 hmem
          exact hnotds (hpk ▸ hcover p hp)
        · simp [bfm_lookup, bfm_init] at hinit
  refine ⟨hnone, ?_⟩
  intro key
  simp [bfm_lookup, hnone]

/-- Concrete instance of the C7 theorem: set keys 1 and 300, delete
them in the opposite order, and the root is freed. -/
theorem claim_C7_shrink_to_empty_witness :
    (∀ p ∈ [((1 : Nat), (10 : Nat)), (300, 20)], p.1 < 2 ^ 64) ∧
    (∀ p ∈ [((1 : Nat), (10 : Nat)), (300, 20)], p.1 ∈ [(300 : Nat), 1]) ∧
    (delList (setList bfm_init [(1, 10), (300, 20)]) [300, 1]).rnode = none :=
  ⟨by decide, by decide,
    (claim_C7_shrink_to_empty [(1, 10), (300, 20)] [300, 1]
      (by decide) (by decide)).1⟩

end Radix
